import Mathlib

/-!
# Verification of the grid pathfinding engine

A shallow embedding of `algorithmVisualizer.py`: the `Node`/`Grid` data model,
the four search algorithms (BFS, DFS, Dijkstra, A*), path reconstruction, and
the keyboard dispatch, together with proofs about them.

Conventions of the embedding:

* A grid cell is identified by its `(row, col)` coordinates (`Pos`); the Python
  code compares `Node` objects by identity, and nodes are unique per position,
  so positions are faithful identities.  The grid is an arena `Pos → Node`.
* Python's `float("inf")` distance is `Option Nat` with `none` as infinity;
  `optLt` mirrors the float comparison used by `Node.__lt__`.
* The source fixes `ROWS, COLS = 30, 30` as globals; the bounds logic is uniform
  in them, so the embedding carries `rows`/`cols` as fields of `Grid` (the
  constant `ROWS`/`COLS` below records the source's values).
* `queue.PriorityQueue` wraps CPython's `heapq`; `heappush`/`heappop` and the
  two sift routines are embedded verbatim (list-based binary heap), because the
  exact pop order on ties is observable in the results.
* Rendering calls (`draw`, `pygame.display.update`, `clock.tick`) are I/O with
  no effect on the data model and are dropped.
* The unbounded `while` loops take a fuel parameter and return `none` when fuel
  runs out; theorems prove a concrete fuel bound suffices.
-/

abbrev Pos := Int × Int

/-- Python float comparison `a < b` where `none` is `float("inf")`. -/
def optLt : Option Nat → Option Nat → Bool
  | some a, some b => decide (a < b)
  | some _, none => true
  | none, _ => false

/-- `distance + 1` where `none` is `float("inf")` (`inf + 1 = inf`). -/
def optAdd1 : Option Nat → Option Nat
  | none => none
  | some a => some (a + 1)

-- Node states (source: `START, END, WALL, PATH, PROCESSING = 1, 2, 3, 4, 5`;
-- `0` is empty).
def START : Nat := 1

def END : Nat := 2

def WALL : Nat := 3

def PATH : Nat := 4

def PROCESSING : Nat := 5

-- Source globals `ROWS, COLS = 30, 30`.
def ROWS : Int := 30

def COLS : Int := 30

/-- One grid cell: classification state plus search bookkeeping. -/
structure Node where
  state : Nat := 0
  distance : Option Nat := none
  heuristic : Nat := 0
  prev : Option Pos := none
deriving DecidableEq, Repr

/-- A fresh node, as built by `Node.__init__`. -/
def Node.init : Node := {}

/-- `Node.__lt__`: "Compare based on distance". -/
def Node.lt (a b : Node) : Bool := optLt a.distance b.distance

/-- `Node.reset`: back to empty with fresh bookkeeping. -/
def Node.reset (_n : Node) : Node := {}

/-- The grid: an arena of nodes indexed by position, plus the start/end
designation (`self.start`/`self.end`, `None` when absent). -/
structure Grid where
  rows : Int
  cols : Int
  grid : Pos → Node
  startPos : Option Pos
  endPos : Option Pos

/-- Write one node of the arena. -/
def Grid.setNode (g : Grid) (p : Pos) (n : Node) : Grid :=
  { g with grid := fun q => if q = p then n else g.grid q }

-- `directions = [(0, 1), (1, 0), (0, -1), (-1, 0)]  # Right, Down, Left, Up`
def directions : List Pos := [(0, 1), (1, 0), (0, -1), (-1, 0)]

/-- `Grid.get_neighbors`: the in-bounds, non-wall cells orthogonally adjacent
to `node`, in the fixed order right, down, left, up. -/
def Grid.get_neighbors (g : Grid) (node : Pos) : List Pos :=
  (directions.map fun d => (node.1 + d.1, node.2 + d.2)).filter fun q =>
    decide (0 ≤ q.1) && decide (q.1 < g.rows) && decide (0 ≤ q.2) &&
      decide (q.2 < g.cols) && decide ((g.grid q).state ≠ WALL)

/-- `Grid.reset`: reset every node and clear the start/end designation. -/
def Grid.reset (g : Grid) : Grid :=
  { g with grid := fun p => (g.grid p).reset, startPos := none, endPos := none }

/-! ## CPython `heapq` (used through `queue.PriorityQueue`)

The heap is a list of positions; comparisons go through `Node.__lt__` on the
current grid, i.e. a comparison function `lt : Pos → Pos → Bool`. -/

/-- `heap[i]` (indices are always in bounds at call sites). -/
def hget (heap : List Pos) (i : Nat) : Pos := heap.getD i (0, 0)

/-- The `while` loop of `heapq._siftdown`, as structural recursion on a fuel
counter.  The loop strictly decreases `pos`, so fuel `pos + 1` always reaches
the real exit (the fuel-0 fallback equals the loop exit and is unreachable
for fuel `> pos`). -/
def siftdownAux (lt : Pos → Pos → Bool) (startpos : Nat) :
    Nat → List Pos → Pos → Nat → List Pos
  | 0, heap, newitem, pos => heap.set pos newitem
  | fuel + 1, heap, newitem, pos =>
    if startpos < pos then
      if lt newitem (hget heap ((pos - 1) / 2)) then
        siftdownAux lt startpos fuel (heap.set pos (hget heap ((pos - 1) / 2)))
          newitem ((pos - 1) / 2)
      else heap.set pos newitem
    else heap.set pos newitem

/-- `heapq._siftdown(heap, startpos, pos)` with `newitem = heap[pos]` passed
explicitly: bubble `newitem` towards the root. -/
def siftdown (lt : Pos → Pos → Bool) (startpos : Nat) (heap : List Pos)
    (newitem : Pos) (pos : Nat) : List Pos :=
  siftdownAux lt startpos (pos + 1) heap newitem pos

/-- The `while` loop of `heapq._siftup` as structural recursion on fuel.  The
loop strictly increases `pos` below `heap.length` (which the body preserves),
so fuel `heap.length + 1` always reaches a real exit. -/
def siftupAux (lt : Pos → Pos → Bool) :
    Nat → List Pos → Pos → Nat → Nat → List Pos
  | 0, heap, newitem, _, pos => heap.set pos newitem
  | fuel + 1, heap, newitem, startpos, pos =>
    if 2 * pos + 1 < heap.length then
      siftupAux lt fuel
        (heap.set pos (hget heap
          (if 2 * pos + 2 < heap.length
              && !lt (hget heap (2 * pos + 1)) (hget heap (2 * pos + 2)) then
            2 * pos + 2
          else 2 * pos + 1)))
        newitem startpos
        (if 2 * pos + 2 < heap.length
            && !lt (hget heap (2 * pos + 1)) (hget heap (2 * pos + 2)) then
          2 * pos + 2
        else 2 * pos + 1)
    else siftdown lt startpos (heap.set pos newitem) newitem pos

/-- `heapq._siftup(heap, pos)` with `newitem = heap[pos]` passed explicitly:
move the hole at `pos` down to a leaf, then bubble `newitem` up. -/
def siftup (lt : Pos → Pos → Bool) (heap : List Pos) (newitem : Pos)
    (startpos pos : Nat) : List Pos :=
  siftupAux lt (heap.length + 1) heap newitem startpos pos

/-- `heapq.heappush`. -/
def heappush (lt : Pos → Pos → Bool) (heap : List Pos) (item : Pos) : List Pos :=
  siftdown lt 0 (heap ++ [item]) item heap.length

/-- `heapq.heappop`; `none` on an empty heap (the loops only pop after the
`while not open_set.empty()` guard). -/
def heappop (lt : Pos → Pos → Bool) (heap : List Pos) : Option (Pos × List Pos) :=
  match heap.getLast? with
  | none => none
  | some lastelt =>
    let rest := heap.dropLast
    if rest.isEmpty then some (lastelt, [])
    else some (hget rest 0, siftup lt (rest.set 0 lastelt) lastelt 0 0)

/-- Node comparison on the current grid, as `PriorityQueue` performs it. -/
def nodeLt (g : Grid) (a b : Pos) : Bool := Node.lt (g.grid a) (g.grid b)

/-! ## Path reconstruction -/

/-- `PathfindingVisualizer.reconstruct_path`: walk `prev` links from `node`,
marking every non-start/end node on the way as on-path and counting it. -/
def reconstruct_path : Nat → Grid → Pos → Nat → Option (Grid × Nat)
  | 0, _, _, _ => none
  | rfuel + 1, g, node, path_length =>
    let n := g.grid node
    let step :=
      if n.state ≠ START ∧ n.state ≠ END then
        (g.setNode node { n with state := PATH }, path_length + 1)
      else (g, path_length)
    match n.prev with
    | none => some step
    | some q => reconstruct_path rfuel step.1 q step.2

/-! ## Dijkstra -/

/-- The relaxation `for` loop inside `dijkstra`: for each neighbor, if
`current.distance + 1 < neighbor.distance`, update distance and predecessor
and push the neighbor. -/
def dijkstraRelax (g : Grid) (current : Pos) :
    List Pos → List Pos → Grid × List Pos
  | [], heap => (g, heap)
  | neighbor :: rest, heap =>
    let temp_distance := optAdd1 (g.grid current).distance
    if optLt temp_distance (g.grid neighbor).distance then
      let g' := g.setNode neighbor
        { g.grid neighbor with distance := temp_distance, prev := some current }
      dijkstraRelax g' current rest (heappush (nodeLt g') heap neighbor)
    else dijkstraRelax g current rest heap

/-- The `while` loop of `dijkstra`.  Returns `(grid, visited_count,
path_length)`; the source returns the literal `0` as the count when the
frontier empties without reaching the end. -/
def dijkstraLoop (rfuel : Nat) (endP : Pos) :
    Nat → Grid → List Pos → Nat → Nat → Option (Grid × Nat × Nat)
  | 0, _, _, _, _ => none
  | fuel + 1, g, open_set, visited_count, pl =>
    match heappop (nodeLt g) open_set with
    | none => some (g, 0, pl)
    | some (current, open_rest) =>
      if current = endP then
        match reconstruct_path rfuel g current 0 with
        | none => none
        | some (g', plen) => some (g', visited_count, plen)
      else
        let g1 := g.setNode current { g.grid current with state := PROCESSING }
        let step := dijkstraRelax g1 current (g1.get_neighbors current) open_rest
        dijkstraLoop rfuel endP fuel step.1 step.2 (visited_count + 1) pl

/-- `PathfindingVisualizer.dijkstra`.  `pl` is the visualizer's current
`path_length` (it is only overwritten on success).  The source dereferences
`self.grid.start`/`self.grid.end` unconditionally; absence is a crash,
embedded as `none`. -/
def dijkstra (fuel rfuel : Nat) (g : Grid) (pl : Nat) : Option (Grid × Nat × Nat) :=
  match g.startPos, g.endPos with
  | some s, some e =>
    let g0 := g.setNode s { g.grid s with distance := some 0 }
    dijkstraLoop rfuel e fuel g0 (heappush (nodeLt g0) [] s) 0 pl
  | _, _ => none

/-! ## A* -/

/-- Manhattan distance heuristic. -/
def heuristic (node_a node_b : Pos) : Nat :=
  (node_a.1 - node_b.1).natAbs + (node_a.2 - node_b.2).natAbs

/-- The relaxation loop of `a_star`: as Dijkstra's, but additionally stores
`heuristic(neighbor, end)` on the relaxed neighbor. -/
def aStarRelax (g : Grid) (current endP : Pos) :
    List Pos → List Pos → Grid × List Pos
  | [], heap => (g, heap)
  | neighbor :: rest, heap =>
    let temp_distance := optAdd1 (g.grid current).distance
    if optLt temp_distance (g.grid neighbor).distance then
      let g' := g.setNode neighbor
        { g.grid neighbor with
            distance := temp_distance, prev := some current,
            heuristic := heuristic neighbor endP }
      aStarRelax g' current endP rest (heappush (nodeLt g') heap neighbor)
    else aStarRelax g current endP rest heap

/-- The `while` loop of `a_star`. -/
def aStarLoop (rfuel : Nat) (endP : Pos) :
    Nat → Grid → List Pos → Nat → Nat → Option (Grid × Nat × Nat)
  | 0, _, _, _, _ => none
  | fuel + 1, g, open_set, visited_count, pl =>
    match heappop (nodeLt g) open_set with
    | none => some (g, 0, pl)
    | some (current, open_rest) =>
      if current = endP then
        match reconstruct_path rfuel g current 0 with
        | none => none
        | some (g', plen) => some (g', visited_count, plen)
      else
        let g1 := g.setNode current { g.grid current with state := PROCESSING }
        let step := aStarRelax g1 current endP (g1.get_neighbors current) open_rest
        aStarLoop rfuel endP fuel step.1 step.2 (visited_count + 1) pl

/-- `PathfindingVisualizer.a_star`. -/
def a_star (fuel rfuel : Nat) (g : Grid) (pl : Nat) : Option (Grid × Nat × Nat) :=
  match g.startPos, g.endPos with
  | some s, some e =>
    let g0 := g.setNode s { g.grid s with distance := some 0 }
    aStarLoop rfuel e fuel g0 (heappush (nodeLt g0) [] s) 0 pl
  | _, _ => none

/-! ## BFS -/

/-- The neighbor loop of `bfs`: enqueue unseen neighbors, recording `prev`
and adding them to the seen set. -/
def bfsEnqueue (g : Grid) (current : Pos) :
    List Pos → List Pos → List Pos → Grid × List Pos × List Pos
  | [], queue, visited => (g, queue, visited)
  | neighbor :: rest, queue, visited =>
    if neighbor ∈ visited then bfsEnqueue g current rest queue visited
    else
      bfsEnqueue (g.setNode neighbor { g.grid neighbor with prev := some current })
        current rest (queue ++ [neighbor]) (neighbor :: visited)

/-- The `while` loop of `bfs` (FIFO queue). -/
def bfsLoop (rfuel : Nat) (endP : Pos) :
    Nat → Grid → List Pos → List Pos → Nat → Nat → Option (Grid × Nat × Nat)
  | 0, _, _, _, _, _ => none
  | fuel + 1, g, queue, visited, visited_count, pl =>
    match queue with
    | [] => some (g, 0, pl)
    | current :: rest =>
      if current = endP then
        match reconstruct_path rfuel g current 0 with
        | none => none
        | some (g', plen) => some (g', visited_count, plen)
      else
        let g1 := g.setNode current { g.grid current with state := PROCESSING }
        let step := bfsEnqueue g1 current (g1.get_neighbors current) rest visited
        bfsLoop rfuel endP fuel step.1 step.2.1 step.2.2 (visited_count + 1) pl

/-- `PathfindingVisualizer.bfs`: seen set seeded with start; no distances. -/
def bfs (fuel rfuel : Nat) (g : Grid) (pl : Nat) : Option (Grid × Nat × Nat) :=
  match g.startPos, g.endPos with
  | some s, some e => bfsLoop rfuel e fuel g [s] [s] 0 pl
  | _, _ => none

/-! ## DFS -/

/-- The neighbor loop of `dfs`: push unvisited neighbors (possibly again),
overwriting `prev` each time. -/
def dfsPush (g : Grid) (current : Pos) (visited : List Pos) :
    List Pos → List Pos → Grid × List Pos
  | [], stack => (g, stack)
  | neighbor :: rest, stack =>
    if neighbor ∈ visited then dfsPush g current visited rest stack
    else
      dfsPush (g.setNode neighbor { g.grid neighbor with prev := some current })
        current visited rest (stack ++ [neighbor])

/-- The `while` loop of `dfs` (stack; `list.pop()` takes the last element;
the visited check happens on pop, after the end test). -/
def dfsLoop (rfuel : Nat) (endP : Pos) :
    Nat → Grid → List Pos → List Pos → Nat → Nat → Option (Grid × Nat × Nat)
  | 0, _, _, _, _, _ => none
  | fuel + 1, g, stack, visited, visited_count, pl =>
    match stack.getLast? with
    | none => some (g, 0, pl)
    | some current =>
      let rest := stack.dropLast
      if current = endP then
        match reconstruct_path rfuel g current 0 with
        | none => none
        | some (g', plen) => some (g', visited_count, plen)
      else if current ∈ visited then
        dfsLoop rfuel endP fuel g rest visited visited_count pl
      else
        let g1 := g.setNode current { g.grid current with state := PROCESSING }
        let visited1 := current :: visited
        let step := dfsPush g1 current visited1 (g1.get_neighbors current) rest
        dfsLoop rfuel endP fuel step.1 step.2 visited1 (visited_count + 1) pl

/-- `PathfindingVisualizer.dfs`: stack seeded with start, empty visited set. -/
def dfs (fuel rfuel : Nat) (g : Grid) (pl : Nat) : Option (Grid × Nat × Nat) :=
  match g.startPos, g.endPos with
  | some s, some e => dfsLoop rfuel e fuel g [s] [] 0 pl
  | _, _ => none

/-! ## Visualizer state and keyboard dispatch -/

/-- The mutable state of `PathfindingVisualizer` that the core touches. -/
structure PathfindingVisualizer where
  grid : Grid
  visited_count : Nat
  path_length : Nat

/-- The keys `handle_key_press` reacts to. -/
inductive Key
  | d | a | b | f | c | r
deriving DecidableEq

/-- `run_algorithm`: run the algorithm, store its return value as
`visited_count` (the popup/UI flags are pure rendering and are dropped). -/
def run_algorithm (vz : PathfindingVisualizer)
    (alg : Grid → Nat → Option (Grid × Nat × Nat)) : Option PathfindingVisualizer :=
  match alg vz.grid vz.path_length with
  | none => none
  | some (g', c, p) => some { grid := g', visited_count := c, path_length := p }

/-- `handle_key_press`: algorithm keys are guarded by
`self.grid.start and self.grid.end`; both C and R call `self.grid.reset()`. -/
def handle_key_press (fuel rfuel : Nat) (vz : PathfindingVisualizer) (key : Key) :
    Option PathfindingVisualizer :=
  match key with
  | .d =>
    if vz.grid.startPos ≠ none ∧ vz.grid.endPos ≠ none then
      run_algorithm vz (dijkstra fuel rfuel)
    else some vz
  | .a =>
    if vz.grid.startPos ≠ none ∧ vz.grid.endPos ≠ none then
      run_algorithm vz (a_star fuel rfuel)
    else some vz
  | .b =>
    if vz.grid.startPos ≠ none ∧ vz.grid.endPos ≠ none then
      run_algorithm vz (bfs fuel rfuel)
    else some vz
  | .f =>
    if vz.grid.startPos ≠ none ∧ vz.grid.endPos ≠ none then
      run_algorithm vz (dfs fuel rfuel)
    else some vz
  | .c => some { vz with grid := vz.grid.reset }
  | .r => some { vz with grid := vz.grid.reset }

/-! ## Concrete grids

`mkGrid` builds a freshly configured grid the way the mouse placement does:
start and end cells carry their classification, wall cells are walls, and all
bookkeeping is fresh (`distance = inf`, `prev = None`, `heuristic = 0`). -/

def mkGrid (rows cols : Int) (walls : List Pos) (s e : Pos) : Grid :=
  { rows := rows, cols := cols,
    grid := fun p =>
      if p = s then { state := START }
      else if p = e then { state := END }
      else if p ∈ walls then { state := WALL }
      else {},
    startPos := some s, endPos := some e }

/-- 5×5 all-empty grid, start `(0,0)`, end `(4,4)` (spec's concrete scenario). -/
def cgOpen5 : Grid := mkGrid 5 5 [] (0, 0) (4, 4)

/-- 3×3 grid with the whole middle row blocked: end unreachable. -/
def cgWall3 : Grid := mkGrid 3 3 [(1, 0), (1, 1), (1, 2)] (0, 0) (2, 2)

/-- 1×5 corridor with start `(0,2)` and end `(0,0)`: exploring right moves
away from the end, separating distance order from distance+heuristic order. -/
def cgRow5 : Grid := mkGrid 1 5 [] (0, 2) (0, 0)

/-- 2×2 all-empty grid, start `(0,0)`, end `(1,1)`. -/
def cgTiny : Grid := mkGrid 2 2 [] (0, 0) (1, 1)

/-- 2×2 grid whose start and end are the same cell `(0,0)`. -/
def cgSame : Grid := mkGrid 2 2 [] (0, 0) (0, 0)

/-- A configured grid used to exhibit what `Grid.reset` destroys: a start, an
end and one wall. -/
def cgConfigured : Grid := mkGrid 3 3 [(1, 1)] (0, 0) (2, 2)

/-! ## C9: the adjacency query -/

/-- `q` is orthogonally (N/S/E/W) adjacent to `p`. -/
def adjacent (p q : Pos) : Prop :=
  (p.1 = q.1 ∧ (p.2 - q.2).natAbs = 1) ∨ (p.2 = q.2 ∧ (p.1 - q.1).natAbs = 1)

/-- The four candidate cells around `p` in the source's fixed order:
right, down, left, up. -/
def rdlu (p : Pos) : List Pos :=
  [(p.1, p.2 + 1), (p.1 + 1, p.2), (p.1, p.2 - 1), (p.1 - 1, p.2)]


/-- `get_neighbors` is the passability filter over the fixed candidate list. -/
theorem get_neighbors_eq_filter (g : Grid) (p : Pos) :
    g.get_neighbors p = (rdlu p).filter fun q =>
      decide (0 ≤ q.1) && decide (q.1 < g.rows) && decide (0 ≤ q.2) &&
        decide (q.2 < g.cols) && decide ((g.grid q).state ≠ WALL) := by
  rw [Grid.get_neighbors]
  congr 1
  simp only [directions, rdlu, List.map_cons, List.map_nil, List.cons.injEq,
    Prod.mk.injEq, and_true, true_and]
  omega

/-- Membership in the candidate list is exactly orthogonal adjacency. -/
theorem mem_rdlu_iff_adjacent (p q : Pos) : q ∈ rdlu p ↔ adjacent p q := by
  rcases p with ⟨a, b⟩
  rcases q with ⟨c, d⟩
  simp only [rdlu, adjacent, List.mem_cons, List.not_mem_nil, or_false,
    Prod.mk.injEq]
  omega

/-- C9: `get_neighbors` returns exactly the orthogonally adjacent in-bounds
non-wall cells — a wall is never returned — and returns them as a subsequence
of the fixed right, down, left, up order. -/
theorem c9_get_neighbors_characterization (g : Grid) (p : Pos) :
    (∀ q, q ∈ g.get_neighbors p ↔
      adjacent p q ∧ 0 ≤ q.1 ∧ q.1 < g.rows ∧ 0 ≤ q.2 ∧ q.2 < g.cols ∧
        (g.grid q).state ≠ WALL)
    ∧ (g.get_neighbors p).Sublist (rdlu p) := by
  constructor
  · intro q
    rw [get_neighbors_eq_filter, List.mem_filter, mem_rdlu_iff_adjacent]
    simp only [Bool.and_eq_true, decide_eq_true_eq]
    tauto
  · rw [get_neighbors_eq_filter]
    exact List.filter_sublist _

/-! ## Predecessor chains and `reconstruct_path` -/

/-- The maximal `prev`-chain starting at a node: exactly the list of nodes the
`while node:` loop of `reconstruct_path` visits. -/
inductive PrevChain (g : Grid) : Pos → List Pos → Prop
  | last (p : Pos) : (g.grid p).prev = none → PrevChain g p [p]
  | cons (p q : Pos) (rest : List Pos) :
      (g.grid p).prev = some q → PrevChain g q rest → PrevChain g p (p :: rest)

theorem PrevChain.unique {g : Grid} {p : Pos} {l1 l2 : List Pos}
    (h1 : PrevChain g p l1) (h2 : PrevChain g p l2) : l1 = l2 := by
  induction h1 generalizing l2 with
  | last p hp =>
    cases h2 with
    | last _ _ => rfl
    | cons _ q rest hq _ => rw [hp] at hq; cases hq
  | cons p q rest hq _ ih =>
    cases h2 with
    | last _ hp => rw [hp] at hq; cases hq
    | cons _ q2 rest2 hq2 h2' =>
      rw [hq] at hq2
      injection hq2 with e
      subst e
      rw [ih h2']

theorem PrevChain.mem_suffix {g : Grid} {p y : Pos} {l : List Pos}
    (h : PrevChain g p l) (hy : y ∈ l) : ∃ l', PrevChain g y l' ∧ l' <:+ l := by
  induction h with
  | last p hp =>
    have hyp : y = p := List.mem_singleton.mp hy
    subst hyp
    exact ⟨[y], .last y hp, List.suffix_refl _⟩
  | cons p q rest hq hrest ih =>
    rcases List.mem_cons.mp hy with hyp | hy'
    · subst hyp
      exact ⟨y :: rest, .cons y q rest hq hrest, List.suffix_refl _⟩
    · obtain ⟨l', hl', hs⟩ := ih hy'
      exact ⟨l', hl', hs.trans (List.suffix_cons _ _)⟩

theorem PrevChain.nodup {g : Grid} {p : Pos} {l : List Pos} (h : PrevChain g p l) :
    l.Nodup := by
  induction h with
  | last p hp => simp
  | cons p q rest hq hrest ih =>
    refine List.nodup_cons.mpr ⟨fun hp => ?_, ih⟩
    obtain ⟨l', hl', hs⟩ := hrest.mem_suffix hp
    have he : l' = p :: rest := hl'.unique (.cons p q rest hq hrest)
    have hlen := hs.length_le
    rw [he] at hlen
    simp at hlen

/-- A chain only depends on the `prev` fields of its members. -/
theorem PrevChain.congr {g g' : Grid} {p : Pos} {l : List Pos}
    (h : PrevChain g p l) (hprev : ∀ x ∈ l, (g'.grid x).prev = (g.grid x).prev) :
    PrevChain g' p l := by
  induction h with
  | last p hp => exact .last p (by rw [hprev p (by simp), hp])
  | cons p q rest hq _ ih =>
    exact .cons p q rest (by rw [hprev p (by simp), hq])
      (ih fun x hx => hprev x (by simp [hx]))

theorem PrevChain.head_eq {g : Grid} {p a : Pos} {l : List Pos}
    (h : PrevChain g p (a :: l)) : a = p := by
  cases h <;> rfl

/-- `reconstruct_path` walks exactly the `prev`-chain and returns the input
accumulator plus the number of chain nodes whose classification is neither
start nor end (those are the ones it marks as on-path). -/
theorem reconstruct_path_chain :
    ∀ (ch : List Pos) (g : Grid) (p : Pos), PrevChain g p ch →
      ∀ rfuel acc : Nat, ch.length ≤ rfuel →
        ∃ g', reconstruct_path rfuel g p acc =
          some (g', acc + (ch.countP fun x =>
            decide ((g.grid x).state ≠ START ∧ (g.grid x).state ≠ END))) := by
  intro ch
  induction ch with
  | nil => intro g p h; cases h
  | cons a rest ih =>
    intro g p h rfuel acc hf
    obtain rfl : a = p := h.head_eq
    match rfuel, hf with
    | rfuel + 1, hf =>
      cases h with
      | last _ hp =>
        by_cases hc : (g.grid a).state ≠ START ∧ (g.grid a).state ≠ END
        · refine ⟨g.setNode a { g.grid a with state := PATH }, ?_⟩
          rw [reconstruct_path]
          simp [hp, hc, List.countP_cons]
        · refine ⟨g, ?_⟩
          rw [reconstruct_path]
          simp [hp, hc, List.countP_cons]
      | cons _ q _ hq hrest =>
        have hlen : rest.length ≤ rfuel := by
          simp only [List.length_cons] at hf
          omega
        have hnd := (PrevChain.cons a q rest hq hrest).nodup
        have hpnotin : a ∉ rest := (List.nodup_cons.mp hnd).1
        by_cases hc : (g.grid a).state ≠ START ∧ (g.grid a).state ≠ END
        · have hstep : reconstruct_path (rfuel + 1) g a acc =
              reconstruct_path rfuel (g.setNode a { g.grid a with state := PATH })
                q (acc + 1) := by
            rw [reconstruct_path]
            simp [hq, hc]
          have hprev : ∀ x ∈ rest,
              ((g.setNode a { g.grid a with state := PATH }).grid x).prev =
                (g.grid x).prev := by
            intro x hx
            have hxa : x ≠ a := fun hxeq => hpnotin (hxeq ▸ hx)
            simp [Grid.setNode, hxa]
          obtain ⟨g', hrec⟩ :=
            ih (g.setNode a { g.grid a with state := PATH }) q
              (hrest.congr hprev) rfuel (acc + 1) hlen
          refine ⟨g', ?_⟩
          have hcount : (rest.countP fun x =>
              decide ((((g.setNode a { g.grid a with state := PATH }).grid x).state ≠ START)
                ∧ (((g.setNode a { g.grid a with state := PATH }).grid x).state ≠ END)))
              = rest.countP fun x =>
                decide ((g.grid x).state ≠ START ∧ (g.grid x).state ≠ END) := by
            apply List.countP_congr
            intro x hx
            have hxa : x ≠ a := fun hxeq => hpnotin (hxeq ▸ hx)
            simp [Grid.setNode, hxa]
          rw [hstep, hrec, hcount, List.countP_cons]
          simp only [decide_eq_true_eq]
          rw [if_pos hc]
          congr 2
          omega
        · have hstep : reconstruct_path (rfuel + 1) g a acc =
              reconstruct_path rfuel g q acc := by
            rw [reconstruct_path]
            simp [hq, hc]
          obtain ⟨g', hrec⟩ := ih g q hrest rfuel acc hlen
          refine ⟨g', ?_⟩
          rw [hstep, hrec, List.countP_cons]
          simp [hc]

theorem countP_eq_length_of_all {l : List Pos} {p : Pos → Bool}
    (h : ∀ a ∈ l, p a = true) : l.countP p = l.length := by
  induction l with
  | nil => simp
  | cons a rest ih =>
    rw [List.countP_cons, ih fun x hx => h x (by simp [hx]), h a (by simp)]
    simp

/-! ## C2: path reconstruction counts edges -/

/-- C2: after a successful search, `reconstruct_path` applied to the end node
returns the number of edges of the reconstructed path (the chain minus the end
node itself, whose classification is still `END`; the start node was
overwritten to `PROCESSING` when dequeued and is therefore counted), and on the
5×5 all-empty grid with start `(0,0)`, end `(4,4)`, BFS, Dijkstra and A* all
report `path_length = 8`. -/
theorem c2_path_length_counts_edges :
    (∀ (g : Grid) (e : Pos) (ch : List Pos) (rfuel : Nat),
        PrevChain g e ch → (g.grid e).state = END →
        (∀ x ∈ ch, x ≠ e → (g.grid x).state ≠ START ∧ (g.grid x).state ≠ END) →
        ch.length ≤ rfuel →
        ∃ g', reconstruct_path rfuel g e 0 = some (g', ch.length - 1))
    ∧ (bfs 100 100 cgOpen5 0).map (fun r => r.2.2) = some 8
    ∧ (dijkstra 100 100 cgOpen5 0).map (fun r => r.2.2) = some 8
    ∧ (a_star 100 100 cgOpen5 0).map (fun r => r.2.2) = some 8 := by
  refine ⟨?_, rfl, rfl, rfl⟩
  intro g e ch rfuel hch hend hmid hf
  obtain ⟨g', hrec⟩ := reconstruct_path_chain ch g e hch rfuel 0 hf
  refine ⟨g', ?_⟩
  rw [hrec]
  obtain ⟨rest, rfl⟩ : ∃ rest, ch = e :: rest := by
    cases hch with
    | last _ _ => exact ⟨[], rfl⟩
    | cons _ q rest _ _ => exact ⟨rest, rfl⟩
  have hnd := hch.nodup
  have henotin : e ∉ rest := (List.nodup_cons.mp hnd).1
  congr 2
  rw [List.countP_cons]
  have hcond : decide ((g.grid e).state ≠ START ∧ (g.grid e).state ≠ END) = false := by
    simp [hend, END]
  rw [hcond]
  have hall : ∀ x ∈ rest,
      decide ((g.grid x).state ≠ START ∧ (g.grid x).state ≠ END) = true := by
    intro x hx
    have hxe : x ≠ e := fun hxeq => henotin (hxeq ▸ hx)
    have := hmid x (by simp [hx]) hxe
    simp [this.1, this.2]
  rw [countP_eq_length_of_all hall]
  simp

/-- Witness grid for C2: a two-cell chain, end `(0,1)` with predecessor
`(0,0)` which was dequeued (state `PROCESSING`). -/
def cgChain : Grid :=
  { rows := 1, cols := 2,
    grid := fun p =>
      if p = (0, 1) then { state := END, prev := some (0, 0) }
      else if p = (0, 0) then { state := PROCESSING }
      else {},
    startPos := some (0, 0), endPos := some (0, 1) }

theorem c2_witness :
    PrevChain cgChain (0, 1) [(0, 1), (0, 0)]
    ∧ (cgChain.grid (0, 1)).state = END
    ∧ ∃ g', reconstruct_path 2 cgChain (0, 1) 0 = some (g', 1) := by
  have hch : PrevChain cgChain (0, 1) [(0, 1), (0, 0)] :=
    .cons _ _ _ rfl (.last _ rfl)
  refine ⟨hch, rfl, ?_⟩
  have h := c2_path_length_counts_edges.1 cgChain (0, 1) [(0, 1), (0, 0)] 2 hch
    rfl (by decide) (by decide)
  simpa using h

/-! ## C6: what `Grid.reset` (keyboard C) actually clears -/

/-- C6 fails on the code: `handle_key_press` for C calls `Grid.reset`, and
`Grid.reset` resets every node to a fresh empty node — destroying Blocked,
Start and End classifications — and clears the start/end designation, instead
of preserving them.  Shown generally and evaluated on a configured grid. -/
theorem c6_reset_clears_everything :
    (∀ fuel rfuel : Nat, ∀ vz : PathfindingVisualizer,
        handle_key_press fuel rfuel vz Key.c = some { vz with grid := vz.grid.reset })
    ∧ (∀ g : Grid, (g.reset).startPos = none ∧ (g.reset).endPos = none ∧
        ∀ p, (g.reset).grid p = Node.init)
    ∧ (cgConfigured.grid (0, 0)).state = START
    ∧ (cgConfigured.grid (1, 1)).state = WALL
    ∧ cgConfigured.startPos = some (0, 0)
    ∧ ((cgConfigured.reset).grid (0, 0)).state = 0
    ∧ ((cgConfigured.reset).grid (1, 1)).state = 0
    ∧ (cgConfigured.reset).startPos = none :=
  ⟨fun _ _ _ => rfl, fun _ => ⟨rfl, rfl, fun _ => rfl⟩,
    by decide, by decide, rfl, rfl, rfl, rfl⟩

/-! ## C7: searches without both endpoints are refused unchanged -/

/-- C7: pressing an algorithm key while start or end is absent leaves the
visualizer — in particular every node's classification and bookkeeping —
completely unchanged; the guarded dispatch never invokes the search. -/
theorem c7_invalid_configuration_refused (fuel rfuel : Nat)
    (vz : PathfindingVisualizer) (key : Key)
    (hk : key = Key.d ∨ key = Key.a ∨ key = Key.b ∨ key = Key.f)
    (h : vz.grid.startPos = none ∨ vz.grid.endPos = none) :
    handle_key_press fuel rfuel vz key = some vz := by
  have hg : ¬(vz.grid.startPos ≠ none ∧ vz.grid.endPos ≠ none) := by tauto
  rcases hk with rfl | rfl | rfl | rfl <;> simp [handle_key_press, hg]

/-- A visualizer whose grid has an end but no start. -/
def gridNoStart : Grid :=
  { rows := 2, cols := 2, grid := fun _ => {}, startPos := none,
    endPos := some (1, 1) }

def vzNoStart : PathfindingVisualizer :=
  { grid := gridNoStart, visited_count := 0, path_length := 0 }

theorem c7_witness :
    (vzNoStart.grid.startPos = none ∨ vzNoStart.grid.endPos = none)
    ∧ handle_key_press 3 3 vzNoStart Key.d = some vzNoStart :=
  ⟨Or.inl rfl,
    c7_invalid_configuration_refused 3 3 vzNoStart Key.d (Or.inl rfl) (Or.inl rfl)⟩

/-! ## C8: start equals end -/

/-- C8: on a grid whose start and end designate the same node, every one of
the four algorithms dequeues that node first, immediately succeeds, and
reports explored count 0 and path length 0. -/
theorem c8_start_eq_end (g : Grid) (p : Pos)
    (hs : g.startPos = some p) (he : g.endPos = some p)
    (hstate : (g.grid p).state = START ∨ (g.grid p).state = END)
    (hprev : (g.grid p).prev = none)
    (fuel rfuel : Nat) (hf : 1 ≤ fuel) (hr : 1 ≤ rfuel) :
    (∃ g1, bfs fuel rfuel g 0 = some (g1, 0, 0))
    ∧ (∃ g2, dfs fuel rfuel g 0 = some (g2, 0, 0))
    ∧ (∃ g3, dijkstra fuel rfuel g 0 = some (g3, 0, 0))
    ∧ (∃ g4, a_star fuel rfuel g 0 = some (g4, 0, 0)) := by
  match fuel, hf, rfuel, hr with
  | fuel + 1, _, rfuel + 1, _ =>
    have hcond : ¬((g.grid p).state ≠ START ∧ (g.grid p).state ≠ END) := by
      rcases hstate with h | h <;> simp [h]
    have hrec : reconstruct_path (rfuel + 1) g p 0 = some (g, 0) := by
      rw [reconstruct_path]
      simp [hprev, hcond]
    set g0 := g.setNode p { g.grid p with distance := some 0 } with hg0
    have hcond0 : ¬((g0.grid p).state ≠ START ∧ (g0.grid p).state ≠ END) := by
      simpa [hg0, Grid.setNode] using hcond
    have hprev0 : (g0.grid p).prev = none := by
      simpa [hg0, Grid.setNode] using hprev
    have hrec0 : reconstruct_path (rfuel + 1) g0 p 0 = some (g0, 0) := by
      rw [reconstruct_path]
      simp [hprev0, hcond0]
    refine ⟨⟨g, ?_⟩, ⟨g, ?_⟩, ⟨g0, ?_⟩, ⟨g0, ?_⟩⟩
    · simp [bfs, hs, he, bfsLoop, hrec]
    · simp [dfs, hs, he, dfsLoop, hrec]
    · simp [dijkstra, hs, he, dijkstraLoop, heappush, siftdown, siftdownAux,
        heappop, hrec0, hg0]
    · simp [a_star, hs, he, aStarLoop, heappush, siftdown, siftdownAux,
        heappop, hrec0, hg0]

theorem c8_witness :
    cgSame.startPos = some (0, 0) ∧ cgSame.endPos = some (0, 0)
    ∧ (cgSame.grid (0, 0)).state = START
    ∧ ((∃ g1, bfs 1 1 cgSame 0 = some (g1, 0, 0))
       ∧ (∃ g2, dfs 1 1 cgSame 0 = some (g2, 0, 0))
       ∧ (∃ g3, dijkstra 1 1 cgSame 0 = some (g3, 0, 0))
       ∧ (∃ g4, a_star 1 1 cgSame 0 = some (g4, 0, 0))) :=
  ⟨rfl, rfl, by decide,
    c8_start_eq_end cgSame (0, 0) rfl rfl (Or.inl (by decide)) (by decide)
      1 1 le_rfl le_rfl⟩

/-! ## C10: A* coincides with Dijkstra -/

/-- Forget the `heuristic` field of every node (the only field whose value can
differ between an A* run and a Dijkstra run). -/
def eraseH (g : Grid) : Grid :=
  { g with grid := fun p => { g.grid p with heuristic := 0 } }

theorem Grid.ext' {g1 g2 : Grid} (hrows : g1.rows = g2.rows)
    (hcols : g1.cols = g2.cols) (hgrid : ∀ p, g1.grid p = g2.grid p)
    (hs : g1.startPos = g2.startPos) (he : g1.endPos = g2.endPos) : g1 = g2 := by
  cases g1
  cases g2
  simp only [Grid.mk.injEq]
  exact ⟨hrows, hcols, funext hgrid, hs, he⟩

theorem eraseH_rows (g : Grid) : (eraseH g).rows = g.rows := rfl

theorem eraseH_grid_state {g1 g2 : Grid} (h : eraseH g1 = eraseH g2) (p : Pos) :
    (g1.grid p).state = (g2.grid p).state := by
  have := congrFun (congrArg Grid.grid h) p
  simpa [eraseH] using congrArg Node.state this

theorem eraseH_grid_distance {g1 g2 : Grid} (h : eraseH g1 = eraseH g2) (p : Pos) :
    (g1.grid p).distance = (g2.grid p).distance := by
  have := congrFun (congrArg Grid.grid h) p
  simpa [eraseH] using congrArg Node.distance this

theorem eraseH_grid_prev {g1 g2 : Grid} (h : eraseH g1 = eraseH g2) (p : Pos) :
    (g1.grid p).prev = (g2.grid p).prev := by
  have := congrFun (congrArg Grid.grid h) p
  simpa [eraseH] using congrArg Node.prev this

theorem eraseH_rows_eq {g1 g2 : Grid} (h : eraseH g1 = eraseH g2) :
    g1.rows = g2.rows := by
  have := congrArg Grid.rows h
  exact this

theorem eraseH_cols_eq {g1 g2 : Grid} (h : eraseH g1 = eraseH g2) :
    g1.cols = g2.cols := by
  have := congrArg Grid.cols h
  exact this

theorem eraseH_startPos_eq {g1 g2 : Grid} (h : eraseH g1 = eraseH g2) :
    g1.startPos = g2.startPos := by
  have := congrArg Grid.startPos h
  exact this

theorem eraseH_endPos_eq {g1 g2 : Grid} (h : eraseH g1 = eraseH g2) :
    g1.endPos = g2.endPos := by
  have := congrArg Grid.endPos h
  exact this

theorem nodeLt_eraseH {g1 g2 : Grid} (h : eraseH g1 = eraseH g2) :
    nodeLt g1 = nodeLt g2 := by
  funext a b
  simp [nodeLt, Node.lt, eraseH_grid_distance h]

theorem get_neighbors_eraseH {g1 g2 : Grid} (h : eraseH g1 = eraseH g2) (p : Pos) :
    g1.get_neighbors p = g2.get_neighbors p := by
  simp only [Grid.get_neighbors, eraseH_rows_eq h, eraseH_cols_eq h]
  apply List.filter_congr
  intro q _
  rw [eraseH_grid_state h q]

theorem eraseH_setNode (g : Grid) (p : Pos) (n : Node) :
    eraseH (g.setNode p n) = (eraseH g).setNode p { n with heuristic := 0 } := by
  apply Grid.ext'
  · rfl
  · rfl
  · intro q
    simp only [eraseH, Grid.setNode]
    split <;> rfl
  · rfl
  · rfl

theorem setNode_eraseH_congr {g1 g2 : Grid} (h : eraseH g1 = eraseH g2)
    (p : Pos) (n1 n2 : Node)
    (hn : n1.state = n2.state ∧ n1.distance = n2.distance ∧ n1.prev = n2.prev) :
    eraseH (g1.setNode p n1) = eraseH (g2.setNode p n2) := by
  rw [eraseH_setNode, eraseH_setNode, h]
  congr 1
  cases n1
  cases n2
  obtain ⟨h1, h2, h3⟩ := hn
  simp_all

/-- The node written when `reconstruct_path` marks the walked node. -/
theorem eraseH_setNode_path {g1 g2 : Grid} (h : eraseH g1 = eraseH g2)
    (p : Pos) (x : Option Pos) :
    eraseH (g1.setNode p
      { state := PATH, distance := (g1.grid p).distance,
        heuristic := (g1.grid p).heuristic, prev := x }) =
    eraseH (g2.setNode p
      { state := PATH, distance := (g2.grid p).distance,
        heuristic := (g2.grid p).heuristic, prev := x }) :=
  setNode_eraseH_congr h p _ _ ⟨rfl, eraseH_grid_distance h p, rfl⟩

/-- `reconstruct_path` only reads and writes heuristic-independent fields. -/
theorem reconstruct_path_eraseH :
    ∀ (rfuel : Nat) {g1 g2 : Grid} (_ : eraseH g1 = eraseH g2) (p : Pos) (acc : Nat),
      (reconstruct_path rfuel g1 p acc).map (fun r => (eraseH r.1, r.2)) =
        (reconstruct_path rfuel g2 p acc).map (fun r => (eraseH r.1, r.2)) := by
  intro rfuel
  induction rfuel with
  | zero => intro g1 g2 h p acc; rfl
  | succ rfuel ih =>
    intro g1 g2 h p acc
    rw [reconstruct_path, reconstruct_path]
    rw [show (g2.grid p).prev = (g1.grid p).prev from (eraseH_grid_prev h p).symm]
    have hstate := eraseH_grid_state h p
    by_cases hc : (g1.grid p).state ≠ START ∧ (g1.grid p).state ≠ END
    · have hc2 : (g2.grid p).state ≠ START ∧ (g2.grid p).state ≠ END := by
        rw [← hstate]; exact hc
      cases hp : (g1.grid p).prev with
      | none =>
        rw [if_pos hc, if_pos hc2]
        exact congrArg (fun z => (some (z, acc + 1) : Option (Grid × Nat)))
          (eraseH_setNode_path h p none)
      | some q =>
        rw [if_pos hc, if_pos hc2]
        exact ih (eraseH_setNode_path h p (some q)) q (acc + 1)
    · have hc2 : ¬((g2.grid p).state ≠ START ∧ (g2.grid p).state ≠ END) := by
        rw [← hstate]; exact hc
      cases hp : (g1.grid p).prev with
      | none =>
        rw [if_neg hc, if_neg hc2]
        exact congrArg (fun z => (some (z, acc) : Option (Grid × Nat))) h
      | some q =>
        rw [if_neg hc, if_neg hc2]
        exact ih h q acc

/-- The A* relaxation loop differs from Dijkstra's only in the heuristic field
it stores: on heuristic-equivalent grids both produce the same frontier and
heuristic-equivalent grids. -/
theorem relax_eraseH :
    ∀ (ns : List Pos) {g1 g2 : Grid} (_ : eraseH g1 = eraseH g2)
      (current endP : Pos) (heap : List Pos),
      eraseH (aStarRelax g1 current endP ns heap).1 =
        eraseH (dijkstraRelax g2 current ns heap).1
      ∧ (aStarRelax g1 current endP ns heap).2 =
          (dijkstraRelax g2 current ns heap).2 := by
  intro ns
  induction ns with
  | nil => intro g1 g2 h current endP heap; exact ⟨h, rfl⟩
  | cons n rest ih =>
    intro g1 g2 h current endP heap
    rw [aStarRelax, dijkstraRelax]
    have htemp : optAdd1 (g1.grid current).distance =
        optAdd1 (g2.grid current).distance := by
      rw [eraseH_grid_distance h]
    have hdist : (g1.grid n).distance = (g2.grid n).distance :=
      eraseH_grid_distance h n
    rw [htemp, hdist]
    by_cases hcond :
        optLt (optAdd1 ((g2.grid current).distance)) ((g2.grid n).distance) = true
    · rw [if_pos hcond, if_pos hcond]
      dsimp only
      have hrel : eraseH (g1.setNode n
          { state := (g1.grid n).state,
            distance := optAdd1 (g2.grid current).distance,
            heuristic := heuristic n endP, prev := some current }) =
          eraseH (g2.setNode n
            { state := (g2.grid n).state,
              distance := optAdd1 (g2.grid current).distance,
              heuristic := (g2.grid n).heuristic, prev := some current }) :=
        setNode_eraseH_congr h n _ _ ⟨eraseH_grid_state h n, rfl, rfl⟩
      rw [show nodeLt (g1.setNode n
          { state := (g1.grid n).state,
            distance := optAdd1 (g2.grid current).distance,
            heuristic := heuristic n endP, prev := some current }) = nodeLt
          (g2.setNode n
            { state := (g2.grid n).state,
              distance := optAdd1 (g2.grid current).distance,
              heuristic := (g2.grid n).heuristic, prev := some current })
          from nodeLt_eraseH hrel]
      exact ih hrel current endP _
    · rw [if_neg hcond, if_neg hcond]
      exact ih h current endP heap

/-! Unfolding equations for the while-loops, by the result of the pop. -/

theorem dijkstraLoop_pop_none {g : Grid} {heap : List Pos}
    (rfuel fuel cnt pl : Nat) (endP : Pos)
    (hpop : heappop (nodeLt g) heap = none) :
    dijkstraLoop rfuel endP (fuel + 1) g heap cnt pl = some (g, 0, pl) := by
  rw [dijkstraLoop, hpop]

theorem dijkstraLoop_pop_some {g : Grid} {heap : List Pos} {current : Pos}
    {rest : List Pos} (rfuel fuel cnt pl : Nat) (endP : Pos)
    (hpop : heappop (nodeLt g) heap = some (current, rest)) :
    dijkstraLoop rfuel endP (fuel + 1) g heap cnt pl =
      (if current = endP then
        match reconstruct_path rfuel g current 0 with
        | none => none
        | some (g', plen) => some (g', cnt, plen)
      else
        dijkstraLoop rfuel endP fuel
          (dijkstraRelax (g.setNode current
              { state := PROCESSING, distance := (g.grid current).distance,
                heuristic := (g.grid current).heuristic,
                prev := (g.grid current).prev })
            current
            ((g.setNode current
              { state := PROCESSING, distance := (g.grid current).distance,
                heuristic := (g.grid current).heuristic,
                prev := (g.grid current).prev }).get_neighbors current) rest).1
          (dijkstraRelax (g.setNode current
              { state := PROCESSING, distance := (g.grid current).distance,
                heuristic := (g.grid current).heuristic,
                prev := (g.grid current).prev })
            current
            ((g.setNode current
              { state := PROCESSING, distance := (g.grid current).distance,
                heuristic := (g.grid current).heuristic,
                prev := (g.grid current).prev }).get_neighbors current) rest).2
          (cnt + 1) pl) := by
  rw [dijkstraLoop, hpop]

theorem aStarLoop_pop_none {g : Grid} {heap : List Pos}
    (rfuel fuel cnt pl : Nat) (endP : Pos)
    (hpop : heappop (nodeLt g) heap = none) :
    aStarLoop rfuel endP (fuel + 1) g heap cnt pl = some (g, 0, pl) := by
  rw [aStarLoop, hpop]

theorem aStarLoop_pop_some {g : Grid} {heap : List Pos} {current : Pos}
    {rest : List Pos} (rfuel fuel cnt pl : Nat) (endP : Pos)
    (hpop : heappop (nodeLt g) heap = some (current, rest)) :
    aStarLoop rfuel endP (fuel + 1) g heap cnt pl =
      (if current = endP then
        match reconstruct_path rfuel g current 0 with
        | none => none
        | some (g', plen) => some (g', cnt, plen)
      else
        aStarLoop rfuel endP fuel
          (aStarRelax (g.setNode current
              { state := PROCESSING, distance := (g.grid current).distance,
                heuristic := (g.grid current).heuristic,
                prev := (g.grid current).prev })
            current endP
            ((g.setNode current
              { state := PROCESSING, distance := (g.grid current).distance,
                heuristic := (g.grid current).heuristic,
                prev := (g.grid current).prev }).get_neighbors current) rest).1
          (aStarRelax (g.setNode current
              { state := PROCESSING, distance := (g.grid current).distance,
                heuristic := (g.grid current).heuristic,
                prev := (g.grid current).prev })
            current endP
            ((g.setNode current
              { state := PROCESSING, distance := (g.grid current).distance,
                heuristic := (g.grid current).heuristic,
                prev := (g.grid current).prev }).get_neighbors current) rest).2
          (cnt + 1) pl) := by
  rw [aStarLoop, hpop]

/-- The A* while-loop and the Dijkstra while-loop evolve heuristic-equivalent
states identically: same pops, same counts, same path lengths. -/
theorem loop_eraseH :
    ∀ (fuel rfuel : Nat) (endP : Pos) {g1 g2 : Grid}
      (_ : eraseH g1 = eraseH g2) (heap : List Pos) (cnt pl : Nat),
      (aStarLoop rfuel endP fuel g1 heap cnt pl).map (fun r => (eraseH r.1, r.2)) =
        (dijkstraLoop rfuel endP fuel g2 heap cnt pl).map (fun r => (eraseH r.1, r.2)) := by
  intro fuel
  induction fuel with
  | zero => intro rfuel endP g1 g2 h heap cnt pl; rfl
  | succ fuel ih =>
    intro rfuel endP g1 g2 h heap cnt pl
    cases hpop : heappop (nodeLt g2) heap with
    | none =>
      have hpop1 : heappop (nodeLt g1) heap = none := by rw [nodeLt_eraseH h, hpop]
      rw [aStarLoop_pop_none rfuel fuel cnt pl endP hpop1,
        dijkstraLoop_pop_none rfuel fuel cnt pl endP hpop]
      exact congrArg (fun z => (some (z, 0, pl) : Option (Grid × Nat × Nat))) h
    | some pr =>
      obtain ⟨current, rest⟩ := pr
      have hpop1 : heappop (nodeLt g1) heap = some (current, rest) := by
        rw [nodeLt_eraseH h, hpop]
      rw [aStarLoop_pop_some rfuel fuel cnt pl endP hpop1,
        dijkstraLoop_pop_some rfuel fuel cnt pl endP hpop]
      by_cases hce : current = endP
      · rw [if_pos hce, if_pos hce]
        have hrp := reconstruct_path_eraseH rfuel h current 0
        cases hr1 : reconstruct_path rfuel g1 current 0 with
        | none =>
          rw [hr1] at hrp
          cases hr2 : reconstruct_path rfuel g2 current 0 with
          | some v2 => rw [hr2] at hrp; exact Option.noConfusion hrp
          | none => rfl
        | some v1 =>
          obtain ⟨ga, plen1⟩ := v1
          rw [hr1] at hrp
          cases hr2 : reconstruct_path rfuel g2 current 0 with
          | none => rw [hr2] at hrp; exact Option.noConfusion hrp
          | some v2 =>
            obtain ⟨gb, plen2⟩ := v2
            rw [hr2] at hrp
            simp only [Option.map_some', Option.some.injEq, Prod.mk.injEq] at hrp
            obtain ⟨hgab, hplen⟩ := hrp
            subst hplen
            exact congrArg
              (fun z => (some (z, cnt, plen1) : Option (Grid × Nat × Nat))) hgab
      · rw [if_neg hce, if_neg hce]
        have hrel : eraseH (g1.setNode current
            { state := PROCESSING, distance := (g1.grid current).distance,
              heuristic := (g1.grid current).heuristic,
              prev := (g1.grid current).prev }) =
            eraseH (g2.setNode current
              { state := PROCESSING, distance := (g2.grid current).distance,
                heuristic := (g2.grid current).heuristic,
                prev := (g2.grid current).prev }) :=
          setNode_eraseH_congr h current _ _
            ⟨rfl, eraseH_grid_distance h current, eraseH_grid_prev h current⟩
        rw [get_neighbors_eraseH hrel current]
        obtain ⟨hg, hh⟩ := relax_eraseH _ hrel current endP rest
        rw [hh]
        exact ih rfuel endP hg _ (cnt + 1) pl

/-- C10: running A* is observably identical to running Dijkstra on every grid
configuration — same termination, same `visited_count`, same `path_length`,
and the same final `state`, `distance` and `prev` on every node (only the
stored-but-never-read `heuristic` field may differ, which `eraseH` discards):
the frontier ordering compares only `distance`. -/
theorem c10_a_star_equals_dijkstra (fuel rfuel : Nat) (g : Grid) (pl : Nat) :
    (a_star fuel rfuel g pl).map (fun r => (eraseH r.1, r.2)) =
      (dijkstra fuel rfuel g pl).map (fun r => (eraseH r.1, r.2)) := by
  rw [a_star, dijkstra]
  cases hs : g.startPos with
  | none => rfl
  | some s =>
    cases he : g.endPos with
    | none => rfl
    | some e => exact loop_eraseH fuel rfuel e rfl _ 0 pl

/-! ## C4: the A* frontier is not ordered by distance + heuristic -/

/-- `distance + heuristic`: the ordering key the specification prescribes for
the A* frontier.  (`none` = infinity.) -/
def fval (g : Grid) (p : Pos) : Option Nat :=
  ((g.grid p).distance).map (· + (g.grid p).heuristic)

/-- `a_star`'s while-loop, additionally recording for every dequeued node its
`distance + heuristic` value together with those of the nodes remaining in the
frontier at that moment.  Identical to `aStarLoop` except for the record
accumulator. -/
def aStarLoopRec (rfuel : Nat) (endP : Pos) :
    Nat → Grid → List Pos → Nat → Nat → List (Option Nat × List (Option Nat)) →
    Option ((Grid × Nat × Nat) × List (Option Nat × List (Option Nat)))
  | 0, _, _, _, _, _ => none
  | fuel + 1, g, open_set, visited_count, pl, recs =>
    match heappop (nodeLt g) open_set with
    | none => some ((g, 0, pl), recs)
    | some (current, open_rest) =>
      let recs' := recs ++ [(fval g current, open_rest.map (fval g))]
      if current = endP then
        match reconstruct_path rfuel g current 0 with
        | none => none
        | some (g', plen) => some ((g', visited_count, plen), recs')
      else
        let g1 := g.setNode current { g.grid current with state := PROCESSING }
        let step := aStarRelax g1 current endP (g1.get_neighbors current) open_rest
        aStarLoopRec rfuel endP fuel step.1 step.2 (visited_count + 1) pl recs'

/-- `a_star` with the dequeue record. -/
def a_star_rec (fuel rfuel : Nat) (g : Grid) (pl : Nat) :
    Option ((Grid × Nat × Nat) × List (Option Nat × List (Option Nat))) :=
  match g.startPos, g.endPos with
  | some s, some e =>
    let g0 := g.setNode s { g.grid s with distance := some 0 }
    aStarLoopRec rfuel e fuel g0 (heappush (nodeLt g0) [] s) 0 pl []
  | _, _ => none

/-- The claim under test: at every dequeue of the A* run, no node left in the
frontier has a strictly smaller `distance + heuristic` than the dequeued one. -/
def AStarPopsOrderedByF (fuel rfuel : Nat) (g : Grid) : Prop :=
  ∀ e ∈ ((a_star_rec fuel rfuel g 0).map (fun r => r.2)).getD [],
    ∀ y ∈ e.2, optLt y e.1 = false

/-- The dequeue record of the A* run on the 1×5 corridor: the second dequeue
takes `distance + heuristic = 4` while a node with value `2` stays behind. -/
def c4recs : List (Option Nat × List (Option Nat)) :=
  [(some 0, []), (some 4, [some 2]), (some 2, [some 6]),
    (some 6, [some 2]), (some 2, [])]

/-- C4 fails on the code: on the 1×5 corridor with start `(0,2)` and end
`(0,0)`, the A* run (whose record projects to the plain `a_star` run) dequeues
a node of `distance + heuristic` 4 while a node of value 2 is in the frontier:
`Node.__lt__` compares `distance` alone and the stored heuristic is never
read. -/
theorem c4_heuristic_unused_in_ordering :
    ((a_star_rec 100 100 cgRow5 0).map (fun r => r.1) = a_star 100 100 cgRow5 0)
    ∧ ((a_star_rec 100 100 cgRow5 0).map (fun r => r.2) = some c4recs)
    ∧ ¬ AStarPopsOrderedByF 100 100 cgRow5 :=
  ⟨rfl, rfl, by unfold AStarPopsOrderedByF; decide⟩

/-! ## Verification of the binary heap

Keys are read through a function `k : Pos → Option Nat` (the distances at the
time of the heap operation); `optLt (k a) (k b)` is precisely what
`Node.__lt__` computes. -/

/-- The comparison induced by a key function. -/
def kLt (k : Pos → Option Nat) (a b : Pos) : Bool := optLt (k a) (k b)

theorem nodeLt_eq_kLt (g : Grid) :
    nodeLt g = kLt (fun p => (g.grid p).distance) := rfl

theorem optLt_irrefl (x : Option Nat) : optLt x x = false := by
  cases x <;> simp [optLt]

theorem optLt_asymm {x y : Option Nat} (h : optLt x y = true) :
    optLt y x = false := by
  cases x <;> cases y <;> simp_all [optLt] <;> omega

/-- `a ≤ b ≤ c` implies `a ≤ c` (`optLt y x = false` reads `x ≤ y`). -/
theorem optLt_false_trans {a b c : Option Nat}
    (hab : optLt b a = false) (hbc : optLt c b = false) :
    optLt c a = false := by
  cases a <;> cases b <;> cases c <;> simp_all [optLt] <;> omega

theorem hget_set_self {l : List Pos} {i : Nat} (h : i < l.length) (a : Pos) :
    hget (l.set i a) i = a := by
  simp [hget, List.getD, List.getElem?_set_self' , h]

theorem hget_set_ne {l : List Pos} {i j : Nat} (h : i ≠ j) (a : Pos) :
    hget (l.set i a) j = hget l j := by
  simp [hget, List.getD, List.getElem?_set_ne h]

theorem hget_mem {l : List Pos} {i : Nat} (h : i < l.length) : hget l i ∈ l := by
  have : l.getD i (0, 0) = l.get ⟨i, h⟩ := List.getD_eq_get l (0, 0) h
  rw [hget, this]
  exact List.get_mem l i h

theorem hget_zero (b : Pos) (t : List Pos) : hget (b :: t) 0 = b := rfl

theorem hget_succ (b : Pos) (t : List Pos) (i : Nat) :
    hget (b :: t) (i + 1) = hget t i := rfl

/-- Multiset effect of `List.set`, additively to avoid truncated subtraction. -/
theorem count_set (l : List Pos) : ∀ (i : Nat) (a x : Pos), i < l.length →
    (l.set i a).count x + (if hget l i = x then 1 else 0) =
      l.count x + (if a = x then 1 else 0) := by
  induction l with
  | nil => intro i a x h; simp at h
  | cons b t ih =>
    intro i a x h
    cases i with
    | zero =>
      simp only [List.set_cons_zero, hget_zero, List.count_cons]
      by_cases hax : x = a <;> by_cases hbx : x = b <;>
        simp [hax, hbx, beq_iff_eq] <;> omega
    | succ i =>
      have hlen : i < t.length := by simpa using h
      have hrec := ih i a x hlen
      simp only [List.set_cons_succ, hget_succ, List.count_cons, beq_iff_eq]
      omega

/-- The CPython heap invariant: no element is smaller than its parent. -/
def HeapInv (k : Pos → Option Nat) (l : List Pos) : Prop :=
  ∀ i, 0 < i → i < l.length →
    optLt (k (hget l i)) (k (hget l ((i - 1) / 2))) = false

theorem heapInv_nil (k : Pos → Option Nat) : HeapInv k [] := by
  intro i _ hi
  simp at hi

theorem heapInv_singleton (k : Pos → Option Nat) (a : Pos) : HeapInv k [a] := by
  intro i h1 hi
  simp at hi
  omega

/-- In a heap, the root is minimal. -/
theorem heapInv_root_le {k : Pos → Option Nat} {l : List Pos} (h : HeapInv k l) :
    ∀ i, i < l.length → optLt (k (hget l i)) (k (hget l 0)) = false := by
  intro i
  induction i using Nat.strong_induction_on with
  | _ i ih =>
    intro hi
    rcases Nat.eq_zero_or_pos i with rfl | hpos
    · exact optLt_irrefl _
    · have hp : (i - 1) / 2 < i := by omega
      exact optLt_false_trans (ih _ hp (by omega)) (h i hpos hi)

/-- The heap invariant only depends on the keys of the members. -/
theorem heapInv_congr {k k' : Pos → Option Nat} {l : List Pos}
    (h : HeapInv k l) (hk : ∀ x ∈ l, k' x = k x) : HeapInv k' l := by
  intro i h1 hi
  rw [hk _ (hget_mem hi), hk _ (hget_mem (by omega))]
  exact h i h1 hi

/-- Correctness of the `_siftdown` climb: started at a position whose only
possibly-violated edge is the one to its parent (stated by the three
invariants), it restores the heap invariant, preserves length, and the result
is, as a multiset, the input with `newitem` written at `pos`. -/
theorem siftdownAux_spec (k : Pos → Option Nat) :
    ∀ (fuel : Nat) (heap : List Pos) (newitem : Pos) (pos : Nat),
      pos < fuel →
      pos < heap.length →
      (∀ i, 0 < i → i < heap.length → i ≠ pos →
        optLt (k (hget heap i)) (k (hget heap ((i - 1) / 2))) = false) →
      (∀ c, (c = 2 * pos + 1 ∨ c = 2 * pos + 2) → c < heap.length →
        optLt (k (hget heap c)) (k newitem) = false) →
      (∀ c, 0 < pos → (c = 2 * pos + 1 ∨ c = 2 * pos + 2) → c < heap.length →
        optLt (k (hget heap c)) (k (hget heap ((pos - 1) / 2))) = false) →
      HeapInv k (siftdownAux (kLt k) 0 fuel heap newitem pos)
      ∧ (siftdownAux (kLt k) 0 fuel heap newitem pos).length = heap.length
      ∧ (∀ x, (siftdownAux (kLt k) 0 fuel heap newitem pos).count x =
          (heap.set pos newitem).count x) := by
  intro fuel
  induction fuel with
  | zero =>
    intro heap newitem pos hf
    exact absurd hf (Nat.not_lt_zero pos)
  | succ fuel ih =>
    intro heap newitem pos hf hlen ha hb hc
    rw [siftdownAux]
    by_cases hpos : 0 < pos
    · rw [if_pos hpos]
      by_cases hcmp : kLt k newitem (hget heap ((pos - 1) / 2)) = true
      · rw [if_pos hcmp]
        have hpplt : (pos - 1) / 2 < pos := by omega
        have hpplen : (pos - 1) / 2 < heap.length := by omega
        have hlt : optLt (k newitem) (k (hget heap ((pos - 1) / 2))) = true := hcmp
        have hle := optLt_asymm hlt
        -- invariant (a) for the recursive call
        have ha' : ∀ i, 0 < i →
            i < (heap.set pos (hget heap ((pos - 1) / 2))).length →
            i ≠ (pos - 1) / 2 →
            optLt (k (hget (heap.set pos (hget heap ((pos - 1) / 2))) i))
              (k (hget (heap.set pos (hget heap ((pos - 1) / 2))) ((i - 1) / 2)))
              = false := by
          intro i h1 hi hip
          rw [List.length_set] at hi
          by_cases hipos : i = pos
          · subst hipos
            rw [hget_set_self hlen, hget_set_ne (by omega)]
            exact optLt_irrefl _
          · rw [hget_set_ne (fun he => hipos he.symm)]
            by_cases hq : (i - 1) / 2 = pos
            · rw [hq, hget_set_self hlen]
              exact hc i hpos (by omega) hi
            · rw [hget_set_ne (fun he => hq he.symm)]
              exact ha i h1 hi hipos
        -- invariant (b) for the recursive call
        have hb' : ∀ c, (c = 2 * ((pos - 1) / 2) + 1 ∨ c = 2 * ((pos - 1) / 2) + 2) →
            c < (heap.set pos (hget heap ((pos - 1) / 2))).length →
            optLt (k (hget (heap.set pos (hget heap ((pos - 1) / 2))) c))
              (k newitem) = false := by
          intro c hcc hclen
          rw [List.length_set] at hclen
          by_cases hcp : c = pos
          · subst hcp
            rw [hget_set_self hlen]
            exact hle
          · rw [hget_set_ne (fun he => hcp he.symm)]
            have hedge := ha c (by omega) hclen hcp
            have hcq : (c - 1) / 2 = (pos - 1) / 2 := by omega
            rw [hcq] at hedge
            exact optLt_false_trans hle hedge
        -- invariant (c) for the recursive call
        have hc' : ∀ c, 0 < (pos - 1) / 2 →
            (c = 2 * ((pos - 1) / 2) + 1 ∨ c = 2 * ((pos - 1) / 2) + 2) →
            c < (heap.set pos (hget heap ((pos - 1) / 2))).length →
            optLt (k (hget (heap.set pos (hget heap ((pos - 1) / 2))) c))
              (k (hget (heap.set pos (hget heap ((pos - 1) / 2)))
                (((pos - 1) / 2 - 1) / 2))) = false := by
          intro c hpp0 hcc hclen
          rw [List.length_set] at hclen
          have hgp : ((pos - 1) / 2 - 1) / 2 ≠ pos := by omega
          rw [hget_set_ne (fun he => hgp he.symm)]
          have hedgepp := ha ((pos - 1) / 2) hpp0 hpplen (by omega)
          by_cases hcp : c = pos
          · subst hcp
            rw [hget_set_self hlen]
            exact hedgepp
          · rw [hget_set_ne (fun he => hcp he.symm)]
            have hedge := ha c (by omega) hclen hcp
            have hcq : (c - 1) / 2 = (pos - 1) / 2 := by omega
            rw [hcq] at hedge
            exact optLt_false_trans hedgepp hedge
        obtain ⟨hH, hL, hC⟩ := ih (heap.set pos (hget heap ((pos - 1) / 2)))
          newitem ((pos - 1) / 2) (by omega) (by simpa using hpplen) ha' hb' hc'
        refine ⟨hH, by rw [hL, List.length_set], fun x => ?_⟩
        have h1 := hC x
        have h2 := count_set (heap.set pos (hget heap ((pos - 1) / 2)))
          ((pos - 1) / 2) newitem x (by simpa using hpplen)
        have h3 := count_set heap pos (hget heap ((pos - 1) / 2)) x hlen
        have h4 := count_set heap pos newitem x hlen
        rw [hget_set_ne (by omega : pos ≠ (pos - 1) / 2)] at h2
        omega
      · rw [if_neg hcmp]
        have hle : optLt (k newitem) (k (hget heap ((pos - 1) / 2))) = false := by
          simpa [kLt] using hcmp
        refine ⟨?_, by rw [List.length_set], fun x => rfl⟩
        intro i h1 hi
        rw [List.length_set] at hi
        by_cases hipos : i = pos
        · subst hipos
          rw [hget_set_self hlen, hget_set_ne (by omega)]
          exact hle
        · rw [hget_set_ne (fun he => hipos he.symm)]
          by_cases hq : (i - 1) / 2 = pos
          · rw [hq, hget_set_self hlen]
            exact hb i (by omega) hi
          · rw [hget_set_ne (fun he => hq he.symm)]
            exact ha i h1 hi hipos
    · rw [if_neg hpos]
      have hpz : pos = 0 := by omega
      subst hpz
      refine ⟨?_, by rw [List.length_set], fun x => rfl⟩
      intro i h1 hi
      rw [List.length_set] at hi
      rw [hget_set_ne (by omega : (0 : Nat) ≠ i)]
      by_cases hip : (i - 1) / 2 = 0
      · rw [hip, hget_set_self hlen]
        exact hb i (by omega) hi
      · rw [hget_set_ne (fun he => hip he.symm)]
        exact ha i h1 hi (by omega)

theorem hget_append_lt {l l2 : List Pos} {i : Nat} (h : i < l.length) :
    hget (l ++ l2) i = hget l i := by
  simp only [hget, List.getD_eq_getElem?_getD, List.getElem?_append, if_pos h]

theorem hget_append_self (l : List Pos) (a : Pos) :
    hget (l ++ [a]) l.length = a := by
  simp [hget, List.getD_eq_getElem?_getD,
    List.getElem?_append_right (Nat.le_refl l.length)]

/-- `heappush` preserves the heap invariant and adds exactly the new item. -/
theorem heappush_spec (k : Pos → Option Nat) (heap : List Pos) (item : Pos)
    (h : HeapInv k heap) :
    HeapInv k (heappush (kLt k) heap item)
    ∧ (heappush (kLt k) heap item).length = heap.length + 1
    ∧ (∀ x, (heappush (kLt k) heap item).count x =
        heap.count x + (if item = x then 1 else 0)) := by
  have hlen : heap.length < (heap ++ [item]).length := by simp
  have ha : ∀ i, 0 < i → i < (heap ++ [item]).length → i ≠ heap.length →
      optLt (k (hget (heap ++ [item]) i))
        (k (hget (heap ++ [item]) ((i - 1) / 2))) = false := by
    intro i h1 hi hne
    have hi' : i < heap.length := by
      simp only [List.length_append, List.length_singleton] at hi
      omega
    rw [hget_append_lt hi', hget_append_lt (by omega)]
    exact h i h1 hi'
  have hb : ∀ c, (c = 2 * heap.length + 1 ∨ c = 2 * heap.length + 2) →
      c < (heap ++ [item]).length →
      optLt (k (hget (heap ++ [item]) c)) (k item) = false := by
    intro c hc hclen
    simp only [List.length_append, List.length_singleton] at hclen
    omega
  have hc : ∀ c, 0 < heap.length →
      (c = 2 * heap.length + 1 ∨ c = 2 * heap.length + 2) →
      c < (heap ++ [item]).length →
      optLt (k (hget (heap ++ [item]) c))
        (k (hget (heap ++ [item]) ((heap.length - 1) / 2))) = false := by
    intro c _ hc hclen
    simp only [List.length_append, List.length_singleton] at hclen
    omega
  obtain ⟨hH, hL, hC⟩ := siftdownAux_spec k (heap.length + 1) (heap ++ [item])
    item heap.length (by omega) hlen ha hb hc
  have hpush : heappush (kLt k) heap item =
      siftdownAux (kLt k) 0 (heap.length + 1) (heap ++ [item]) item heap.length := rfl
  rw [hpush]
  refine ⟨hH, by rw [hL]; simp, fun x => ?_⟩
  have h1 := hC x
  have h2 := count_set (heap ++ [item]) heap.length item x hlen
  rw [hget_append_self] at h2
  have h3 : (heap ++ [item]).count x =
      heap.count x + (if item = x then 1 else 0) := by
    rw [List.count_append]
    by_cases hix : item = x
    · simp [hix, List.count_cons, List.count_nil]
    · have hxi : x ≠ item := fun he => hix he.symm
      simp [hix, List.count_cons, List.count_nil, beq_iff_eq, hxi]
  omega

/-- Correctness of the `_siftup` descent (with `startpos = 0`): starting from
a "hole" at `pos` (edges not incident to `pos` hold, and `pos`'s children
dominate `pos`'s parent), it restores the heap invariant; the result is, as a
multiset, the input with `newitem` written at `pos`. -/
theorem siftupAux_spec (k : Pos → Option Nat) :
    ∀ (fuel : Nat) (heap : List Pos) (newitem : Pos) (pos : Nat),
      heap.length ≤ fuel + pos →
      pos < heap.length →
      (∀ i, 0 < i → i < heap.length → i ≠ pos → (i - 1) / 2 ≠ pos →
        optLt (k (hget heap i)) (k (hget heap ((i - 1) / 2))) = false) →
      (∀ c, 0 < pos → (c = 2 * pos + 1 ∨ c = 2 * pos + 2) → c < heap.length →
        optLt (k (hget heap c)) (k (hget heap ((pos - 1) / 2))) = false) →
      HeapInv k (siftupAux (kLt k) fuel heap newitem 0 pos)
      ∧ (siftupAux (kLt k) fuel heap newitem 0 pos).length = heap.length
      ∧ (∀ x, (siftupAux (kLt k) fuel heap newitem 0 pos).count x =
          (heap.set pos newitem).count x) := by
  intro fuel
  induction fuel with
  | zero =>
    intro heap newitem pos hf hlen
    omega
  | succ fuel ih =>
    intro heap newitem pos hf hlen ha2 hc2
    rw [siftupAux]
    by_cases hchild : 2 * pos + 1 < heap.length
    · rw [if_pos hchild]
      -- the chosen (smaller) child
      set c := if 2 * pos + 2 < heap.length
          && !kLt k (hget heap (2 * pos + 1)) (hget heap (2 * pos + 2)) then
          2 * pos + 2
        else 2 * pos + 1 with hcdef
      have hcases : c = 2 * pos + 1 ∨ c = 2 * pos + 2 := by
        rw [hcdef]
        split
        · right; rfl
        · left; rfl
      have hclen : c < heap.length := by
        rw [hcdef]
        split
        · rename_i hcond
          exact (Bool.and_eq_true _ _ ▸ hcond).1 |> of_decide_eq_true
        · exact hchild
      have hcposlt : pos < c := by omega
      have hcmin : ∀ c', (c' = 2 * pos + 1 ∨ c' = 2 * pos + 2) →
          c' < heap.length →
          optLt (k (hget heap c')) (k (hget heap c)) = false := by
        intro c' hc' hc'len
        rw [hcdef]
        split
        · rename_i hcond
          have hnlt := (Bool.and_eq_true _ _ ▸ hcond).2
          rcases hc' with rfl | rfl
          · simpa [kLt] using hnlt
          · exact optLt_irrefl _
        · rename_i hcond
          rcases hc' with rfl | rfl
          · exact optLt_irrefl _
          · have h22 : 2 * pos + 2 < heap.length := hc'len
            have : kLt k (hget heap (2 * pos + 1)) (hget heap (2 * pos + 2))
                = true := by
              by_cases hkk : kLt k (hget heap (2 * pos + 1))
                  (hget heap (2 * pos + 2)) = true
              · exact hkk
              · exact absurd (by
                  simp only [Bool.and_eq_true, decide_eq_true_eq,
                    Bool.not_eq_true']
                  exact ⟨h22, by simpa using hkk⟩) hcond
            exact optLt_asymm this
      -- invariants for the recursive call on the hole moved to `c`
      have ha2' : ∀ i, 0 < i →
          i < (heap.set pos (hget heap c)).length → i ≠ c → (i - 1) / 2 ≠ c →
          optLt (k (hget (heap.set pos (hget heap c)) i))
            (k (hget (heap.set pos (hget heap c)) ((i - 1) / 2))) = false := by
        intro i h1 hi hic hiq
        rw [List.length_set] at hi
        by_cases hipos : i = pos
        · subst hipos
          have hppne : (i - 1) / 2 ≠ i := by omega
          rw [hget_set_self hlen, hget_set_ne (fun he => hppne he.symm)]
          exact hc2 c h1 hcases hclen
        · rw [hget_set_ne (fun he => hipos he.symm)]
          by_cases hq : (i - 1) / 2 = pos
          · rw [hq, hget_set_self hlen]
            exact hcmin i (by omega) hi
          · rw [hget_set_ne (fun he => hq he.symm)]
            exact ha2 i h1 hi hipos hq
      have hc2' : ∀ gc, 0 < c → (gc = 2 * c + 1 ∨ gc = 2 * c + 2) →
          gc < (heap.set pos (hget heap c)).length →
          optLt (k (hget (heap.set pos (hget heap c)) gc))
            (k (hget (heap.set pos (hget heap c)) ((c - 1) / 2))) = false := by
        intro gc _ hgc hgclen
        rw [List.length_set] at hgclen
        have hcq : (c - 1) / 2 = pos := by omega
        have hgcpos : gc ≠ pos := by omega
        rw [hcq, hget_set_self hlen, hget_set_ne (fun he => hgcpos he.symm)]
        have hedge := ha2 gc (by omega) hgclen (by omega) (by omega)
        have : (gc - 1) / 2 = c := by omega
        rw [this] at hedge
        exact hedge
      obtain ⟨hH, hL, hC⟩ := ih (heap.set pos (hget heap c)) newitem c
        (by simp only [List.length_set]; omega) (by simpa using hclen) ha2' hc2'
      refine ⟨hH, by rw [hL, List.length_set], fun x => ?_⟩
      have h1 := hC x
      have h2 := count_set (heap.set pos (hget heap c)) c newitem x
        (by simpa using hclen)
      have h3 := count_set heap pos (hget heap c) x hlen
      have h4 := count_set heap pos newitem x hlen
      rw [hget_set_ne (by omega : pos ≠ c)] at h2
      omega
    · rw [if_neg hchild]
      have ha : ∀ i, 0 < i → i < (heap.set pos newitem).length → i ≠ pos →
          optLt (k (hget (heap.set pos newitem) i))
            (k (hget (heap.set pos newitem) ((i - 1) / 2))) = false := by
        intro i h1 hi hipos
        rw [List.length_set] at hi
        by_cases hq : (i - 1) / 2 = pos
        · omega
        · rw [hget_set_ne (fun he => hipos he.symm),
            hget_set_ne (fun he => hq he.symm)]
          exact ha2 i h1 hi hipos hq
      have hb : ∀ c, (c = 2 * pos + 1 ∨ c = 2 * pos + 2) →
          c < (heap.set pos newitem).length →
          optLt (k (hget (heap.set pos newitem) c)) (k newitem) = false := by
        intro c hc hclen
        rw [List.length_set] at hclen
        omega
      have hcv : ∀ c, 0 < pos → (c = 2 * pos + 1 ∨ c = 2 * pos + 2) →
          c < (heap.set pos newitem).length →
          optLt (k (hget (heap.set pos newitem) c))
            (k (hget (heap.set pos newitem) ((pos - 1) / 2))) = false := by
        intro c _ hc hclen
        rw [List.length_set] at hclen
        omega
      obtain ⟨hH, hL, hC⟩ := siftdownAux_spec k (pos + 1) (heap.set pos newitem)
        newitem pos (by omega) (by simpa using hlen) ha hb hcv
      have hsd : siftdown (kLt k) 0 (heap.set pos newitem) newitem pos =
          siftdownAux (kLt k) 0 (pos + 1) (heap.set pos newitem) newitem pos := rfl
      refine ⟨hsd ▸ hH, ?_, fun x => ?_⟩
      · rw [hsd, hL, List.length_set]
      · rw [hsd, hC x, List.set_set]

theorem heappop_eq (lt : Pos → Pos → Bool) (heap : List Pos) (last : Pos)
    (h : heap.getLast? = some last) :
    heappop lt heap =
      (if heap.dropLast.isEmpty then some (last, [])
       else some (hget heap.dropLast 0,
        siftup lt (heap.dropLast.set 0 last) last 0 0)) := by
  rw [heappop, h]

/-- `heappop` on a nonempty heap returns the root (the minimum, by
`heapInv_root_le`) and a heap of the remaining elements. -/
theorem heappop_spec (k : Pos → Option Nat) (heap : List Pos)
    (h : HeapInv k heap) (hne : heap ≠ []) :
    ∃ rest, heappop (kLt k) heap = some (hget heap 0, rest)
      ∧ HeapInv k rest
      ∧ rest.length + 1 = heap.length
      ∧ (∀ x, rest.count x + (if hget heap 0 = x then 1 else 0) = heap.count x) := by
  obtain ⟨last, hlast⟩ : ∃ l, heap.getLast? = some l :=
    ⟨_, List.getLast?_eq_getLast heap hne⟩
  have heq : heap.dropLast ++ [last] = heap := by
    have h1 := List.dropLast_append_getLast hne
    have h2 : heap.getLast hne = last := by
      have h3 := List.getLast?_eq_getLast heap hne
      rw [hlast] at h3
      injection h3 with h4
      exact h4.symm
    rw [h2] at h1
    exact h1
  rw [heappop_eq (kLt k) heap last hlast]
  by_cases hemp : heap.dropLast.isEmpty
  · rw [if_pos hemp]
    have hnil : heap.dropLast = [] := by simpa [List.isEmpty_iff] using hemp
    have hsingle : heap = [last] := by rw [← heq, hnil]; rfl
    have hroot : hget heap 0 = last := by rw [hsingle]; rfl
    refine ⟨[], ?_, heapInv_nil k, ?_, ?_⟩
    · rw [hroot]
    · rw [hsingle]; rfl
    · intro x
      rw [hroot, hsingle]
      by_cases hx : last = x
      · subst hx
        simp
      · have hx' : x ≠ last := fun he => hx he.symm
        simp [hx, hx', List.count_cons]
  · rw [if_neg hemp]
    have hnnil : heap.dropLast ≠ [] := by
      intro hnil
      rw [hnil] at hemp
      exact hemp rfl
    have hdpos : 0 < heap.dropLast.length := List.length_pos.mpr hnnil
    have hdlen : heap.dropLast.length + 1 = heap.length := by
      rw [← heq]
      simp
    have hgetd : ∀ j, j < heap.dropLast.length →
        hget heap j = hget heap.dropLast j := by
      intro j hj
      conv_lhs => rw [← heq]
      exact hget_append_lt hj
    have ha2 : ∀ i, 0 < i → i < (heap.dropLast.set 0 last).length →
        i ≠ 0 → (i - 1) / 2 ≠ 0 →
        optLt (k (hget (heap.dropLast.set 0 last) i))
          (k (hget (heap.dropLast.set 0 last) ((i - 1) / 2))) = false := by
      intro i h1 hi _ hq
      rw [List.length_set] at hi
      rw [hget_set_ne (fun he => (by omega : i ≠ 0) he.symm),
        hget_set_ne (fun he => hq he.symm)]
      rw [← hgetd i hi, ← hgetd ((i - 1) / 2) (by omega)]
      exact h i h1 (by omega)
    have hc2 : ∀ c, 0 < (0 : Nat) → (c = 2 * 0 + 1 ∨ c = 2 * 0 + 2) →
        c < (heap.dropLast.set 0 last).length →
        optLt (k (hget (heap.dropLast.set 0 last) c))
          (k (hget (heap.dropLast.set 0 last) ((0 - 1) / 2))) = false := by
      intro c hc
      omega
    obtain ⟨hH, hL, hC⟩ := siftupAux_spec k
      ((heap.dropLast.set 0 last).length + 1)
      (heap.dropLast.set 0 last) last 0
      (by omega) (by simpa using hdpos) ha2 hc2
    have hsu : siftup (kLt k) (heap.dropLast.set 0 last) last 0 0 =
        siftupAux (kLt k) ((heap.dropLast.set 0 last).length + 1)
          (heap.dropLast.set 0 last) last 0 0 := rfl
    refine ⟨_, ?_, hsu ▸ hH, ?_, ?_⟩
    · rw [hgetd 0 hdpos]
    · rw [hsu, hL, List.length_set, hdlen]
    · intro x
      rw [hsu, hC x, List.set_set]
      have h2 := count_set heap.dropLast 0 last x hdpos
      have h3 : heap.count x = heap.dropLast.count x +
          (if last = x then 1 else 0) := by
        conv_lhs => rw [← heq]
        rw [List.count_append]
        by_cases hx : last = x
        · simp [hx]
        · have hx' : x ≠ last := fun he => hx he.symm
          simp [hx, List.count_cons, beq_iff_eq, hx']
      rw [hgetd 0 hdpos]
      omega

/-! ## C5: no node is settled twice

An instrumented copy of the Dijkstra loop records the dequeued-and-counted
nodes; the invariant below shows the trace never repeats a node: under unit
edge weights a node, once inserted, is never re-inserted (there is no
dequeue-time duplicate check in the code — none is ever needed). -/

/-- The trace-instrumented Dijkstra loop (identical to `dijkstraLoop` plus the
trace accumulator of counted pops). -/
def dijkstraLoopT (rfuel : Nat) (endP : Pos) :
    Nat → Grid → List Pos → Nat → Nat → List Pos →
    Option ((Grid × Nat × Nat) × List Pos)
  | 0, _, _, _, _, _ => none
  | fuel + 1, g, open_set, visited_count, pl, tr =>
    match heappop (nodeLt g) open_set with
    | none => some ((g, 0, pl), tr)
    | some (current, open_rest) =>
      if current = endP then
        match reconstruct_path rfuel g current 0 with
        | none => none
        | some (g', plen) => some ((g', visited_count, plen), tr)
      else
        dijkstraLoopT rfuel endP fuel
          (dijkstraRelax (g.setNode current
              { state := PROCESSING, distance := (g.grid current).distance,
                heuristic := (g.grid current).heuristic,
                prev := (g.grid current).prev })
            current
            ((g.setNode current
              { state := PROCESSING, distance := (g.grid current).distance,
                heuristic := (g.grid current).heuristic,
                prev := (g.grid current).prev }).get_neighbors current)
            open_rest).1
          (dijkstraRelax (g.setNode current
              { state := PROCESSING, distance := (g.grid current).distance,
                heuristic := (g.grid current).heuristic,
                prev := (g.grid current).prev })
            current
            ((g.setNode current
              { state := PROCESSING, distance := (g.grid current).distance,
                heuristic := (g.grid current).heuristic,
                prev := (g.grid current).prev }).get_neighbors current)
            open_rest).2
          (visited_count + 1) pl (tr ++ [current])

theorem dijkstraLoopT_pop_none {g : Grid} {heap : List Pos}
    (rfuel fuel cnt pl : Nat) (endP : Pos) (tr : List Pos)
    (hpop : heappop (nodeLt g) heap = none) :
    dijkstraLoopT rfuel endP (fuel + 1) g heap cnt pl tr = some ((g, 0, pl), tr) := by
  rw [dijkstraLoopT, hpop]

theorem dijkstraLoopT_pop_some {g : Grid} {heap : List Pos} {current : Pos}
    {rest : List Pos} (rfuel fuel cnt pl : Nat) (endP : Pos) (tr : List Pos)
    (hpop : heappop (nodeLt g) heap = some (current, rest)) :
    dijkstraLoopT rfuel endP (fuel + 1) g heap cnt pl tr =
      (if current = endP then
        match reconstruct_path rfuel g current 0 with
        | none => none
        | some (g', plen) => some ((g', cnt, plen), tr)
      else
        dijkstraLoopT rfuel endP fuel
          (dijkstraRelax (g.setNode current
              { state := PROCESSING, distance := (g.grid current).distance,
                heuristic := (g.grid current).heuristic,
                prev := (g.grid current).prev })
            current
            ((g.setNode current
              { state := PROCESSING, distance := (g.grid current).distance,
                heuristic := (g.grid current).heuristic,
                prev := (g.grid current).prev }).get_neighbors current) rest).1
          (dijkstraRelax (g.setNode current
              { state := PROCESSING, distance := (g.grid current).distance,
                heuristic := (g.grid current).heuristic,
                prev := (g.grid current).prev })
            current
            ((g.setNode current
              { state := PROCESSING, distance := (g.grid current).distance,
                heuristic := (g.grid current).heuristic,
                prev := (g.grid current).prev }).get_neighbors current) rest).2
          (cnt + 1) pl (tr ++ [current])) := by
  rw [dijkstraLoopT, hpop]

/-- The instrumented loop projects onto the plain one. -/
theorem dijkstraLoopT_fst :
    ∀ (fuel rfuel : Nat) (endP : Pos) (g : Grid) (heap : List Pos)
      (cnt pl : Nat) (tr : List Pos),
      (dijkstraLoopT rfuel endP fuel g heap cnt pl tr).map Prod.fst =
        dijkstraLoop rfuel endP fuel g heap cnt pl := by
  intro fuel
  induction fuel with
  | zero => intro rfuel endP g heap cnt pl tr; rfl
  | succ fuel ih =>
    intro rfuel endP g heap cnt pl tr
    cases hpop : heappop (nodeLt g) heap with
    | none =>
      rw [dijkstraLoopT_pop_none rfuel fuel cnt pl endP tr hpop,
        dijkstraLoop_pop_none rfuel fuel cnt pl endP hpop]
      rfl
    | some pr =>
      obtain ⟨current, rest⟩ := pr
      rw [dijkstraLoopT_pop_some rfuel fuel cnt pl endP tr hpop,
        dijkstraLoop_pop_some rfuel fuel cnt pl endP hpop]
      by_cases hce : current = endP
      · rw [if_pos hce, if_pos hce]
        cases hr : reconstruct_path rfuel g current 0 with
        | none => rfl
        | some v => obtain ⟨g', plen⟩ := v; rfl
      · rw [if_neg hce, if_neg hce]
        exact ih rfuel endP _ _ (cnt + 1) pl (tr ++ [current])

/-- The key of a node as a plain natural (`0` stands for infinity; only read
where finiteness is known). -/
def dval (g : Grid) (p : Pos) : Nat := ((g.grid p).distance).getD 0

theorem optLt_false_some {a b : Nat} (h : optLt (some a) (some b) = false) :
    b ≤ a := by
  simpa [optLt] using h

/-- The run invariant of the instrumented Dijkstra loop (also covering runs
started on grids with arbitrary leftover bookkeeping): the frontier is a
well-formed heap of distinct undealt nodes with finite keys in the window
`[last, last+1]` of the last counted pop, and the trace is distinct with
monotone keys. -/
structure DInv (g : Grid) (heap tr : List Pos) : Prop where
  hinv : HeapInv (fun p => (g.grid p).distance) heap
  hfinH : ∀ p ∈ heap, ∃ kp, (g.grid p).distance = some kp
  hfinT : ∀ p ∈ tr, ∃ kp, (g.grid p).distance = some kp
  nodupH : heap.Nodup
  nodupT : tr.Nodup
  disj : ∀ p ∈ heap, p ∉ tr
  hlow : ∀ p ∈ heap, ∀ q, tr.getLast? = some q → dval g q ≤ dval g p
  hhigh : ∀ p ∈ heap, ∀ q, tr.getLast? = some q → dval g p ≤ dval g q + 1
  hpople : ∀ p ∈ tr, ∀ q, tr.getLast? = some q → dval g p ≤ dval g q
  hinit : tr = [] → ∀ p ∈ heap, dval g p = 0

theorem count_pos_iff_mem {l : List Pos} {a : Pos} : 0 < l.count a ↔ a ∈ l :=
  List.count_pos_iff_mem

theorem nodup_iff_count {l : List Pos} :
    l.Nodup ↔ ∀ a, l.count a ≤ 1 := by
  induction l with
  | nil => simp
  | cons a l ih =>
    rw [List.nodup_cons, ih]
    constructor
    · rintro ⟨ha, hcnt⟩ x
      rcases eq_or_ne x a with rfl | hx
      · have h0 : l.count x = 0 := by
          by_contra hc
          exact ha (count_pos_iff_mem.mp (by omega))
        simp [List.count_cons, h0]
      · have := hcnt x
        simp only [List.count_cons, beq_iff_eq]
        rw [if_neg (Ne.symm hx)]
        omega
    · intro hcnt
      constructor
      · intro hmem
        have h1 : 0 < l.count a := count_pos_iff_mem.mpr hmem
        have := hcnt a
        simp only [List.count_cons, beq_iff_eq] at this
        rw [if_pos trivial] at this
        omega
      · intro x
        have := hcnt x
        rcases eq_or_ne x a with rfl | hx
        · simp only [List.count_cons, beq_iff_eq] at this
          rw [if_pos trivial] at this
          omega
        · simp only [List.count_cons, beq_iff_eq] at this
          rw [if_neg (Ne.symm hx)] at this
          omega

theorem mem_of_getLast {l : List Pos} {a : Pos} (h : l.getLast? = some a) :
    a ∈ l := by
  induction l with
  | nil => cases h
  | cons x xs ih =>
    cases xs with
    | nil =>
      simp only [List.getLast?_singleton, Option.some.injEq] at h
      simp [h]
    | cons y ys =>
      rw [List.getLast?_cons_cons] at h
      exact List.mem_cons_of_mem x (ih h)

/-- A grid change that preserves every distance preserves the run invariant. -/
theorem DInv.of_distance_eq {g g' : Grid} {heap tr : List Pos}
    (h : DInv g heap tr)
    (hd : ∀ p, (g'.grid p).distance = (g.grid p).distance) :
    DInv g' heap tr := by
  have hdv : ∀ p, dval g' p = dval g p := fun p => by rw [dval, hd]; rfl
  refine ⟨?_, ?_, ?_, h.nodupH, h.nodupT, h.disj, ?_, ?_, ?_, ?_⟩
  · intro i h1 hi
    have h2 := h.hinv i h1 hi
    simp only [hd]
    exact h2
  · intro p hp
    rw [hd]
    exact h.hfinH p hp
  · intro p hp
    rw [hd]
    exact h.hfinT p hp
  · intro p hp q hq
    rw [hdv, hdv]
    exact h.hlow p hp q hq
  · intro p hp q hq
    rw [hdv, hdv]
    exact h.hhigh p hp q hq
  · intro p hp q hq
    rw [hdv, hdv]
    exact h.hpople p hp q hq
  · intro ht p hp
    rw [hdv]
    exact h.hinit ht p hp

/-- Unfolding of one relaxation step when the relaxation test succeeds, with
the updated grid written as an explicit record literal. -/
theorem dijkstraRelax_cons_true (g : Grid) (current n : Pos) (rest heap : List Pos)
    (hc : optLt (optAdd1 (g.grid current).distance) ((g.grid n).distance) = true) :
    dijkstraRelax g current (n :: rest) heap =
      dijkstraRelax
        (g.setNode n
          { state := (g.grid n).state,
            distance := optAdd1 (g.grid current).distance,
            heuristic := (g.grid n).heuristic,
            prev := some current }) current rest
        (heappush
          (nodeLt (g.setNode n
            { state := (g.grid n).state,
              distance := optAdd1 (g.grid current).distance,
              heuristic := (g.grid n).heuristic,
              prev := some current })) heap n) := by
  rw [dijkstraRelax, if_pos hc]

/-- Unfolding of one relaxation step when the relaxation test fails. -/
theorem dijkstraRelax_cons_false (g : Grid) (current n : Pos) (rest heap : List Pos)
    (hc : optLt (optAdd1 (g.grid current).distance) ((g.grid n).distance) = false) :
    dijkstraRelax g current (n :: rest) heap =
      dijkstraRelax g current rest heap := by
  rw [dijkstraRelax, if_neg (by simp [hc])]

/-- During the relaxation loop, a node already on the frontier or already
counted can never satisfy the relaxation test (unit edge weights keep every
candidate distance at least as large as the stored one), so only fresh nodes
are pushed, and the run invariant is preserved. -/
theorem dijkstraRelax_light :
    ∀ (ns : List Pos) (g : Grid) (current : Pos) (heap tr : List Pos),
      DInv g heap tr →
      tr.getLast? = some current →
      (∀ n ∈ ns, n ≠ current) →
      DInv (dijkstraRelax g current ns heap).1
        (dijkstraRelax g current ns heap).2 tr := by
  intro ns
  induction ns with
  | nil =>
    intro g current heap tr hI _ _
    exact hI
  | cons n rest ih =>
    intro g current heap tr hI hlast hcns
    have hncur : n ≠ current := hcns n (by simp)
    have hcurmem : current ∈ tr := mem_of_getLast hlast
    obtain ⟨c, hc⟩ := hI.hfinT current hcurmem
    have hdvc : dval g current = c := by rw [dval, hc]; rfl
    by_cases hcond :
        optLt (optAdd1 (g.grid current).distance) ((g.grid n).distance) = true
    · rw [dijkstraRelax_cons_true g current n rest heap hcond]
      -- n is neither on the frontier nor already counted
      have hnheap : n ∉ heap := by
        intro hmem
        obtain ⟨kn, hkn⟩ := hI.hfinH n hmem
        rw [hc, hkn] at hcond
        have h1 : c + 1 < kn := by simpa [optAdd1, optLt] using hcond
        have h2 := hI.hhigh n hmem current hlast
        rw [hdvc, dval, hkn] at h2
        simp at h2
        omega
      have hntr : n ∉ tr := by
        intro hmem
        obtain ⟨kn, hkn⟩ := hI.hfinT n hmem
        rw [hc, hkn] at hcond
        have h1 : c + 1 < kn := by simpa [optAdd1, optLt] using hcond
        have h2 := hI.hpople n hmem current hlast
        rw [hdvc, dval, hkn] at h2
        simp at h2
        omega
      set g' := g.setNode n
        { state := (g.grid n).state,
          distance := optAdd1 (g.grid current).distance,
          heuristic := (g.grid n).heuristic,
          prev := some current } with hg'
      have hdpres : ∀ p, p ≠ n → (g'.grid p).distance = (g.grid p).distance := by
        intro p hp
        simp [hg', Grid.setNode, hp]
      have hdn : (g'.grid n).distance = some (c + 1) := by
        simp [hg', Grid.setNode, hc, optAdd1]
      have hinv' : HeapInv (fun p => (g'.grid p).distance) heap := by
        apply heapInv_congr hI.hinv
        intro x hx
        exact hdpres x (fun he => hnheap (he ▸ hx))
      obtain ⟨hH, hL, hC⟩ :=
        heappush_spec (fun p => (g'.grid p).distance) heap n hinv'
      rw [nodeLt_eq_kLt g']
      -- membership and dedup of the pushed frontier, via counts
      have hmemP : ∀ x, x ∈ heappush (kLt fun p => (g'.grid p).distance) heap n ↔
          x ∈ heap ∨ x = n := by
        intro x
        rw [← count_pos_iff_mem, hC x, ← count_pos_iff_mem]
        by_cases hx : n = x
        · subst hx
          simp
        · have hx' : x ≠ n := fun he => hx he.symm
          rw [if_neg hx]
          simp [hx']
      have hndP : (heappush (kLt fun p => (g'.grid p).distance) heap n).Nodup := by
        rw [nodup_iff_count]
        intro a
        rw [hC a]
        by_cases ha : n = a
        · subst ha
          have h0 : heap.count n = 0 := by
            by_contra hcnt
            exact hnheap (count_pos_iff_mem.mp (by omega))
          simp [h0]
        · have h1 := nodup_iff_count.mp hI.nodupH a
          rw [if_neg ha]
          omega
      have hcur' : (g'.grid current).distance = some c := by
        rw [hdpres current (fun he => hncur he.symm), hc]
      have hdvc' : dval g' current = c := by rw [dval, hcur']; rfl
      have htrne : tr ≠ [] := by
        intro he
        rw [he] at hlast
        cases hlast
      have hI' : DInv g' (heappush (kLt fun p => (g'.grid p).distance) heap n) tr := by
        refine ⟨hH, ?_, ?_, hndP, hI.nodupT, ?_, ?_, ?_, ?_, ?_⟩
        · intro p hp
          rcases (hmemP p).mp hp with hp' | rfl
          · obtain ⟨kp, hkp⟩ := hI.hfinH p hp'
            exact ⟨kp, by rw [hdpres p (fun he => hnheap (he ▸ hp')), hkp]⟩
          · exact ⟨c + 1, hdn⟩
        · intro p hp
          obtain ⟨kp, hkp⟩ := hI.hfinT p hp
          exact ⟨kp, by rw [hdpres p (fun he => hntr (he ▸ hp)), hkp]⟩
        · intro p hp
          rcases (hmemP p).mp hp with hp' | rfl
          · exact hI.disj p hp'
          · exact hntr
        · intro p hp q hq
          rw [hlast] at hq
          injection hq with hq
          subst hq
          rw [hdvc']
          rcases (hmemP p).mp hp with hp' | rfl
          · have h3 := hI.hlow p hp' current hlast
            rw [hdvc] at h3
            rw [dval, hdpres p (fun he => hnheap (he ▸ hp'))]
            exact h3
          · rw [dval, hdn]
            simp
        · intro p hp q hq
          rw [hlast] at hq
          injection hq with hq
          subst hq
          rw [hdvc']
          rcases (hmemP p).mp hp with hp' | rfl
          · have h3 := hI.hhigh p hp' current hlast
            rw [hdvc] at h3
            rw [dval, hdpres p (fun he => hnheap (he ▸ hp'))]
            exact h3
          · rw [dval, hdn]
            simp
        · intro p hp q hq
          rw [hlast] at hq
          injection hq with hq
          subst hq
          rw [hdvc']
          have h3 := hI.hpople p hp current hlast
          rw [hdvc] at h3
          rw [dval, hdpres p (fun he => hntr (he ▸ hp))]
          exact h3
        · intro he
          exact absurd he htrne
      exact ih g' current _ tr hI' hlast (fun m hm => hcns m (by simp [hm]))
    · have hcond' :
          optLt (optAdd1 (g.grid current).distance) ((g.grid n).distance) = false := by
        cases hbv :
            optLt (optAdd1 (g.grid current).distance) ((g.grid n).distance)
        · rfl
        · exact absurd hbv hcond
      rw [dijkstraRelax_cons_false g current n rest heap hcond']
      exact ih g current heap tr hI hlast (fun m hm => hcns m (by simp [hm]))

theorem getLast_append_singleton (l : List Pos) (a : Pos) :
    (l ++ [a]).getLast? = some a := by
  induction l with
  | nil => rfl
  | cons x xs ih =>
    rw [List.cons_append]
    cases hxs : xs ++ [a] with
    | nil => exact absurd hxs (by simp)
    | cons y ys =>
      rw [List.getLast?_cons_cons, ← hxs, ih]

theorem nodup_append_singleton {l : List Pos} {a : Pos}
    (h1 : l.Nodup) (h2 : a ∉ l) : (l ++ [a]).Nodup := by
  rw [nodup_iff_count]
  intro x
  rw [List.count_append]
  have hx := nodup_iff_count.mp h1 x
  have hone : ([a] : List Pos).count x = if a = x then 1 else 0 := by
    simp [List.count_cons]
  rw [hone]
  by_cases hxa : a = x
  · subst hxa
    have h0 : l.count a = 0 := by
      by_contra hc
      exact h2 (count_pos_iff_mem.mp (by omega))
    rw [if_pos rfl]
    omega
  · rw [if_neg hxa]
    omega

theorem mem_exists_hget {l : List Pos} {p : Pos} (h : p ∈ l) :
    ∃ i, i < l.length ∧ hget l i = p := by
  obtain ⟨⟨i, hi⟩, hg⟩ := List.mem_iff_get.mp h
  exact ⟨i, hi, by rw [hget, List.getD_eq_get l (0, 0) hi]; exact hg⟩

theorem mem_get_neighbors_ne {g : Grid} {p n : Pos}
    (h : n ∈ g.get_neighbors p) : n ≠ p := by
  rw [get_neighbors_eq_filter] at h
  have h1 : n ∈ rdlu p := (List.mem_filter.mp h).1
  have h2 : adjacent p n := (mem_rdlu_iff_adjacent p n).mp h1
  rcases p with ⟨a, b⟩
  rcases n with ⟨c, d⟩
  simp only [adjacent] at h2
  intro he
  rw [Prod.mk.injEq] at he
  rcases h2 with ⟨h3, h4⟩ | ⟨h3, h4⟩ <;> omega

/-- Popping the frontier root extends the run invariant: the popped node is
fresh, becomes the newest counted node, and its key lies between the previous
newest key and that key plus one. -/
theorem dijkstra_pop_mid {g : Grid} {heap tr : List Pos} {current : Pos}
    {rest : List Pos} (hI : DInv g heap tr)
    (hpop : heappop (nodeLt g) heap = some (current, rest)) :
    DInv g rest (tr ++ [current]) := by
  have hne : heap ≠ [] := by
    intro he
    subst he
    cases hpop
  obtain ⟨rest₀, hpop₀, hinvR, hlenR, hcntR⟩ :=
    heappop_spec (fun p => (g.grid p).distance) heap hI.hinv hne
  rw [nodeLt_eq_kLt g, hpop₀] at hpop
  injection hpop with hpq
  rw [Prod.mk.injEq] at hpq
  obtain ⟨hcur, hrest⟩ := hpq
  subst hrest
  subst hcur
  have hlpos : 0 < heap.length := List.length_pos.mpr hne
  have hrootmem : hget heap 0 ∈ heap := hget_mem hlpos
  have hrootnotr : hget heap 0 ∉ tr := hI.disj _ hrootmem
  obtain ⟨kc, hkc⟩ := hI.hfinH _ hrootmem
  have hmemR : ∀ x ∈ rest₀, x ∈ heap := by
    intro x hx
    have h1 : 0 < rest₀.count x := count_pos_iff_mem.mpr hx
    have h2 := hcntR x
    apply count_pos_iff_mem.mp
    by_cases hcx : hget heap 0 = x
    · rw [if_pos hcx] at h2
      omega
    · rw [if_neg hcx] at h2
      omega
  have hcntle : ∀ x, rest₀.count x ≤ heap.count x := by
    intro x
    have h2 := hcntR x
    by_cases hcx : hget heap 0 = x
    · rw [if_pos hcx] at h2
      omega
    · rw [if_neg hcx] at h2
      omega
  have hnodupR : rest₀.Nodup := by
    rw [nodup_iff_count]
    intro a
    exact le_trans (hcntle a) (nodup_iff_count.mp hI.nodupH a)
  have hrootnotrest : hget heap 0 ∉ rest₀ := by
    intro hx
    have h1 : 0 < rest₀.count (hget heap 0) := count_pos_iff_mem.mpr hx
    have h2 := hcntR (hget heap 0)
    rw [if_pos rfl] at h2
    have h3 := nodup_iff_count.mp hI.nodupH (hget heap 0)
    omega
  have hmemT1 : ∀ p, p ∈ tr ++ [hget heap 0] ↔ p ∈ tr ∨ p = hget heap 0 := by
    intro p
    simp
  have hlastT1 : (tr ++ [hget heap 0]).getLast? = some (hget heap 0) :=
    getLast_append_singleton _ _
  have hrootle : ∀ p ∈ rest₀, dval g (hget heap 0) ≤ dval g p := by
    intro p hp
    obtain ⟨i, hi, hgi⟩ := mem_exists_hget (hmemR p hp)
    have h1 := heapInv_root_le hI.hinv i hi
    rw [hgi] at h1
    have h1' : optLt ((g.grid p).distance) ((g.grid (hget heap 0)).distance)
        = false := h1
    obtain ⟨kp, hkp⟩ := hI.hfinH p (hmemR p hp)
    rw [hkp, hkc] at h1'
    have h2 := optLt_false_some h1'
    rw [dval, dval, hkp, hkc]
    exact h2
  have hroothigh : ∀ p ∈ rest₀, dval g p ≤ dval g (hget heap 0) + 1 := by
    intro p hp
    by_cases htrnil : tr = []
    · have h0p := hI.hinit htrnil p (hmemR p hp)
      have h0c := hI.hinit htrnil _ hrootmem
      omega
    · obtain ⟨q₀, hq₀⟩ : ∃ q, tr.getLast? = some q :=
        ⟨tr.getLast htrnil, List.getLast?_eq_getLast tr htrnil⟩
      have ha := hI.hhigh p (hmemR p hp) q₀ hq₀
      have hb := hI.hlow (hget heap 0) hrootmem q₀ hq₀
      omega
  refine ⟨hinvR, ?_, ?_, hnodupR, ?_, ?_, ?_, ?_, ?_, ?_⟩
  · intro p hp
    exact hI.hfinH p (hmemR p hp)
  · intro p hp
    rcases (hmemT1 p).mp hp with hp' | rfl
    · exact hI.hfinT p hp'
    · exact ⟨kc, hkc⟩
  · exact nodup_append_singleton hI.nodupT hrootnotr
  · intro p hp hmem
    rcases (hmemT1 p).mp hmem with hp' | rfl
    · exact hI.disj p (hmemR p hp) hp'
    · exact hrootnotrest hp
  · intro p hp q hq
    rw [hlastT1] at hq
    injection hq with hq
    subst hq
    exact hrootle p hp
  · intro p hp q hq
    rw [hlastT1] at hq
    injection hq with hq
    subst hq
    exact hroothigh p hp
  · intro p hp q hq
    rw [hlastT1] at hq
    injection hq with hq
    subst hq
    rcases (hmemT1 p).mp hp with hp' | rfl
    · have htrnil : tr ≠ [] := by
        intro he
        rw [he] at hp'
        cases hp'
      obtain ⟨q₀, hq₀⟩ : ∃ q, tr.getLast? = some q :=
        ⟨tr.getLast htrnil, List.getLast?_eq_getLast tr htrnil⟩
      have ha := hI.hpople p hp' q₀ hq₀
      have hb := hI.hlow (hget heap 0) hrootmem q₀ hq₀
      omega
    · exact le_refl _
  · intro he
    exact absurd he (by simp)

/-- Partial correctness of the instrumented Dijkstra loop: if it returns, the
counted pops form a duplicate-free trace, and the reported visited count is
the trace length (or the literal `0` of the no-path exit). -/
theorem dijkstraLoopT_light :
    ∀ (fuel rfuel : Nat) (endP : Pos) (g : Grid) (heap tr : List Pos) (pl : Nat),
      DInv g heap tr →
      ∀ res tr',
        dijkstraLoopT rfuel endP fuel g heap tr.length pl tr = some (res, tr') →
        tr'.Nodup ∧ (res.2.1 = tr'.length ∨ res.2.1 = 0) := by
  intro fuel
  induction fuel with
  | zero =>
    intro rfuel endP g heap tr pl hI res tr' hrun
    exact Option.noConfusion hrun
  | succ fuel ih =>
    intro rfuel endP g heap tr pl hI res tr' hrun
    cases hpop : heappop (nodeLt g) heap with
    | none =>
      rw [dijkstraLoopT_pop_none rfuel fuel tr.length pl endP tr hpop] at hrun
      injection hrun with h1
      rw [Prod.mk.injEq] at h1
      obtain ⟨hres, htr⟩ := h1
      subst htr
      subst hres
      exact ⟨hI.nodupT, Or.inr rfl⟩
    | some pr =>
      obtain ⟨current, rest⟩ := pr
      rw [dijkstraLoopT_pop_some rfuel fuel tr.length pl endP tr hpop] at hrun
      by_cases hend : current = endP
      · rw [if_pos hend] at hrun
        cases hrec : reconstruct_path rfuel g current 0 with
        | none =>
          rw [hrec] at hrun
          cases hrun
        | some pr2 =>
          obtain ⟨g2, plen⟩ := pr2
          rw [hrec] at hrun
          injection hrun with h1
          rw [Prod.mk.injEq] at h1
          obtain ⟨hres, htr⟩ := h1
          subst htr
          subst hres
          exact ⟨hI.nodupT, Or.inl rfl⟩
      · rw [if_neg hend] at hrun
        have hmid := dijkstra_pop_mid hI hpop
        set g1 := g.setNode current
          { state := PROCESSING, distance := (g.grid current).distance,
            heuristic := (g.grid current).heuristic,
            prev := (g.grid current).prev } with hg1
        have hdist1 : ∀ p, (g1.grid p).distance = (g.grid p).distance := by
          intro p
          by_cases hp : p = current
          · subst hp
            simp [hg1, Grid.setNode]
          · simp [hg1, Grid.setNode, hp]
        have hmid1 : DInv g1 rest (tr ++ [current]) := hmid.of_distance_eq hdist1
        have hlast1 : (tr ++ [current]).getLast? = some current :=
          getLast_append_singleton tr current
        have hrelax := dijkstraRelax_light (g1.get_neighbors current) g1 current
          rest (tr ++ [current]) hmid1 hlast1
          (fun n hn => mem_get_neighbors_ne hn)
        have hlen1 : tr.length + 1 = (tr ++ [current]).length := by simp
        rw [hlen1] at hrun
        exact ih rfuel endP _ _ (tr ++ [current]) pl hrelax res tr' hrun

/-- `dijkstra` with the list of counted (dequeued and marked) nodes recorded. -/
def dijkstraT (fuel rfuel : Nat) (g : Grid) (pl : Nat) :
    Option ((Grid × Nat × Nat) × List Pos) :=
  match g.startPos, g.endPos with
  | some s, some e =>
    let g0 := g.setNode s { g.grid s with distance := some 0 }
    dijkstraLoopT rfuel e fuel g0 (heappush (nodeLt g0) [] s) 0 pl []
  | _, _ => none

/-- `a_star` and `dijkstra` agree on the reported counters (restatement of the
simulation argument at the entry points, for use as a lemma). -/
theorem a_star_dijkstra_count {fuel rfuel : Nat} {g : Grid} {pl : Nat}
    {r1 r2 : Grid × Nat × Nat}
    (h1 : a_star fuel rfuel g pl = some r1)
    (h2 : dijkstra fuel rfuel g pl = some r2) : r1.2 = r2.2 := by
  have key : (a_star fuel rfuel g pl).map (fun r => (eraseH r.1, r.2)) =
      (dijkstra fuel rfuel g pl).map (fun r => (eraseH r.1, r.2)) := by
    rw [a_star, dijkstra]
    cases hs : g.startPos with
    | none => rfl
    | some s =>
      cases he : g.endPos with
      | none => rfl
      | some e => exact loop_eraseH fuel rfuel e rfl _ 0 pl
  rw [h1, h2] at key
  simp only [Option.map_some', Option.some.injEq, Prod.mk.injEq] at key
  exact key.2

/-- The run invariant holds at the entry of the Dijkstra loop. -/
theorem dijkstra_entry_inv (g : Grid) (s : Pos) :
    DInv (g.setNode s { g.grid s with distance := some 0 })
      (heappush (nodeLt (g.setNode s { g.grid s with distance := some 0 })) [] s)
      [] := by
  set g0 := g.setNode s { g.grid s with distance := some 0 } with hg0
  have hheap : heappush (nodeLt g0) [] s = [s] := rfl
  rw [hheap]
  have hds : (g0.grid s).distance = some 0 := by
    simp [hg0, Grid.setNode]
  refine ⟨heapInv_singleton _ _, ?_, ?_, ?_, ?_, ?_, ?_, ?_, ?_, ?_⟩
  · intro p hp
    rw [List.mem_singleton] at hp
    subst hp
    exact ⟨0, hds⟩
  · intro p hp
    cases hp
  · exact List.nodup_singleton s
  · exact List.nodup_nil
  · intro p _ hp
    cases hp
  · intro p _ q hq
    cases hq
  · intro p _ q hq
    cases hq
  · intro p hp q hq
    cases hp
  · intro _ p hp
    rw [List.mem_singleton] at hp
    subst hp
    rw [dval, hds]
    rfl

/-- C5: in every completed run of Dijkstra or A*, each node contributes at
most once to the returned visited count.  The instrumented run records the
counted dequeues; the record projects onto the plain `dijkstra` run, it is
duplicate-free, and the reported count is its length (or the literal `0` of
the no-path exit); `a_star` reports the same counters as `dijkstra`. -/
theorem c5_counted_at_most_once (fuel rfuel : Nat) (g : Grid) (pl : Nat) :
    ((dijkstraT fuel rfuel g pl).map Prod.fst = dijkstra fuel rfuel g pl)
    ∧ (∀ cnt tr,
        (dijkstraT fuel rfuel g pl).map (fun r => (r.1.2.1, r.2)) =
          some (cnt, tr) →
        tr.Nodup ∧ (cnt = tr.length ∨ cnt = 0))
    ∧ (∀ r1 r2, a_star fuel rfuel g pl = some r1 →
        dijkstra fuel rfuel g pl = some r2 → r1.2.1 = r2.2.1) := by
  refine ⟨?_, ?_, ?_⟩
  · rw [dijkstraT, dijkstra]
    cases hs : g.startPos with
    | none => rfl
    | some s =>
      cases he : g.endPos with
      | none => rfl
      | some e => exact dijkstraLoopT_fst fuel rfuel e _ _ 0 pl []
  · intro cnt tr hrun
    rw [dijkstraT] at hrun
    cases hs : g.startPos with
    | none =>
      rw [hs] at hrun
      cases he : g.endPos with
      | none =>
        rw [he] at hrun
        cases hrun
      | some e =>
        rw [he] at hrun
        cases hrun
    | some s =>
      rw [hs] at hrun
      cases he : g.endPos with
      | none =>
        rw [he] at hrun
        cases hrun
      | some e =>
        rw [he] at hrun
        obtain ⟨⟨res, tr₀⟩, hrun₀, hproj⟩ := Option.map_eq_some'.mp hrun
        rw [Prod.mk.injEq] at hproj
        obtain ⟨hcnt, htr⟩ := hproj
        have hres := dijkstraLoopT_light fuel rfuel e _ _ [] pl
          (dijkstra_entry_inv g s) res tr₀ hrun₀
        rw [← hcnt, ← htr]
        exact hres
  · intro r1 r2 h1 h2
    have h3 := a_star_dijkstra_count h1 h2
    rw [Prod.ext_iff] at h3
    exact h3.1

/-- The counted-node trace of the Dijkstra run on the open 5x5 grid. -/
def c5tr : List Pos :=
  [(0, 0), (0, 1), (1, 0), (0, 2), (1, 1), (2, 0), (0, 3), (2, 1), (3, 0),
   (1, 2), (1, 3), (4, 0), (3, 1), (2, 2), (0, 4), (2, 3), (3, 2), (4, 1),
   (1, 4), (3, 3), (2, 4), (4, 2), (4, 3), (3, 4)]

theorem c5_witness :
    (c5tr.Nodup ∧ (24 = c5tr.length ∨ 24 = 0))
    ∧ ((a_star 100 100 cgOpen5 0).getD (cgOpen5, 0, 0)).2.1 =
        ((dijkstra 100 100 cgOpen5 0).getD (cgOpen5, 0, 0)).2.1 :=
  ⟨(c5_counted_at_most_once 100 100 cgOpen5 0).2.1 24 c5tr (by rfl),
   (c5_counted_at_most_once 100 100 cgOpen5 0).2.2
     ((a_star 100 100 cgOpen5 0).getD (cgOpen5, 0, 0))
     ((dijkstra 100 100 cgOpen5 0).getD (cgOpen5, 0, 0))
     (by rfl) (by rfl)⟩

/-! ## Reachability, walls, and in-bounds cells -/

/-- Walks through the grid following `get_neighbors` steps, with their length.
This is the graph the searches explore: a step goes to an orthogonally
adjacent, in-bounds, non-wall cell. -/
inductive WalkN (g : Grid) : Pos → Pos → Nat → Prop
  | refl (p : Pos) : WalkN g p p 0
  | tail {p q r : Pos} {n : Nat} :
      WalkN g p q n → r ∈ g.get_neighbors q → WalkN g p r (n + 1)

/-- `q` lies in the connected component of `p` (through non-wall cells). -/
def ReachableG (g : Grid) (p q : Pos) : Prop := ∃ n, WalkN g p q n

/-- Two grids with the same shape and the same wall cells. -/
def WallEq (g0 g : Grid) : Prop :=
  g.rows = g0.rows ∧ g.cols = g0.cols ∧
    ∀ p, ((g.grid p).state = WALL ↔ (g0.grid p).state = WALL)

theorem wallEq_refl (g : Grid) : WallEq g g := ⟨rfl, rfl, fun _ => Iff.rfl⟩

/-- Passability queries agree on grids with equal walls. -/
theorem get_neighbors_wallEq {g0 g : Grid} (h : WallEq g0 g) (p : Pos) :
    g.get_neighbors p = g0.get_neighbors p := by
  obtain ⟨hr, hc, hw⟩ := h
  rw [get_neighbors_eq_filter, get_neighbors_eq_filter, hr, hc]
  apply List.filter_congr
  intro q _
  have hd : decide ((g.grid q).state ≠ WALL) = decide ((g0.grid q).state ≠ WALL) :=
    decide_eq_decide.mpr (not_congr (hw q))
  rw [hd]

/-- The bounds and passability facts carried by a `get_neighbors` result. -/
theorem mem_get_neighbors_props {g : Grid} {p n : Pos}
    (h : n ∈ g.get_neighbors p) :
    (0 ≤ n.1 ∧ n.1 < g.rows ∧ 0 ≤ n.2 ∧ n.2 < g.cols) ∧
      (g.grid n).state ≠ WALL := by
  rw [get_neighbors_eq_filter] at h
  have h2 := (List.mem_filter.mp h).2
  simp only [Bool.and_eq_true, decide_eq_true_eq] at h2
  exact ⟨⟨h2.1.1.1.1, h2.1.1.1.2, h2.1.1.2, h2.1.2⟩, h2.2⟩

theorem get_neighbors_length_le (g : Grid) (p : Pos) :
    (g.get_neighbors p).length ≤ 4 := by
  rw [get_neighbors_eq_filter]
  exact le_trans (List.length_filter_le _ _) (by rw [rdlu]; rfl)

/-- The in-bounds cells of a grid, as a finite set. -/
def boundsFinset (g : Grid) : Finset Pos :=
  (Finset.range g.rows.toNat ×ˢ Finset.range g.cols.toNat).image
    (fun ij => ((ij.1 : Int), (ij.2 : Int)))

theorem mem_boundsFinset (g : Grid) (p : Pos) :
    p ∈ boundsFinset g ↔ (0 ≤ p.1 ∧ p.1 < g.rows ∧ 0 ≤ p.2 ∧ p.2 < g.cols) := by
  rcases p with ⟨x, y⟩
  simp only [boundsFinset, Finset.mem_image, Finset.mem_product, Finset.mem_range,
    Prod.exists, Prod.mk.injEq]
  constructor
  · rintro ⟨a, b, ⟨ha, hb⟩, hx, hy⟩
    subst hx
    subst hy
    constructor
    · exact Int.ofNat_nonneg a
    refine ⟨?_, Int.ofNat_nonneg b, ?_⟩ <;> omega
  · rintro ⟨h1, h2, h3, h4⟩
    exact ⟨x.toNat, y.toNat, ⟨by omega, by omega⟩, by omega, by omega⟩

/-- A duplicate-free list over a finite set is no longer than the set. -/
theorem nodup_subset_card {l : List Pos} {t : Finset Pos}
    (hnd : l.Nodup) (hsub : ∀ x ∈ l, x ∈ t) : l.length ≤ t.card := by
  have h1 : l.toFinset.card = l.length := List.toFinset_card_of_nodup hnd
  have h2 : l.toFinset ⊆ t := fun x hx => hsub x (List.mem_toFinset.mp hx)
  calc l.length = l.toFinset.card := h1.symm
    _ ≤ t.card := Finset.card_le_card h2

/-! ## Membership and length of heap pushes, without the heap invariant -/

theorem siftdownAux_length (lt : Pos → Pos → Bool) (startpos : Nat) :
    ∀ (fuel : Nat) (heap : List Pos) (newitem : Pos) (pos : Nat),
      (siftdownAux lt startpos fuel heap newitem pos).length = heap.length := by
  intro fuel
  induction fuel with
  | zero =>
    intro heap newitem pos
    rw [siftdownAux, List.length_set]
  | succ fuel ih =>
    intro heap newitem pos
    rw [siftdownAux]
    by_cases h1 : startpos < pos
    · rw [if_pos h1]
      by_cases h2 : lt newitem (hget heap ((pos - 1) / 2)) = true
      · rw [if_pos h2, ih, List.length_set]
      · rw [if_neg h2, List.length_set]
    · rw [if_neg h1, List.length_set]

theorem siftdownAux_mem (lt : Pos → Pos → Bool) (startpos : Nat) :
    ∀ (fuel : Nat) (heap : List Pos) (newitem : Pos) (pos : Nat),
      pos < heap.length →
      ∀ x ∈ siftdownAux lt startpos fuel heap newitem pos,
        x ∈ heap ∨ x = newitem := by
  intro fuel
  induction fuel with
  | zero =>
    intro heap newitem pos _ x hx
    rw [siftdownAux] at hx
    exact List.mem_or_eq_of_mem_set hx
  | succ fuel ih =>
    intro heap newitem pos hpos x hx
    rw [siftdownAux] at hx
    by_cases h1 : startpos < pos
    · rw [if_pos h1] at hx
      by_cases h2 : lt newitem (hget heap ((pos - 1) / 2)) = true
      · rw [if_pos h2] at hx
        have hp2 : (pos - 1) / 2 < (heap.set pos (hget heap ((pos - 1) / 2))).length := by
          rw [List.length_set]
          omega
        rcases ih _ newitem _ hp2 x hx with hx' | hx'
        · rcases List.mem_or_eq_of_mem_set hx' with hx'' | hx''
          · exact Or.inl hx''
          · subst hx''
            exact Or.inl (hget_mem (by omega))
        · exact Or.inr hx'
      · rw [if_neg h2] at hx
        exact List.mem_or_eq_of_mem_set hx
    · rw [if_neg h1] at hx
      exact List.mem_or_eq_of_mem_set hx

theorem heappush_length (lt : Pos → Pos → Bool) (heap : List Pos) (item : Pos) :
    (heappush lt heap item).length = heap.length + 1 := by
  rw [heappush, siftdown, siftdownAux_length, List.length_append]
  rfl

theorem heappush_mem (lt : Pos → Pos → Bool) (heap : List Pos) (item : Pos) :
    ∀ x ∈ heappush lt heap item, x ∈ heap ∨ x = item := by
  intro x hx
  rw [heappush, siftdown] at hx
  have hlen : heap.length < (heap ++ [item]).length := by simp
  rcases siftdownAux_mem lt 0 (heap.length + 1) (heap ++ [item]) item heap.length
      hlen x hx with h | h
  · rcases List.mem_append.mp h with h' | h'
    · exact Or.inl h'
    · rw [List.mem_singleton] at h'
      exact Or.inr h'
  · exact Or.inr h

/-- The relaxation loop writes only `distance`/`prev` fields (never a state),
keeps the grid shape, pushes only listed neighbors, and never shrinks the
frontier. -/
theorem dijkstraRelax_aux :
    ∀ (ns : List Pos) (g : Grid) (current : Pos) (heap : List Pos),
      (∀ p, (((dijkstraRelax g current ns heap).1).grid p).state =
          (g.grid p).state)
      ∧ ((dijkstraRelax g current ns heap).1).rows = g.rows
      ∧ ((dijkstraRelax g current ns heap).1).cols = g.cols
      ∧ (∀ x ∈ (dijkstraRelax g current ns heap).2, x ∈ heap ∨ x ∈ ns)
      ∧ heap.length ≤ ((dijkstraRelax g current ns heap).2).length := by
  intro ns
  induction ns with
  | nil =>
    intro g current heap
    exact ⟨fun _ => rfl, rfl, rfl, fun x hx => Or.inl hx, le_refl _⟩
  | cons n rest ih =>
    intro g current heap
    by_cases hcond :
        optLt (optAdd1 (g.grid current).distance) ((g.grid n).distance) = true
    · rw [dijkstraRelax_cons_true g current n rest heap hcond]
      set g' := g.setNode n
        { state := (g.grid n).state,
          distance := optAdd1 (g.grid current).distance,
          heuristic := (g.grid n).heuristic,
          prev := some current } with hg'
      obtain ⟨ihs, ihr, ihc, ihm, ihl⟩ :=
        ih g' current (heappush (nodeLt g') heap n)
      refine ⟨?_, ?_, ?_, ?_, ?_⟩
      · intro p
        rw [ihs p]
        by_cases hp : p = n
        · subst hp
          simp [hg', Grid.setNode]
        · simp [hg', Grid.setNode, hp]
      · rw [ihr]
        rfl
      · rw [ihc]
        rfl
      · intro x hx
        rcases ihm x hx with hx' | hx'
        · rcases heappush_mem (nodeLt g') heap n x hx' with h | h
          · exact Or.inl h
          · subst h
            exact Or.inr (by simp)
        · exact Or.inr (by simp [hx'])
      · calc heap.length ≤ (heappush (nodeLt g') heap n).length := by
              rw [heappush_length]
              omega
          _ ≤ _ := ihl
    · have hcond' :
          optLt (optAdd1 (g.grid current).distance) ((g.grid n).distance) = false := by
        cases hbv : optLt (optAdd1 (g.grid current).distance) ((g.grid n).distance)
        · rfl
        · exact absurd hbv hcond
      rw [dijkstraRelax_cons_false g current n rest heap hcond']
      obtain ⟨ihs, ihr, ihc, ihm, ihl⟩ := ih g current heap
      exact ⟨ihs, ihr, ihc, fun x hx => (ihm x hx).imp (fun h => h)
        (fun h => by simp [h]), ihl⟩

/-- `heappop` pops a member and keeps members, dropping one slot. -/
theorem heappop_facts {g : Grid} {heap : List Pos} {current : Pos}
    {rest : List Pos} (hinv : HeapInv (fun p => (g.grid p).distance) heap)
    (hpop : heappop (nodeLt g) heap = some (current, rest)) :
    current ∈ heap ∧ (∀ x ∈ rest, x ∈ heap) ∧ rest.length + 1 = heap.length
      ∧ (∀ x ∈ heap, x ∈ rest ∨ x = current) := by
  have hne : heap ≠ [] := by
    intro he
    subst he
    cases hpop
  obtain ⟨rest₀, hpop₀, _, hlenR, hcntR⟩ :=
    heappop_spec (fun p => (g.grid p).distance) heap hinv hne
  rw [nodeLt_eq_kLt g, hpop₀] at hpop
  injection hpop with hpq
  rw [Prod.mk.injEq] at hpq
  obtain ⟨hcur, hrest⟩ := hpq
  subst hrest
  subst hcur
  refine ⟨hget_mem (List.length_pos.mpr hne), ?_, hlenR, ?_⟩
  · intro x hx
    have h1 : 0 < rest₀.count x := count_pos_iff_mem.mpr hx
    have h2 := hcntR x
    apply count_pos_iff_mem.mp
    by_cases hcx : hget heap 0 = x
    · rw [if_pos hcx] at h2
      omega
    · rw [if_neg hcx] at h2
      omega
  · intro x hx
    have h1 : 0 < heap.count x := count_pos_iff_mem.mpr hx
    have h2 := hcntR x
    by_cases hcx : hget heap 0 = x
    · exact Or.inr hcx.symm
    · rw [if_neg hcx] at h2
      exact Or.inl (count_pos_iff_mem.mp (by omega))

theorem wallEq_of_states {g0 g g' : Grid} (h : WallEq g0 g)
    (hs : ∀ p, (g'.grid p).state = (g.grid p).state)
    (hr : g'.rows = g.rows) (hc : g'.cols = g.cols) : WallEq g0 g' :=
  ⟨hr.trans h.1, hc.trans h.2.1, fun p => by rw [hs p]; exact h.2.2 p⟩

theorem wallEq_mark {g0 g : Grid} {current : Pos} {nd : Node} (h : WallEq g0 g)
    (hnw : (g0.grid current).state ≠ WALL)
    (hnd : nd.state ≠ WALL) : WallEq g0 (g.setNode current nd) := by
  refine ⟨h.1, h.2.1, ?_⟩
  intro p
  by_cases hp : p = current
  · subst hp
    simp only [Grid.setNode, if_pos rfl]
    constructor
    · intro hw
      exact absurd hw hnd
    · intro hw
      exact absurd hw hnw
  · simp only [Grid.setNode, if_neg hp]
    exact h.2.2 p

/-- The run invariant of the no-path (drain) argument for Dijkstra: everything
discovered is reachable from the start, lies on the board (or is the start
itself), is not a wall, and the walls of the evolving grid are those of the
initial grid. -/
structure DrainInvD (g0 g : Grid) (s : Pos) (heap tr : List Pos) : Prop where
  dinv : DInv g heap tr
  weq : WallEq g0 g
  reach : ∀ p, p ∈ heap ∨ p ∈ tr → ReachableG g0 s p
  inb : ∀ p, p ∈ heap ∨ p ∈ tr → p = s ∨ p ∈ boundsFinset g0
  nwall : ∀ p, p ∈ heap ∨ p ∈ tr → (g0.grid p).state ≠ WALL

/-- If the end cell is not in the start's component, the Dijkstra loop drains
its frontier and returns the literal `0` count with the path length it was
handed, given enough fuel. -/
theorem dijkstraLoop_drain :
    ∀ (fuel rfuel : Nat) (g0 g : Grid) (s e : Pos) (heap tr : List Pos)
      (cnt pl : Nat),
      DrainInvD g0 g s heap tr →
      ¬ ReachableG g0 s e →
      2 * (insert s (boundsFinset g0)).card + 1 ≤
        2 * tr.length + heap.length + fuel →
      ∃ g', dijkstraLoop rfuel e fuel g heap cnt pl = some (g', 0, pl) := by
  intro fuel
  induction fuel with
  | zero =>
    intro rfuel g0 g s e heap tr cnt pl hI _ hfuel
    exfalso
    have hdisj : List.Disjoint tr heap := fun a ha hb => hI.dinv.disj a hb ha
    have hnd : (tr ++ heap).Nodup :=
      List.Nodup.append hI.dinv.nodupT hI.dinv.nodupH hdisj
    have hsub : ∀ x ∈ tr ++ heap, x ∈ insert s (boundsFinset g0) := by
      intro x hx
      rw [Finset.mem_insert]
      rcases List.mem_append.mp hx with hx' | hx'
      · exact hI.inb x (Or.inr hx')
      · exact hI.inb x (Or.inl hx')
    have hle := nodup_subset_card hnd hsub
    rw [List.length_append] at hle
    omega
  | succ fuel ih =>
    intro rfuel g0 g s e heap tr cnt pl hI hreach hfuel
    cases hpop : heappop (nodeLt g) heap with
    | none =>
      exact ⟨g, dijkstraLoop_pop_none rfuel fuel cnt pl e hpop⟩
    | some pr =>
      obtain ⟨current, rest⟩ := pr
      obtain ⟨hcmem, hrsub, hrlen, _⟩ := heappop_facts hI.dinv.hinv hpop
      have hcreach : ReachableG g0 s current := hI.reach current (Or.inl hcmem)
      have hce : current ≠ e := fun h => hreach (h ▸ hcreach)
      rw [dijkstraLoop_pop_some rfuel fuel cnt pl e hpop, if_neg hce]
      set g1 := g.setNode current
        { state := PROCESSING, distance := (g.grid current).distance,
          heuristic := (g.grid current).heuristic,
          prev := (g.grid current).prev } with hg1
      set ns := g1.get_neighbors current with hns
      have hcnw : (g0.grid current).state ≠ WALL := hI.nwall current (Or.inl hcmem)
      have hw1 : WallEq g0 g1 := wallEq_mark hI.weq hcnw (by show PROCESSING ≠ WALL; decide)
      have hnseq : ns = g0.get_neighbors current := by
        rw [hns]
        exact get_neighbors_wallEq hw1 current
      have hdist1 : ∀ p, (g1.grid p).distance = (g.grid p).distance := by
        intro p
        by_cases hp : p = current
        · subst hp
          simp [hg1, Grid.setNode]
        · simp [hg1, Grid.setNode, hp]
      have hmid : DInv g rest (tr ++ [current]) := dijkstra_pop_mid hI.dinv hpop
      have hmid1 : DInv g1 rest (tr ++ [current]) := hmid.of_distance_eq hdist1
      have hrelax := dijkstraRelax_light ns g1 current rest (tr ++ [current])
        hmid1 (getLast_append_singleton tr current)
        (fun n hn => mem_get_neighbors_ne hn)
      obtain ⟨haS, haR, haC, haM, haL⟩ := dijkstraRelax_aux ns g1 current rest
      have hT1mem : ∀ p, p ∈ tr ++ [current] → p ∈ tr ∨ p = current := by
        intro p hp
        simpa using hp
      have hnsprops : ∀ n ∈ ns, ReachableG g0 s n ∧
          (n = s ∨ n ∈ boundsFinset g0) ∧ (g0.grid n).state ≠ WALL := by
        intro n hn
        rw [hnseq] at hn
        obtain ⟨hb, hnw⟩ := mem_get_neighbors_props hn
        obtain ⟨m, hwalk⟩ := hcreach
        exact ⟨⟨m + 1, WalkN.tail hwalk hn⟩,
          Or.inr ((mem_boundsFinset g0 n).mpr hb), hnw⟩
      have hI' : DrainInvD g0 (dijkstraRelax g1 current ns rest).1 s
          (dijkstraRelax g1 current ns rest).2 (tr ++ [current]) := by
        refine ⟨hrelax, wallEq_of_states hw1 haS haR haC, ?_, ?_, ?_⟩
        · intro p hp
          rcases hp with hp | hp
          · rcases haM p hp with hp' | hp'
            · exact hI.reach p (Or.inl (hrsub p hp'))
            · exact (hnsprops p hp').1
          · rcases hT1mem p hp with hp' | hp'
            · exact hI.reach p (Or.inr hp')
            · exact hp' ▸ hcreach
        · intro p hp
          rcases hp with hp | hp
          · rcases haM p hp with hp' | hp'
            · exact hI.inb p (Or.inl (hrsub p hp'))
            · exact (hnsprops p hp').2.1
          · rcases hT1mem p hp with hp' | hp'
            · exact hI.inb p (Or.inr hp')
            · exact hp' ▸ hI.inb current (Or.inl hcmem)
        · intro p hp
          rcases hp with hp | hp
          · rcases haM p hp with hp' | hp'
            · exact hI.nwall p (Or.inl (hrsub p hp'))
            · exact (hnsprops p hp').2.2
          · rcases hT1mem p hp with hp' | hp'
            · exact hI.nwall p (Or.inr hp')
            · exact hp' ▸ hcnw
      have hfuel' : 2 * (insert s (boundsFinset g0)).card + 1 ≤
          2 * (tr ++ [current]).length +
            (dijkstraRelax g1 current ns rest).2.length + fuel := by
        have h2 : (tr ++ [current]).length = tr.length + 1 := by simp
        omega
      exact ih rfuel g0 _ s e _ _ (cnt + 1) pl hI' hreach hfuel'

/-- The run invariant of the no-path argument for BFS: the queue is covered by
the duplicate-free seen set, whose members are reachable, on the board (or the
start) and not walls; walls never change. -/
structure DrainInvB (g0 g : Grid) (s : Pos) (queue visited : List Pos) : Prop where
  weq : WallEq g0 g
  qsub : ∀ p ∈ queue, p ∈ visited
  vnodup : visited.Nodup
  reach : ∀ p ∈ visited, ReachableG g0 s p
  inb : ∀ p ∈ visited, p = s ∨ p ∈ boundsFinset g0
  nwall : ∀ p ∈ visited, (g0.grid p).state ≠ WALL

/-- The BFS neighbor loop: it writes only `prev` fields, extends the queue and
the seen set by the same fresh nodes, and preserves the invariant. -/
theorem bfsEnqueue_skip (g : Grid) (current n : Pos)
    (rest queue visited : List Pos) (h : n ∈ visited) :
    bfsEnqueue g current (n :: rest) queue visited =
      bfsEnqueue g current rest queue visited := by
  rw [bfsEnqueue, if_pos h]

theorem bfsEnqueue_push (g : Grid) (current n : Pos)
    (rest queue visited : List Pos) (h : n ∉ visited) :
    bfsEnqueue g current (n :: rest) queue visited =
      bfsEnqueue (g.setNode n
          { state := (g.grid n).state, distance := (g.grid n).distance,
            heuristic := (g.grid n).heuristic, prev := some current })
        current rest (queue ++ [n]) (n :: visited) := by
  rw [bfsEnqueue, if_neg h]

/-- The BFS neighbor loop: it writes only `prev` fields, extends the queue and
the seen set by the same fresh nodes, and preserves the invariant. -/
theorem bfsEnqueue_drain :
    ∀ (ns : List Pos) (g0 g : Grid) (s current : Pos) (queue visited : List Pos),
      DrainInvB g0 g s queue visited →
      (∀ n ∈ ns, ReachableG g0 s n ∧ (n = s ∨ n ∈ boundsFinset g0) ∧
        (g0.grid n).state ≠ WALL) →
      DrainInvB g0 (bfsEnqueue g current ns queue visited).1 s
          (bfsEnqueue g current ns queue visited).2.1
          (bfsEnqueue g current ns queue visited).2.2
        ∧ (bfsEnqueue g current ns queue visited).2.2.length + queue.length =
            (bfsEnqueue g current ns queue visited).2.1.length + visited.length
        ∧ visited.length ≤ (bfsEnqueue g current ns queue visited).2.2.length := by
  intro ns
  induction ns with
  | nil =>
    intro g0 g s current queue visited hI _
    exact ⟨hI, Nat.add_comm _ _, le_refl _⟩
  | cons n rest ih =>
    intro g0 g s current queue visited hI hns
    by_cases hv : n ∈ visited
    · rw [bfsEnqueue_skip g current n rest queue visited hv]
      exact ih g0 g s current queue visited hI
        (fun m hm => hns m (by simp [hm]))
    · rw [bfsEnqueue_push g current n rest queue visited hv]
      have hn := hns n (by simp)
      have hI' : DrainInvB g0
          (g.setNode n
            { state := (g.grid n).state, distance := (g.grid n).distance,
              heuristic := (g.grid n).heuristic, prev := some current }) s
          (queue ++ [n]) (n :: visited) := by
        refine ⟨?_, ?_, ?_, ?_, ?_, ?_⟩
        · refine wallEq_of_states hI.weq ?_ rfl rfl
          intro p
          by_cases hp : p = n
          · subst hp
            simp [Grid.setNode]
          · simp [Grid.setNode, hp]
        · intro p hp
          rcases List.mem_append.mp hp with hp' | hp'
          · exact List.mem_cons_of_mem n (hI.qsub p hp')
          · rw [List.mem_singleton] at hp'
            exact hp' ▸ List.mem_cons_self n visited
        · exact List.nodup_cons.mpr ⟨hv, hI.vnodup⟩
        · intro p hp
          rcases List.mem_cons.mp hp with hp' | hp'
          · exact hp' ▸ hn.1
          · exact hI.reach p hp'
        · intro p hp
          rcases List.mem_cons.mp hp with hp' | hp'
          · exact hp' ▸ hn.2.1
          · exact hI.inb p hp'
        · intro p hp
          rcases List.mem_cons.mp hp with hp' | hp'
          · exact hp' ▸ hn.2.2
          · exact hI.nwall p hp'
      obtain ⟨ih1, ih2, ih3⟩ := ih g0 _ s current (queue ++ [n]) (n :: visited)
        hI' (fun m hm => hns m (by simp [hm]))
      refine ⟨ih1, ?_, ?_⟩
      · have h2 : (queue ++ [n]).length = queue.length + 1 := by simp
        have h3 : (n :: visited).length = visited.length + 1 := by simp
        rw [h2, h3] at ih2
        omega
      · have h3 : (n :: visited).length = visited.length + 1 := by simp
        rw [h3] at ih3
        omega

theorem bfsLoop_cons (rfuel fuel cnt pl : Nat) (e : Pos) (g : Grid)
    (current : Pos) (rest visited : List Pos) :
    bfsLoop rfuel e (fuel + 1) g (current :: rest) visited cnt pl =
      (if current = e then
        match reconstruct_path rfuel g current 0 with
        | none => none
        | some (g', plen) => some (g', cnt, plen)
      else
        bfsLoop rfuel e fuel
          (bfsEnqueue (g.setNode current
              { state := PROCESSING, distance := (g.grid current).distance,
                heuristic := (g.grid current).heuristic,
                prev := (g.grid current).prev })
            current
            ((g.setNode current
              { state := PROCESSING, distance := (g.grid current).distance,
                heuristic := (g.grid current).heuristic,
                prev := (g.grid current).prev }).get_neighbors current)
            rest visited).1
          (bfsEnqueue (g.setNode current
              { state := PROCESSING, distance := (g.grid current).distance,
                heuristic := (g.grid current).heuristic,
                prev := (g.grid current).prev })
            current
            ((g.setNode current
              { state := PROCESSING, distance := (g.grid current).distance,
                heuristic := (g.grid current).heuristic,
                prev := (g.grid current).prev }).get_neighbors current)
            rest visited).2.1
          (bfsEnqueue (g.setNode current
              { state := PROCESSING, distance := (g.grid current).distance,
                heuristic := (g.grid current).heuristic,
                prev := (g.grid current).prev })
            current
            ((g.setNode current
              { state := PROCESSING, distance := (g.grid current).distance,
                heuristic := (g.grid current).heuristic,
                prev := (g.grid current).prev }).get_neighbors current)
            rest visited).2.2
          (cnt + 1) pl) := rfl

/-- If the end cell is not in the start's component, the BFS loop drains its
queue and returns the literal `0` count, given enough fuel. -/
theorem bfsLoop_drain :
    ∀ (fuel rfuel : Nat) (g0 g : Grid) (s e : Pos) (queue visited : List Pos)
      (cnt pl : Nat),
      DrainInvB g0 g s queue visited →
      ¬ ReachableG g0 s e →
      2 * (insert s (boundsFinset g0)).card + queue.length + 1 ≤
        2 * visited.length + fuel →
      ∃ g', bfsLoop rfuel e fuel g queue visited cnt pl = some (g', 0, pl) := by
  intro fuel
  induction fuel with
  | zero =>
    intro rfuel g0 g s e queue visited cnt pl hI _ hfuel
    exfalso
    have hle := nodup_subset_card hI.vnodup (fun x hx => by
      rw [Finset.mem_insert]
      exact hI.inb x hx)
    omega
  | succ fuel ih =>
    intro rfuel g0 g s e queue visited cnt pl hI hreach hfuel
    cases queue with
    | nil => exact ⟨g, rfl⟩
    | cons current rest =>
      have hcv : current ∈ visited := hI.qsub current (by simp)
      have hcreach : ReachableG g0 s current := hI.reach current hcv
      have hce : current ≠ e := fun h => hreach (h ▸ hcreach)
      rw [bfsLoop_cons, if_neg hce]
      set g1 := g.setNode current
        { state := PROCESSING, distance := (g.grid current).distance,
          heuristic := (g.grid current).heuristic,
          prev := (g.grid current).prev } with hg1
      set ns := g1.get_neighbors current with hns
      have hcnw : (g0.grid current).state ≠ WALL := hI.nwall current hcv
      have hw1 : WallEq g0 g1 :=
        wallEq_mark hI.weq hcnw (by show PROCESSING ≠ WALL; decide)
      have hnseq : ns = g0.get_neighbors current := by
        rw [hns]
        exact get_neighbors_wallEq hw1 current
      have hI1 : DrainInvB g0 g1 s rest visited :=
        ⟨hw1, fun p hp => hI.qsub p (by simp [hp]), hI.vnodup, hI.reach,
          hI.inb, hI.nwall⟩
      have hnsprops : ∀ n ∈ ns, ReachableG g0 s n ∧
          (n = s ∨ n ∈ boundsFinset g0) ∧ (g0.grid n).state ≠ WALL := by
        intro n hn
        rw [hnseq] at hn
        obtain ⟨hb, hnw⟩ := mem_get_neighbors_props hn
        obtain ⟨m, hwalk⟩ := hcreach
        exact ⟨⟨m + 1, WalkN.tail hwalk hn⟩,
          Or.inr ((mem_boundsFinset g0 n).mpr hb), hnw⟩
      obtain ⟨hI', hlen, hmono⟩ :=
        bfsEnqueue_drain ns g0 g1 s current rest visited hI1 hnsprops
      apply ih rfuel g0 _ s e _ _ (cnt + 1) pl hI' hreach
      simp only [List.length_cons] at hfuel
      omega

/-- A discovered cell: reachable from the start, on the board (or the start
itself), and not a wall. -/
def NodeOK (g0 : Grid) (s p : Pos) : Prop :=
  ReachableG g0 s p ∧ (p = s ∨ p ∈ boundsFinset g0) ∧ (g0.grid p).state ≠ WALL

theorem dfsPush_skip (g : Grid) (current : Pos) (visited : List Pos)
    (n : Pos) (rest stack : List Pos) (h : n ∈ visited) :
    dfsPush g current visited (n :: rest) stack =
      dfsPush g current visited rest stack := by
  rw [dfsPush, if_pos h]

theorem dfsPush_next (g : Grid) (current : Pos) (visited : List Pos)
    (n : Pos) (rest stack : List Pos) (h : n ∉ visited) :
    dfsPush g current visited (n :: rest) stack =
      dfsPush (g.setNode n
          { state := (g.grid n).state, distance := (g.grid n).distance,
            heuristic := (g.grid n).heuristic, prev := some current })
        current visited rest (stack ++ [n]) := by
  rw [dfsPush, if_neg h]

/-- The DFS neighbor loop writes only `prev` fields, pushes only listed
neighbors, and pushes at most one entry per listed neighbor. -/
theorem dfsPush_drain :
    ∀ (ns : List Pos) (g0 g : Grid) (s current : Pos) (visited stack : List Pos),
      WallEq g0 g →
      (∀ p ∈ stack, NodeOK g0 s p) →
      (∀ n ∈ ns, NodeOK g0 s n) →
      WallEq g0 (dfsPush g current visited ns stack).1
      ∧ (∀ p ∈ (dfsPush g current visited ns stack).2, NodeOK g0 s p)
      ∧ (dfsPush g current visited ns stack).2.length ≤
          stack.length + ns.length := by
  intro ns
  induction ns with
  | nil =>
    intro g0 g s current visited stack hw hst _
    exact ⟨hw, hst, by simp [dfsPush]⟩
  | cons n rest ih =>
    intro g0 g s current visited stack hw hst hns
    by_cases hv : n ∈ visited
    · rw [dfsPush_skip g current visited n rest stack hv]
      obtain ⟨h1, h2, h3⟩ := ih g0 g s current visited stack hw hst
        (fun m hm => hns m (by simp [hm]))
      exact ⟨h1, h2, by rw [List.length_cons]; omega⟩
    · rw [dfsPush_next g current visited n rest stack hv]
      have hw' : WallEq g0 (g.setNode n
          { state := (g.grid n).state, distance := (g.grid n).distance,
            heuristic := (g.grid n).heuristic, prev := some current }) := by
        refine wallEq_of_states hw ?_ rfl rfl
        intro p
        by_cases hp : p = n
        · subst hp
          simp [Grid.setNode]
        · simp [Grid.setNode, hp]
      have hst' : ∀ p ∈ stack ++ [n], NodeOK g0 s p := by
        intro p hp
        rcases List.mem_append.mp hp with hp' | hp'
        · exact hst p hp'
        · rw [List.mem_singleton] at hp'
          exact hp' ▸ hns n (by simp)
      obtain ⟨h1, h2, h3⟩ := ih g0 _ s current visited (stack ++ [n]) hw' hst'
        (fun m hm => hns m (by simp [hm]))
      refine ⟨h1, h2, ?_⟩
      have h4 : (stack ++ [n]).length = stack.length + 1 := by simp
      rw [h4] at h3
      rw [List.length_cons]
      omega

theorem dfsLoop_pop_none {stack : List Pos} (rfuel fuel cnt pl : Nat)
    (e : Pos) (g : Grid) (visited : List Pos)
    (h : stack.getLast? = none) :
    dfsLoop rfuel e (fuel + 1) g stack visited cnt pl = some (g, 0, pl) := by
  rw [dfsLoop, h]

theorem dfsLoop_pop_some {stack : List Pos} {current : Pos}
    (rfuel fuel cnt pl : Nat) (e : Pos) (g : Grid) (visited : List Pos)
    (h : stack.getLast? = some current) :
    dfsLoop rfuel e (fuel + 1) g stack visited cnt pl =
      (if current = e then
        match reconstruct_path rfuel g current 0 with
        | none => none
        | some (g', plen) => some (g', cnt, plen)
      else if current ∈ visited then
        dfsLoop rfuel e fuel g stack.dropLast visited cnt pl
      else
        dfsLoop rfuel e fuel
          (dfsPush (g.setNode current
              { state := PROCESSING, distance := (g.grid current).distance,
                heuristic := (g.grid current).heuristic,
                prev := (g.grid current).prev })
            current (current :: visited)
            ((g.setNode current
              { state := PROCESSING, distance := (g.grid current).distance,
                heuristic := (g.grid current).heuristic,
                prev := (g.grid current).prev }).get_neighbors current)
            stack.dropLast).1
          (dfsPush (g.setNode current
              { state := PROCESSING, distance := (g.grid current).distance,
                heuristic := (g.grid current).heuristic,
                prev := (g.grid current).prev })
            current (current :: visited)
            ((g.setNode current
              { state := PROCESSING, distance := (g.grid current).distance,
                heuristic := (g.grid current).heuristic,
                prev := (g.grid current).prev }).get_neighbors current)
            stack.dropLast).2
          (current :: visited) (cnt + 1) pl) := by
  rw [dfsLoop, h]

/-- The run invariant of the no-path argument for DFS. -/
structure DrainInvF (g0 g : Grid) (s : Pos) (stack visited : List Pos) : Prop where
  weq : WallEq g0 g
  vnodup : visited.Nodup
  vok : ∀ p ∈ visited, NodeOK g0 s p
  sok : ∀ p ∈ stack, NodeOK g0 s p

/-- If the end cell is not in the start's component, the DFS loop drains its
stack and returns the literal `0` count, given enough fuel. -/
theorem dfsLoop_drain :
    ∀ (fuel rfuel : Nat) (g0 g : Grid) (s e : Pos) (stack visited : List Pos)
      (cnt pl : Nat),
      DrainInvF g0 g s stack visited →
      ¬ ReachableG g0 s e →
      stack.length + 5 * (insert s (boundsFinset g0)).card + 1 ≤
        5 * visited.length + fuel →
      ∃ g', dfsLoop rfuel e fuel g stack visited cnt pl = some (g', 0, pl) := by
  intro fuel
  induction fuel with
  | zero =>
    intro rfuel g0 g s e stack visited cnt pl hI _ hfuel
    exfalso
    have hle := nodup_subset_card hI.vnodup (fun x hx => by
      rw [Finset.mem_insert]
      exact (hI.vok x hx).2.1)
    omega
  | succ fuel ih =>
    intro rfuel g0 g s e stack visited cnt pl hI hreach hfuel
    cases hpop : stack.getLast? with
    | none =>
      exact ⟨g, dfsLoop_pop_none rfuel fuel cnt pl e g visited hpop⟩
    | some current =>
      have hne : stack ≠ [] := by
        intro h
        rw [h] at hpop
        cases hpop
      have hcmem : current ∈ stack := mem_of_getLast hpop
      have hcok : NodeOK g0 s current := hI.sok current hcmem
      have hce : current ≠ e := fun h => hreach (h ▸ hcok.1)
      rw [dfsLoop_pop_some rfuel fuel cnt pl e g visited hpop, if_neg hce]
      have hdlen : stack.dropLast.length + 1 = stack.length := by
        rw [List.length_dropLast]
        have := List.length_pos.mpr hne
        omega
      have hdsub : ∀ p ∈ stack.dropLast, p ∈ stack :=
        fun p hp => (List.dropLast_sublist _).subset hp
      by_cases hcv : current ∈ visited
      · rw [if_pos hcv]
        apply ih rfuel g0 g s e stack.dropLast visited cnt pl
          ⟨hI.weq, hI.vnodup, hI.vok, fun p hp => hI.sok p (hdsub p hp)⟩ hreach
        omega
      · rw [if_neg hcv]
        set g1 := g.setNode current
          { state := PROCESSING, distance := (g.grid current).distance,
            heuristic := (g.grid current).heuristic,
            prev := (g.grid current).prev } with hg1
        set ns := g1.get_neighbors current with hns
        have hw1 : WallEq g0 g1 :=
          wallEq_mark hI.weq hcok.2.2 (by show PROCESSING ≠ WALL; decide)
        have hnseq : ns = g0.get_neighbors current := by
          rw [hns]
          exact get_neighbors_wallEq hw1 current
        have hnsok : ∀ n ∈ ns, NodeOK g0 s n := by
          intro n hn
          rw [hnseq] at hn
          obtain ⟨hb, hnw⟩ := mem_get_neighbors_props hn
          obtain ⟨m, hwalk⟩ := hcok.1
          exact ⟨⟨m + 1, WalkN.tail hwalk hn⟩,
            Or.inr ((mem_boundsFinset g0 n).mpr hb), hnw⟩
        obtain ⟨hw', hsok', hlen'⟩ := dfsPush_drain ns g0 g1 s current
          (current :: visited) stack.dropLast hw1
          (fun p hp => hI.sok p (hdsub p hp)) hnsok
        have hns4 : ns.length ≤ 4 := by
          rw [hns]
          exact get_neighbors_length_le g1 current
        apply ih rfuel g0 _ s e _ (current :: visited) (cnt + 1) pl
          ⟨hw', List.nodup_cons.mpr ⟨hcv, hI.vnodup⟩,
            fun p hp => by
              rcases List.mem_cons.mp hp with hp' | hp'
              · exact hp' ▸ hcok
              · exact hI.vok p hp',
            hsok'⟩ hreach
        have hvl : (current :: visited).length = visited.length + 1 := by simp
        rw [hvl]
        omega

/-- The start's connected component in the walled 3x3 grid. -/
def comp3 : List Pos := [(0, 0), (0, 1), (0, 2)]

theorem cgWall3_closed :
    ∀ q ∈ comp3, ∀ r ∈ cgWall3.get_neighbors q, r ∈ comp3 := by decide

theorem cgWall3_reach_subset :
    ∀ p, ReachableG cgWall3 (0, 0) p → p ∈ comp3 := by
  intro p ⟨n, w⟩
  induction w with
  | refl => simp [comp3]
  | tail _ hmem ih => exact cgWall3_closed _ ih _ hmem

theorem cgWall3_unreachable : ¬ ReachableG cgWall3 (0, 0) (2, 2) := by
  intro h
  have h2 := cgWall3_reach_subset _ h
  simp [comp3] at h2

/-- If the end is unreachable, all four searches drain and report the literal
`0` count, with the previous path length untouched. -/
theorem c3_no_path_returns_zero (fuel rfuel : Nat) (g : Grid) (pl : Nat)
    (s e : Pos) (hs : g.startPos = some s) (he : g.endPos = some e)
    (hsnw : (g.grid s).state ≠ WALL)
    (hnr : ¬ ReachableG g s e)
    (hfuel : 5 * (insert s (boundsFinset g)).card + 5 ≤ fuel) :
    (∃ g1, dijkstra fuel rfuel g pl = some (g1, 0, pl))
    ∧ (∃ g2, a_star fuel rfuel g pl = some (g2, 0, pl))
    ∧ (∃ g3, bfs fuel rfuel g pl = some (g3, 0, pl))
    ∧ (∃ g4, dfs fuel rfuel g pl = some (g4, 0, pl)) := by
  have hreach0 : ReachableG g s s := ⟨0, WalkN.refl s⟩
  have hD : ∃ g1, dijkstra fuel rfuel g pl = some (g1, 0, pl) := by
    have hstates : ∀ p,
        (((g.setNode s { g.grid s with distance := some 0 }).grid p)).state =
          (g.grid p).state := by
      intro p
      by_cases hp : p = s
      · subst hp
        simp [Grid.setNode]
      · simp [Grid.setNode, hp]
    have hinv : DrainInvD g (g.setNode s { g.grid s with distance := some 0 })
        s [s] [] := by
      refine ⟨dijkstra_entry_inv g s, wallEq_of_states (wallEq_refl g) hstates rfl rfl,
        ?_, ?_, ?_⟩
      · intro p hp
        rcases hp with hp | hp
        · rw [List.mem_singleton] at hp
          exact hp ▸ hreach0
        · cases hp
      · intro p hp
        rcases hp with hp | hp
        · rw [List.mem_singleton] at hp
          exact Or.inl hp
        · cases hp
      · intro p hp
        rcases hp with hp | hp
        · rw [List.mem_singleton] at hp
          exact hp ▸ hsnw
        · cases hp
    obtain ⟨g1, h1⟩ := dijkstraLoop_drain fuel rfuel g _ s e [s] [] 0 pl hinv hnr
      (by simp only [List.length_nil, List.length_singleton]; omega)
    refine ⟨g1, ?_⟩
    rw [dijkstra, hs, he]
    exact h1
  refine ⟨hD, ?_, ?_, ?_⟩
  · obtain ⟨g1, h1⟩ := hD
    have key : (a_star fuel rfuel g pl).map (fun r => (eraseH r.1, r.2)) =
        (dijkstra fuel rfuel g pl).map (fun r => (eraseH r.1, r.2)) := by
      rw [a_star, dijkstra]
      cases hs2 : g.startPos with
      | none => rfl
      | some s2 =>
        cases he2 : g.endPos with
        | none => rfl
        | some e2 => exact loop_eraseH fuel rfuel e2 rfl _ 0 pl
    rw [h1] at key
    obtain ⟨r, hr, hproj⟩ := Option.map_eq_some'.mp key
    rw [Prod.mk.injEq] at hproj
    have hrr : r = (r.1, (0, pl)) := Prod.ext_iff.mpr ⟨rfl, hproj.2⟩
    exact ⟨r.1, by rw [hr, hrr]⟩
  · have hinv : DrainInvB g g s [s] [s] := by
      refine ⟨wallEq_refl g, fun p hp => hp, List.nodup_singleton s, ?_, ?_, ?_⟩
      · intro p hp
        rw [List.mem_singleton] at hp
        exact hp ▸ hreach0
      · intro p hp
        rw [List.mem_singleton] at hp
        exact Or.inl hp
      · intro p hp
        rw [List.mem_singleton] at hp
        exact hp ▸ hsnw
    obtain ⟨g3, h3⟩ := bfsLoop_drain fuel rfuel g g s e [s] [s] 0 pl hinv hnr
      (by simp only [List.length_singleton]; omega)
    refine ⟨g3, ?_⟩
    rw [bfs, hs, he]
    exact h3
  · have hinv : DrainInvF g g s [s] [] := by
      refine ⟨wallEq_refl g, List.nodup_nil, ?_, ?_⟩
      · intro p hp
        cases hp
      · intro p hp
        rw [List.mem_singleton] at hp
        subst hp
        exact ⟨hreach0, Or.inl rfl, hsnw⟩
    obtain ⟨g4, h4⟩ := dfsLoop_drain fuel rfuel g g s e [s] [] 0 pl hinv hnr
      (by simp only [List.length_nil, List.length_singleton]; omega)
    refine ⟨g4, ?_⟩
    rw [dfs, hs, he]
    exact h4

/-- C3 counterexample: in the walled 3x3 grid the start's component has three
cells, yet every algorithm reports the count `0` (the literal of `return 0`),
not the component size, when the end is unreachable. -/
theorem c3_counterexample :
    (∀ p, ReachableG cgWall3 (0, 0) p ↔ p ∈ comp3)
    ∧ comp3.length = 3
    ∧ (bfs 100 100 cgWall3 0).map (fun r => r.2) = some (0, 0)
    ∧ (dijkstra 100 100 cgWall3 0).map (fun r => r.2) = some (0, 0)
    ∧ (a_star 100 100 cgWall3 0).map (fun r => r.2) = some (0, 0)
    ∧ (dfs 100 100 cgWall3 0).map (fun r => r.2) = some (0, 0) := by
  refine ⟨?_, rfl, rfl, rfl, rfl, rfl⟩
  intro p
  constructor
  · exact cgWall3_reach_subset p
  · intro hp
    simp only [comp3, List.mem_cons, List.not_mem_nil, or_false] at hp
    rcases hp with rfl | rfl | rfl
    · exact ⟨0, WalkN.refl _⟩
    · exact ⟨1, WalkN.tail (WalkN.refl (0, 0)) (by decide)⟩
    · have w1 : WalkN cgWall3 (0, 0) (0, 1) 1 :=
        WalkN.tail (WalkN.refl (0, 0)) (by decide)
      exact ⟨2, WalkN.tail w1 (by decide)⟩

theorem c3_witness :
    (∃ g1, dijkstra 100 100 cgWall3 0 = some (g1, 0, 0))
    ∧ (∃ g2, a_star 100 100 cgWall3 0 = some (g2, 0, 0))
    ∧ (∃ g3, bfs 100 100 cgWall3 0 = some (g3, 0, 0))
    ∧ (∃ g4, dfs 100 100 cgWall3 0 = some (g4, 0, 0)) :=
  c3_no_path_returns_zero 100 100 cgWall3 0 (0, 0) (2, 2) rfl rfl
    (by decide) cgWall3_unreachable (by decide)

/-! ## C1: shortest-path machinery -/

/-- `n` is the true shortest edge-count distance from `s` to `p`. -/
def IsDistN (g : Grid) (s p : Pos) (n : Nat) : Prop :=
  WalkN g s p n ∧ ∀ m, WalkN g s p m → n ≤ m

theorem isDistN_unique {g : Grid} {s p : Pos} {n m : Nat}
    (h1 : IsDistN g s p n) (h2 : IsDistN g s p m) : n = m :=
  le_antisymm (h1.2 m h2.1) (h2.2 n h1.1)

theorem exists_isDistN {g : Grid} {s p : Pos} (h : ReachableG g s p) :
    ∃ n, IsDistN g s p n := by
  obtain ⟨a, ha, hmin⟩ := Nat.lt_wfRel.wf.has_min { n | WalkN g s p n } h
  exact ⟨a, ha, fun m hm => Nat.le_of_not_lt (fun hlt => hmin m hm hlt)⟩

theorem walkN_zero {g : Grid} {s p : Pos} (h : WalkN g s p 0) : p = s := by
  cases h
  rfl

theorem walkN_succ {g : Grid} {s p : Pos} {n : Nat} (h : WalkN g s p (n + 1)) :
    ∃ q, WalkN g s q n ∧ p ∈ g.get_neighbors q := by
  cases h with
  | tail w hmem => exact ⟨_, w, hmem⟩

/-- The core run invariant of the Dijkstra shortest-path proof: on top of the
frontier structure (`DInv`) and the discovery facts of the drain argument, the
distance label of every discovered node is the true shortest distance, every
undiscovered node is unlabeled, every counted node is classified Visited, the
end keeps its classification, and every discovered node carries a
predecessor chain of counted nodes whose length matches its label. -/
structure ExCore (g0 g : Grid) (s e : Pos) (heap tr : List Pos) : Prop where
  base : DInv g heap tr
  weq : WallEq g0 g
  reach : ∀ p, p ∈ heap ∨ p ∈ tr → ReachableG g0 s p
  inb : ∀ p, p ∈ heap ∨ p ∈ tr → p = s ∨ p ∈ boundsFinset g0
  nwall : ∀ p, p ∈ heap ∨ p ∈ tr → (g0.grid p).state ≠ WALL
  sdisc : s ∈ heap ∨ s ∈ tr
  endnot : e ∉ tr
  ste : (g.grid e).state = END
  sttr : ∀ p ∈ tr, (g.grid p).state = PROCESSING
  dexact : ∀ p, p ∈ heap ∨ p ∈ tr → IsDistN g0 s p (dval g p)
  dfresh : ∀ p, p ∉ heap → p ∉ tr → (g.grid p).distance = none
  dchain : ∀ p, p ∈ heap ∨ p ∈ tr →
    ∃ ch, PrevChain g p ch ∧ ch.length = dval g p + 1 ∧
      ∀ x ∈ ch, x = p ∨ x ∈ tr

/-- The full invariant between loop iterations: additionally, every neighbor
of a counted node has been discovered. -/
structure ExInv (g0 g : Grid) (s e : Pos) (heap tr : List Pos) : Prop where
  core : ExCore g0 g s e heap tr
  dclosed : ∀ p ∈ tr, ∀ q ∈ g0.get_neighbors p, q ∈ heap ∨ q ∈ tr

/-- Mid-relaxation completeness: any cell strictly closer than the node being
expanded has already been counted. -/
theorem discovered_below {g0 g : Grid} {s e current : Pos}
    {heap tr1 : List Pos} {L : Nat}
    (hc : ExCore g0 g s e heap tr1)
    (hlast : tr1.getLast? = some current)
    (hcl : ∀ p ∈ tr1, p ≠ current → ∀ q ∈ g0.get_neighbors p,
      q ∈ heap ∨ q ∈ tr1)
    (hcur : IsDistN g0 s current L)
    (hdv : dval g current = L) :
    ∀ m, m < L → ∀ p, WalkN g0 s p m → p ∈ tr1 := by
  intro m
  induction m using Nat.strong_induction_on with
  | _ m ih =>
    intro hmL p hw
    have hnotheap : p ∉ heap := by
      intro hp
      have h1 := hc.base.hlow p hp current hlast
      rw [hdv] at h1
      have h2 := hc.dexact p (Or.inl hp)
      have h3 := h2.2 m hw
      omega
    cases m with
    | zero =>
      have hps : p = s := walkN_zero hw
      subst hps
      rcases hc.sdisc with h | h
      · exact absurd h hnotheap
      · exact h
    | succ m' =>
      obtain ⟨q, hwq, hstep⟩ := walkN_succ hw
      have hq : q ∈ tr1 := ih m' (by omega) (by omega) q hwq
      by_cases hqc : q = current
      · subst hqc
        have := hcur.2 m' hwq
        omega
      · rcases hcl q hq hqc p hstep with h | h
        · exact absurd h hnotheap
        · exact h

theorem dval_congr {g g' : Grid} {p : Pos}
    (h : (g'.grid p).distance = (g.grid p).distance) : dval g' p = dval g p := by
  rw [dval, dval, h]

/-- The relaxation loop preserves the shortest-path invariant: only fresh
nodes are labeled, each with the exact distance (one more than the expanded
node's), a predecessor chain through counted nodes, and discovery of the
expanded node's neighbors. -/
theorem dijkstraRelax_exact :
    ∀ (ns : List Pos) (g0 g : Grid) (s e current : Pos)
      (heap tr1 : List Pos) (L : Nat),
      ExCore g0 g s e heap tr1 →
      tr1.getLast? = some current →
      (∀ p ∈ tr1, p ≠ current → ∀ q ∈ g0.get_neighbors p,
        q ∈ heap ∨ q ∈ tr1) →
      (∀ q ∈ g0.get_neighbors current, q ∈ ns ∨ q ∈ heap ∨ q ∈ tr1) →
      (∀ n ∈ ns, n ∈ g0.get_neighbors current) →
      IsDistN g0 s current L →
      (g.grid current).distance = some L →
      ExCore g0 (dijkstraRelax g current ns heap).1 s e
          (dijkstraRelax g current ns heap).2 tr1
        ∧ (∀ p ∈ tr1, p ≠ current → ∀ q ∈ g0.get_neighbors p,
            q ∈ (dijkstraRelax g current ns heap).2 ∨ q ∈ tr1)
        ∧ (∀ q ∈ g0.get_neighbors current,
            q ∈ (dijkstraRelax g current ns heap).2 ∨ q ∈ tr1) := by
  intro ns
  induction ns with
  | nil =>
    intro g0 g s e current heap tr1 L hI hlast hcl hcns _ _ _
    refine ⟨hI, hcl, ?_⟩
    intro q hq
    rcases hcns q hq with h | h | h
    · cases h
    · exact Or.inl h
    · exact Or.inr h
  | cons n rest ihs =>
    intro g0 g s e current heap tr1 L hI hlast hcl hcns hmem hcur hdL
    have hcurtr : current ∈ tr1 := mem_of_getLast hlast
    have hnn : n ∈ g0.get_neighbors current := hmem n (by simp)
    have hncur : n ≠ current := mem_get_neighbors_ne hnn
    have hdvc : dval g current = L := by rw [dval, hdL]; rfl
    by_cases hcond :
        optLt (optAdd1 (g.grid current).distance) ((g.grid n).distance) = true
    · rw [dijkstraRelax_cons_true g current n rest heap hcond]
      -- n is fresh
      have hnheap : n ∉ heap := by
        intro hmem'
        obtain ⟨kn, hkn⟩ := hI.base.hfinH n hmem'
        rw [hdL, hkn] at hcond
        have h1 : L + 1 < kn := by simpa [optAdd1, optLt] using hcond
        have h2 := hI.base.hhigh n hmem' current hlast
        rw [hdvc, dval, hkn] at h2
        simp at h2
        omega
      have hntr : n ∉ tr1 := by
        intro hmem'
        obtain ⟨kn, hkn⟩ := hI.base.hfinT n hmem'
        rw [hdL, hkn] at hcond
        have h1 : L + 1 < kn := by simpa [optAdd1, optLt] using hcond
        have h2 := hI.base.hpople n hmem' current hlast
        rw [hdvc, dval, hkn] at h2
        simp at h2
        omega
      -- the fresh node's label is exact
      have hdist_n : IsDistN g0 s n (L + 1) := by
        refine ⟨WalkN.tail hcur.1 hnn, ?_⟩
        intro m hw
        by_contra hlt
        push_neg at hlt
        cases m with
        | zero =>
          have hns' : n = s := walkN_zero hw
          subst hns'
          rcases hI.sdisc with h | h
          · exact hnheap h
          · exact hntr h
        | succ m' =>
          obtain ⟨q, hwq, hstep⟩ := walkN_succ hw
          have hm'L : m' < L := by omega
          have hq : q ∈ tr1 :=
            discovered_below hI hlast hcl hcur hdvc m' hm'L q hwq
          by_cases hqc : q = current
          · subst hqc
            have := hcur.2 m' hwq
            omega
          · rcases hcl q hq hqc n hstep with h | h
            · exact hnheap h
            · exact hntr h
      set g' := g.setNode n
        { state := (g.grid n).state,
          distance := optAdd1 (g.grid current).distance,
          heuristic := (g.grid n).heuristic,
          prev := some current } with hg'
      have hdpres : ∀ p, p ≠ n → (g'.grid p).distance = (g.grid p).distance := by
        intro p hp
        simp [hg', Grid.setNode, hp]
      have hppres : ∀ p, p ≠ n → (g'.grid p).prev = (g.grid p).prev := by
        intro p hp
        simp [hg', Grid.setNode, hp]
      have hstates : ∀ p, (g'.grid p).state = (g.grid p).state := by
        intro p
        by_cases hp : p = n
        · subst hp
          simp [hg', Grid.setNode]
        · simp [hg', Grid.setNode, hp]
      have hdn : (g'.grid n).distance = some (L + 1) := by
        simp [hg', Grid.setNode, hdL, optAdd1]
      have hpn : (g'.grid n).prev = some current := by
        simp [hg', Grid.setNode]
      have hdvn : dval g' n = L + 1 := by rw [dval, hdn]; rfl
      have hinv' : HeapInv (fun p => (g'.grid p).distance) heap := by
        apply heapInv_congr hI.base.hinv
        intro x hx
        exact hdpres x (fun he' => hnheap (he' ▸ hx))
      obtain ⟨hH, hL2, hC⟩ :=
        heappush_spec (fun p => (g'.grid p).distance) heap n hinv'
      rw [nodeLt_eq_kLt g']
      have hmemP : ∀ x, x ∈ heappush (kLt fun p => (g'.grid p).distance) heap n ↔
          x ∈ heap ∨ x = n := by
        intro x
        rw [← count_pos_iff_mem, hC x, ← count_pos_iff_mem]
        by_cases hx : n = x
        · subst hx
          simp
        · have hx' : x ≠ n := fun he' => hx he'.symm
          rw [if_neg hx]
          simp [hx']
      have hndP : (heappush (kLt fun p => (g'.grid p).distance) heap n).Nodup := by
        rw [nodup_iff_count]
        intro a
        rw [hC a]
        by_cases ha : n = a
        · subst ha
          have h0 : heap.count n = 0 := by
            by_contra hcnt
            exact hnheap (count_pos_iff_mem.mp (by omega))
          simp [h0]
        · have h1 := nodup_iff_count.mp hI.base.nodupH a
          rw [if_neg ha]
          omega
      have hcur' : (g'.grid current).distance = some L := by
        rw [hdpres current (fun he' => hncur he'.symm), hdL]
      have hdvc' : dval g' current = L := by rw [dval, hcur']; rfl
      have htrne : tr1 ≠ [] := by
        intro he'
        rw [he'] at hlast
        cases hlast
      have hbase' : DInv g'
          (heappush (kLt fun p => (g'.grid p).distance) heap n) tr1 := by
        refine ⟨hH, ?_, ?_, hndP, hI.base.nodupT, ?_, ?_, ?_, ?_, ?_⟩
        · intro p hp
          rcases (hmemP p).mp hp with hp' | rfl
          · obtain ⟨kp, hkp⟩ := hI.base.hfinH p hp'
            exact ⟨kp, by rw [hdpres p (fun he' => hnheap (he' ▸ hp')), hkp]⟩
          · exact ⟨L + 1, hdn⟩
        · intro p hp
          obtain ⟨kp, hkp⟩ := hI.base.hfinT p hp
          exact ⟨kp, by rw [hdpres p (fun he' => hntr (he' ▸ hp)), hkp]⟩
        · intro p hp
          rcases (hmemP p).mp hp with hp' | rfl
          · exact hI.base.disj p hp'
          · exact hntr
        · intro p hp q hq
          rw [hlast] at hq
          injection hq with hq
          subst hq
          rw [hdvc']
          rcases (hmemP p).mp hp with hp' | rfl
          · have h3 := hI.base.hlow p hp' current hlast
            rw [hdvc] at h3
            rw [dval, hdpres p (fun he' => hnheap (he' ▸ hp'))]
            exact h3
          · rw [hdvn]
            omega
        · intro p hp q hq
          rw [hlast] at hq
          injection hq with hq
          subst hq
          rw [hdvc']
          rcases (hmemP p).mp hp with hp' | rfl
          · have h3 := hI.base.hhigh p hp' current hlast
            rw [hdvc] at h3
            rw [dval, hdpres p (fun he' => hnheap (he' ▸ hp'))]
            exact h3
          · rw [hdvn]
        · intro p hp q hq
          rw [hlast] at hq
          injection hq with hq
          subst hq
          rw [hdvc']
          have h3 := hI.base.hpople p hp current hlast
          rw [hdvc] at h3
          rw [dval, hdpres p (fun he' => hntr (he' ▸ hp))]
          exact h3
        · intro he'
          exact absurd he' htrne
      have hI' : ExCore g0 g' s e
          (heappush (kLt fun p => (g'.grid p).distance) heap n) tr1 := by
        refine ⟨hbase', wallEq_of_states hI.weq hstates rfl rfl,
          ?_, ?_, ?_, ?_, hI.endnot, ?_, ?_, ?_, ?_, ?_⟩
        · intro p hp
          rcases hp with hp | hp
          · rcases (hmemP p).mp hp with hp' | rfl
            · exact hI.reach p (Or.inl hp')
            · exact ⟨L + 1, hdist_n.1⟩
          · exact hI.reach p (Or.inr hp)
        · intro p hp
          rcases hp with hp | hp
          · rcases (hmemP p).mp hp with hp' | rfl
            · exact hI.inb p (Or.inl hp')
            · exact Or.inr ((mem_boundsFinset g0 p).mpr
                (mem_get_neighbors_props hnn).1)
          · exact hI.inb p (Or.inr hp)
        · intro p hp
          rcases hp with hp | hp
          · rcases (hmemP p).mp hp with hp' | rfl
            · exact hI.nwall p (Or.inl hp')
            · exact (mem_get_neighbors_props hnn).2
          · exact hI.nwall p (Or.inr hp)
        · rcases hI.sdisc with h | h
          · exact Or.inl ((hmemP s).mpr (Or.inl h))
          · exact Or.inr h
        · rw [hstates e]
          exact hI.ste
        · intro p hp
          rw [hstates p]
          exact hI.sttr p hp
        · intro p hp
          rcases hp with hp | hp
          · rcases (hmemP p).mp hp with hp' | rfl
            · rw [dval, hdpres p (fun he' => hnheap (he' ▸ hp'))]
              exact hI.dexact p (Or.inl hp')
            · rw [hdvn]
              exact hdist_n
          · rw [dval, hdpres p (fun he' => hntr (he' ▸ hp))]
            exact hI.dexact p (Or.inr hp)
        · intro p hp1 hp2
          have hp3 : p ∉ heap := fun h => hp1 ((hmemP p).mpr (Or.inl h))
          have hp4 : p ≠ n := fun h => hp1 ((hmemP p).mpr (Or.inr h))
          rw [hdpres p hp4]
          exact hI.dfresh p hp3 hp2
        · intro p hp
          rcases hp with hp | hp
          · rcases (hmemP p).mp hp with hp' | rfl
            · obtain ⟨ch, hch, hchlen, hchmem⟩ := hI.dchain p (Or.inl hp')
              refine ⟨ch, hch.congr (fun x hx => hppres x ?_), ?_, hchmem⟩
              · rcases hchmem x hx with rfl | hx'
                · exact fun he' => hnheap (he' ▸ hp')
                · exact fun he' => hntr (he' ▸ hx')
              · rw [hchlen, dval_congr (hdpres p (fun he' => hnheap (he' ▸ hp')))]
            · obtain ⟨ch, hch, hchlen, hchmem⟩ := hI.dchain current (Or.inr hcurtr)
              have hch' : PrevChain g' current ch := by
                refine hch.congr (fun x hx => hppres x ?_)
                rcases hchmem x hx with rfl | hx'
                · exact fun he' => hncur he'.symm
                · exact fun he' => hntr (he' ▸ hx')
              refine ⟨p :: ch, PrevChain.cons p current ch hpn hch', ?_, ?_⟩
              · rw [List.length_cons, hchlen, hdvc, hdvn]
              · intro x hx
                rcases List.mem_cons.mp hx with rfl | hx'
                · exact Or.inl rfl
                · rcases hchmem x hx' with rfl | hx''
                  · exact Or.inr hcurtr
                  · exact Or.inr hx''
          · obtain ⟨ch, hch, hchlen, hchmem⟩ := hI.dchain p (Or.inr hp)
            refine ⟨ch, hch.congr (fun x hx => hppres x ?_), ?_, hchmem⟩
            · rcases hchmem x hx with rfl | hx'
              · exact fun he' => hntr (he' ▸ hp)
              · exact fun he' => hntr (he' ▸ hx')
            · rw [hchlen, dval_congr (hdpres p (fun he' => hntr (he' ▸ hp)))]
      have hcl' : ∀ p ∈ tr1, p ≠ current → ∀ q ∈ g0.get_neighbors p,
          q ∈ heappush (kLt fun p' => (g'.grid p').distance) heap n ∨ q ∈ tr1 := by
        intro p hp hpc q hq
        rcases hcl p hp hpc q hq with h | h
        · exact Or.inl ((hmemP q).mpr (Or.inl h))
        · exact Or.inr h
      have hcns' : ∀ q ∈ g0.get_neighbors current,
          q ∈ rest ∨
            q ∈ heappush (kLt fun p' => (g'.grid p').distance) heap n ∨
            q ∈ tr1 := by
        intro q hq
        rcases hcns q hq with h | h | h
        · rcases List.mem_cons.mp h with rfl | h'
          · exact Or.inr (Or.inl ((hmemP q).mpr (Or.inr rfl)))
          · exact Or.inl h'
        · exact Or.inr (Or.inl ((hmemP q).mpr (Or.inl h)))
        · exact Or.inr (Or.inr h)
      exact ihs g0 g' s e current _ tr1 L hI' hlast hcl' hcns'
        (fun m hm => hmem m (by simp [hm])) hcur hcur'
    · have hcond' :
          optLt (optAdd1 (g.grid current).distance) ((g.grid n).distance)
            = false := by
        cases hbv : optLt (optAdd1 (g.grid current).distance)
            ((g.grid n).distance)
        · rfl
        · exact absurd hbv hcond
      rw [dijkstraRelax_cons_false g current n rest heap hcond']
      have hdisc : n ∈ heap ∨ n ∈ tr1 := by
        by_contra hno
        push_neg at hno
        have h0 := hI.dfresh n hno.1 hno.2
        rw [hdL, h0] at hcond'
        simp [optAdd1, optLt] at hcond'
      have hcns' : ∀ q ∈ g0.get_neighbors current,
          q ∈ rest ∨ q ∈ heap ∨ q ∈ tr1 := by
        intro q hq
        rcases hcns q hq with h | h | h
        · rcases List.mem_cons.mp h with rfl | h'
          · exact Or.inr hdisc
          · exact Or.inl h'
        · exact Or.inr (Or.inl h)
        · exact Or.inr (Or.inr h)
      exact ihs g0 g s e current heap tr1 L hI hlast hcl hcns'
        (fun m hm => hmem m (by simp [hm])) hcur hdL

theorem heappop_eq_none {lt : Pos → Pos → Bool} {heap : List Pos}
    (h : heappop lt heap = none) : heap = [] := by
  cases heap with
  | nil => rfl
  | cons a t =>
    exfalso
    obtain ⟨l, hl⟩ : ∃ l, (a :: t).getLast? = some l :=
      ⟨_, List.getLast?_eq_getLast _ (by simp)⟩
    rw [heappop_eq lt (a :: t) l hl] at h
    by_cases hi : (a :: t).dropLast.isEmpty
    · rw [if_pos hi] at h
      cases h
    · rw [if_neg hi] at h
      cases h

/-- Popping and marking a non-end node extends the shortest-path invariant:
the popped node is the new newest counted node. -/
theorem dijkstra_pop_exact {g0 g : Grid} {s e current : Pos}
    {heap tr rest : List Pos}
    (hI : ExInv g0 g s e heap tr)
    (hpop : heappop (nodeLt g) heap = some (current, rest))
    (hce : current ≠ e) :
    ExCore g0 (g.setNode current
        { state := PROCESSING, distance := (g.grid current).distance,
          heuristic := (g.grid current).heuristic,
          prev := (g.grid current).prev }) s e rest (tr ++ [current])
    ∧ (∀ p ∈ tr ++ [current], p ≠ current → ∀ q ∈ g0.get_neighbors p,
        q ∈ rest ∨ q ∈ tr ++ [current]) := by
  obtain ⟨hcmem, hrsub, hrlen, hsup⟩ := heappop_facts hI.core.base.hinv hpop
  have hctr : current ∉ tr := hI.core.base.disj current hcmem
  have hmid : DInv g rest (tr ++ [current]) := dijkstra_pop_mid hI.core.base hpop
  set g1 := g.setNode current
    { state := PROCESSING, distance := (g.grid current).distance,
      heuristic := (g.grid current).heuristic,
      prev := (g.grid current).prev } with hg1
  have hdist1 : ∀ p, (g1.grid p).distance = (g.grid p).distance := by
    intro p
    by_cases hp : p = current
    · subst hp
      simp [hg1, Grid.setNode]
    · simp [hg1, Grid.setNode, hp]
  have hprev1 : ∀ p, (g1.grid p).prev = (g.grid p).prev := by
    intro p
    by_cases hp : p = current
    · subst hp
      simp [hg1, Grid.setNode]
    · simp [hg1, Grid.setNode, hp]
  have hst1 : ∀ p, p ≠ current → (g1.grid p).state = (g.grid p).state := by
    intro p hp
    simp [hg1, Grid.setNode, hp]
  have hstc : (g1.grid current).state = PROCESSING := by
    simp [hg1, Grid.setNode]
  have hT1 : ∀ p, p ∈ tr ++ [current] ↔ p ∈ tr ∨ p = current := by
    intro p
    simp
  have hdisc1 : ∀ p, p ∈ rest ∨ p ∈ tr ++ [current] → p ∈ heap ∨ p ∈ tr := by
    intro p hp
    rcases hp with hp | hp
    · exact Or.inl (hrsub p hp)
    · rcases (hT1 p).mp hp with hp' | rfl
      · exact Or.inr hp'
      · exact Or.inl hcmem
  have hdv1 : ∀ p, dval g1 p = dval g p := fun p => dval_congr (hdist1 p)
  refine ⟨⟨hmid.of_distance_eq hdist1, ?_, ?_, ?_, ?_, ?_, ?_, ?_, ?_, ?_, ?_, ?_⟩, ?_⟩
  · exact wallEq_mark hI.core.weq
      (hI.core.nwall current (Or.inl hcmem)) (by show PROCESSING ≠ WALL; decide)
  · intro p hp
    exact hI.core.reach p (hdisc1 p hp)
  · intro p hp
    exact hI.core.inb p (hdisc1 p hp)
  · intro p hp
    exact hI.core.nwall p (hdisc1 p hp)
  · rcases hI.core.sdisc with h | h
    · rcases hsup s h with h' | h'
      · exact Or.inl h'
      · exact Or.inr ((hT1 s).mpr (Or.inr h'))
    · exact Or.inr ((hT1 s).mpr (Or.inl h))
  · intro he'
    rcases (hT1 e).mp he' with h | h
    · exact hI.core.endnot h
    · exact hce h.symm
  · rw [hst1 e (fun h => hce h.symm)]
    exact hI.core.ste
  · intro p hp
    rcases (hT1 p).mp hp with hp' | rfl
    · rw [hst1 p (fun h => hctr (h ▸ hp'))]
      exact hI.core.sttr p hp'
    · exact hstc
  · intro p hp
    rw [hdv1 p]
    exact hI.core.dexact p (hdisc1 p hp)
  · intro p hp1 hp2
    have hp3 : p ∉ heap := by
      intro h
      rcases hsup p h with h' | h'
      · exact hp1 h'
      · exact hp2 ((hT1 p).mpr (Or.inr h'))
    have hp4 : p ∉ tr := fun h => hp2 ((hT1 p).mpr (Or.inl h))
    rw [hdist1 p]
    exact hI.core.dfresh p hp3 hp4
  · intro p hp
    obtain ⟨ch, hch, hchlen, hchmem⟩ := hI.core.dchain p (hdisc1 p hp)
    refine ⟨ch, hch.congr (fun x _ => hprev1 x), ?_, ?_⟩
    · rw [hchlen, hdv1 p]
    · intro x hx
      rcases hchmem x hx with h | h
      · exact Or.inl h
      · exact Or.inr ((hT1 x).mpr (Or.inl h))
  · intro p hp hpc q hq
    rcases (hT1 p).mp hp with hp' | rfl
    · rcases hI.dclosed p hp' q hq with h | h
      · rcases hsup q h with h' | h'
        · exact Or.inl h'
        · exact Or.inr ((hT1 q).mpr (Or.inr h'))
      · exact Or.inr ((hT1 q).mpr (Or.inl h))
    · exact absurd rfl hpc

/-- Shortest-path partial-plus-termination correctness of the Dijkstra loop:
with the invariant established and enough fuel, the loop returns with the
reported path length equal to the true shortest distance to the end. -/
theorem dijkstraLoop_exact :
    ∀ (fuel rfuel : Nat) (g0 g : Grid) (s e : Pos) (heap tr : List Pos)
      (cnt pl k : Nat),
      ExInv g0 g s e heap tr →
      IsDistN g0 s e k →
      k + 1 ≤ rfuel →
      2 * (insert s (boundsFinset g0)).card + 1 ≤
        2 * tr.length + heap.length + fuel →
      ∃ g' c', dijkstraLoop rfuel e fuel g heap cnt pl = some (g', c', k) := by
  intro fuel
  induction fuel with
  | zero =>
    intro rfuel g0 g s e heap tr cnt pl k hI _ _ hfuel
    exfalso
    have hdisj : List.Disjoint tr heap :=
      fun a ha hb => hI.core.base.disj a hb ha
    have hnd : (tr ++ heap).Nodup :=
      List.Nodup.append hI.core.base.nodupT hI.core.base.nodupH hdisj
    have hsub : ∀ x ∈ tr ++ heap, x ∈ insert s (boundsFinset g0) := by
      intro x hx
      rw [Finset.mem_insert]
      rcases List.mem_append.mp hx with hx' | hx'
      · exact hI.core.inb x (Or.inr hx')
      · exact hI.core.inb x (Or.inl hx')
    have hle := nodup_subset_card hnd hsub
    rw [List.length_append] at hle
    omega
  | succ fuel ih =>
    intro rfuel g0 g s e heap tr cnt pl k hI hk hrf hfuel
    cases hpop : heappop (nodeLt g) heap with
    | none =>
      exfalso
      have hheap : heap = [] := heappop_eq_none hpop
      subst hheap
      have halltr : ∀ (p : Pos) (m : Nat), WalkN g0 s p m → p ∈ tr := by
        intro p m hw
        induction hw with
        | refl =>
          rcases hI.core.sdisc with h | h
          · cases h
          · exact h
        | tail _ hmem ihw =>
          rcases hI.dclosed _ ihw _ hmem with h | h
          · cases h
          · exact h
      exact hI.core.endnot (halltr e k hk.1)
    | some pr =>
      obtain ⟨current, rest⟩ := pr
      obtain ⟨hcmem, hrsub, hrlen, hsup⟩ := heappop_facts hI.core.base.hinv hpop
      by_cases hce : current = e
      · subst hce
        have hde := hI.core.dexact current (Or.inl hcmem)
        have hdvk : dval g current = k := isDistN_unique hde hk
        obtain ⟨ch, hch, hchlen, hchmem⟩ := hI.core.dchain current (Or.inl hcmem)
        obtain ⟨t, rfl⟩ : ∃ t, ch = current :: t := by
          cases hch with
          | last _ _ => exact ⟨[], rfl⟩
          | cons _ q r _ _ => exact ⟨r, rfl⟩
        have htlen : t.length = k := by
          rw [List.length_cons, hdvk] at hchlen
          omega
        have hcnotint : current ∉ t := (List.nodup_cons.mp hch.nodup).1
        obtain ⟨g'', hrec⟩ := reconstruct_path_chain (current :: t) g current hch
          rfuel 0 (by rw [List.length_cons, htlen]; omega)
        have hcount : ((current :: t).countP fun x =>
            decide ((g.grid x).state ≠ START ∧ (g.grid x).state ≠ END)) = k := by
          rw [List.countP_cons]
          have he0 : (decide ((g.grid current).state ≠ START ∧
              (g.grid current).state ≠ END)) = false := by
            rw [hI.core.ste]
            decide
          rw [he0]
          have hall : ∀ x ∈ t, (decide ((g.grid x).state ≠ START ∧
              (g.grid x).state ≠ END)) = true := by
            intro x hx
            have hxtr : x ∈ tr := by
              rcases hchmem x (by simp [hx]) with h | h
              · exact absurd (h ▸ hx) hcnotint
              · exact h
            rw [hI.core.sttr x hxtr]
            decide
          rw [countP_eq_length_of_all hall, htlen]
          simp
        rw [hcount, Nat.zero_add] at hrec
        rw [dijkstraLoop_pop_some rfuel fuel cnt pl current hpop, if_pos rfl,
          hrec]
        exact ⟨g'', cnt, rfl⟩
      · obtain ⟨hcore1, hcl1⟩ := dijkstra_pop_exact hI hpop hce
        rw [dijkstraLoop_pop_some rfuel fuel cnt pl e hpop, if_neg hce]
        set g1 := g.setNode current
          { state := PROCESSING, distance := (g.grid current).distance,
            heuristic := (g.grid current).heuristic,
            prev := (g.grid current).prev } with hg1
        set ns := g1.get_neighbors current with hns
        have hw1 : WallEq g0 g1 :=
          wallEq_mark hI.core.weq (hI.core.nwall current (Or.inl hcmem))
            (by show PROCESSING ≠ WALL; decide)
        have hnseq : ns = g0.get_neighbors current := by
          rw [hns]
          exact get_neighbors_wallEq hw1 current
        obtain ⟨c, hc⟩ := hI.core.base.hfinH current hcmem
        have hdvc : dval g current = c := by rw [dval, hc]; rfl
        have hcurd : IsDistN g0 s current c := by
          rw [← hdvc]
          exact hI.core.dexact current (Or.inl hcmem)
        have hdL1 : (g1.grid current).distance = some c := by
          rw [← hc]
          by_cases hp : current = current
          · simp [hg1, Grid.setNode]
          · exact absurd rfl hp
        have hlast1 : (tr ++ [current]).getLast? = some current :=
          getLast_append_singleton tr current
        have hcns : ∀ q ∈ g0.get_neighbors current,
            q ∈ ns ∨ q ∈ rest ∨ q ∈ tr ++ [current] := by
          intro q hq
          rw [hnseq]
          exact Or.inl hq
        obtain ⟨hcore', hcl', hclC'⟩ := dijkstraRelax_exact ns g0 g1 s e current
          rest (tr ++ [current]) c hcore1 hlast1 hcl1 hcns
          (fun n hn => by rw [← hnseq]; exact hn) hcurd hdL1
        have hI' : ExInv g0 (dijkstraRelax g1 current ns rest).1 s e
            (dijkstraRelax g1 current ns rest).2 (tr ++ [current]) := by
          refine ⟨hcore', ?_⟩
          intro p hp q hq
          by_cases hpc : p = current
          · subst hpc
            exact hclC' q hq
          · exact hcl' p hp hpc q hq
        obtain ⟨_, _, _, _, haL⟩ := dijkstraRelax_aux ns g1 current rest
        apply ih rfuel g0 _ s e _ _ (cnt + 1) pl k hI' hk hrf
        have h2 : (tr ++ [current]).length = tr.length + 1 := by simp
        omega

/-- The invariant of the BFS shortest-path proof, shared between iterations
and the enqueue loop.  `tr1` is the list of counted (dequeued and marked)
nodes, `lv` the distance of the newest counted layer. -/
structure BfsMid (g0 g : Grid) (s e : Pos) (queue visited tr1 : List Pos)
    (lv : Nat) : Prop where
  weq : WallEq g0 g
  vset : ∀ p, p ∈ visited ↔ p ∈ tr1 ∨ p ∈ queue
  vnodup : visited.Nodup
  qnodup : queue.Nodup
  qdisj : ∀ p ∈ queue, p ∉ tr1
  trlv : ∀ p ∈ tr1, ∃ m, m ≤ lv ∧ IsDistN g0 s p m
  compl : ∀ p m, WalkN g0 s p m → m ≤ lv → p ∈ visited
  vok : ∀ p ∈ visited, NodeOK g0 s p
  endnot : e ∉ tr1
  ste : (g.grid e).state = END
  sttr : ∀ p ∈ tr1, (g.grid p).state = PROCESSING
  prevfresh : ∀ p, p ∉ visited → (g.grid p).prev = none
  chains : ∀ p ∈ visited, ∃ ch m, IsDistN g0 s p m ∧ PrevChain g p ch ∧
    ch.length = m + 1 ∧ ∀ x ∈ ch, x = p ∨ x ∈ tr1

/-- The BFS enqueue loop preserves the shortest-path invariant: fresh
neighbors of the expanded node join the queue's far end at the next layer,
with exact distances and predecessor chains. -/
theorem bfsEnqueue_exact :
    ∀ (ns : List Pos) (g0 g : Grid) (s e current : Pos)
      (queue visited tr1 : List Pos) (lv : Nat),
      BfsMid g0 g s e queue visited tr1 lv →
      (∀ n ∈ ns, n ∈ g0.get_neighbors current) →
      IsDistN g0 s current lv →
      current ∈ tr1 →
      BfsMid g0 (bfsEnqueue g current ns queue visited).1 s e
          (bfsEnqueue g current ns queue visited).2.1
          (bfsEnqueue g current ns queue visited).2.2 tr1 lv
        ∧ (∃ qn, (bfsEnqueue g current ns queue visited).2.1 = queue ++ qn
            ∧ ∀ p ∈ qn, IsDistN g0 s p (lv + 1))
        ∧ (∀ p ∈ visited, p ∈ (bfsEnqueue g current ns queue visited).2.2)
        ∧ (∀ q ∈ ns, q ∈ (bfsEnqueue g current ns queue visited).2.2)
        ∧ (bfsEnqueue g current ns queue visited).2.2.length + queue.length =
            (bfsEnqueue g current ns queue visited).2.1.length + visited.length
        ∧ visited.length ≤ (bfsEnqueue g current ns queue visited).2.2.length := by
  intro ns
  induction ns with
  | nil =>
    intro g0 g s e current queue visited tr1 lv hI _ _ _
    exact ⟨hI, ⟨[], by simp [bfsEnqueue], by simp⟩, fun p hp => hp,
      fun q hq => absurd hq (List.not_mem_nil q), Nat.add_comm _ _, le_refl _⟩
  | cons n rest ihs =>
    intro g0 g s e current queue visited tr1 lv hI hmem hcur hctr
    have hnn : n ∈ g0.get_neighbors current := hmem n (by simp)
    have hcvis : current ∈ visited := (hI.vset current).mpr (Or.inl hctr)
    by_cases hv : n ∈ visited
    · rw [bfsEnqueue_skip g current n rest queue visited hv]
      obtain ⟨ih1, ih2, ih3, ih4, ih5, ih6⟩ :=
        ihs g0 g s e current queue visited tr1 lv hI
          (fun m hm => hmem m (by simp [hm])) hcur hctr
      refine ⟨ih1, ih2, ih3, ?_, ih5, ih6⟩
      intro q hq
      rcases List.mem_cons.mp hq with rfl | hq'
      · exact ih3 q hv
      · exact ih4 q hq'
    · rw [bfsEnqueue_push g current n rest queue visited hv]
      have hntr : n ∉ tr1 := fun h => hv ((hI.vset n).mpr (Or.inl h))
      have hnq : n ∉ queue := fun h => hv ((hI.vset n).mpr (Or.inr h))
      -- the fresh node's distance is exactly lv + 1
      have hdn : IsDistN g0 s n (lv + 1) := by
        refine ⟨WalkN.tail hcur.1 hnn, ?_⟩
        intro m hw
        by_contra hlt
        push_neg at hlt
        exact hv (hI.compl n m hw (by omega))
      set g' := g.setNode n
        { state := (g.grid n).state, distance := (g.grid n).distance,
          heuristic := (g.grid n).heuristic, prev := some current } with hg'
      have hstates : ∀ p, (g'.grid p).state = (g.grid p).state := by
        intro p
        by_cases hp : p = n
        · subst hp
          simp [hg', Grid.setNode]
        · simp [hg', Grid.setNode, hp]
      have hprev : ∀ p, p ≠ n → (g'.grid p).prev = (g.grid p).prev := by
        intro p hp
        simp [hg', Grid.setNode, hp]
      have hpn : (g'.grid n).prev = some current := by
        simp [hg', Grid.setNode]
      have hI' : BfsMid g0 g' s e (queue ++ [n]) (n :: visited) tr1 lv := by
        refine ⟨wallEq_of_states hI.weq hstates rfl rfl, ?_, ?_, ?_, ?_,
          hI.trlv, ?_, ?_, hI.endnot, ?_, ?_, ?_, ?_⟩
        · intro p
          rw [List.mem_cons, hI.vset p, List.mem_append, List.mem_singleton]
          constructor
          · intro h
            rcases h with rfl | h | h
            · exact Or.inr (Or.inr rfl)
            · exact Or.inl h
            · exact Or.inr (Or.inl h)
          · intro h
            rcases h with h | h | rfl
            · exact Or.inr (Or.inl h)
            · exact Or.inr (Or.inr h)
            · exact Or.inl rfl
        · exact List.nodup_cons.mpr ⟨hv, hI.vnodup⟩
        · exact nodup_append_singleton hI.qnodup hnq
        · intro p hp
          rcases List.mem_append.mp hp with hp' | hp'
          · exact hI.qdisj p hp'
          · rw [List.mem_singleton] at hp'
            exact hp' ▸ hntr
        · intro p m hw hm
          exact List.mem_cons_of_mem n (hI.compl p m hw hm)
        · intro p hp
          rcases List.mem_cons.mp hp with rfl | hp'
          · obtain ⟨hb, hnw⟩ := mem_get_neighbors_props hnn
            exact ⟨⟨lv + 1, hdn.1⟩, Or.inr ((mem_boundsFinset g0 p).mpr hb), hnw⟩
          · exact hI.vok p hp'
        · rw [hstates e]
          exact hI.ste
        · intro p hp
          rw [hstates p]
          exact hI.sttr p hp
        · intro p hp
          have hp1 : p ∉ visited := fun h => hp (List.mem_cons_of_mem n h)
          have hp2 : p ≠ n := fun h => hp (h ▸ List.mem_cons_self n visited)
          rw [hprev p hp2]
          exact hI.prevfresh p hp1
        · intro p hp
          rcases List.mem_cons.mp hp with rfl | hp'
          · obtain ⟨ch, m, hm, hchain, hlen, hmem'⟩ := hI.chains current hcvis
            have hmlv : m = lv := isDistN_unique hm hcur
            subst hmlv
            have hchain' : PrevChain g' current ch := by
              refine hchain.congr (fun x hx => hprev x ?_)
              rcases hmem' x hx with rfl | hx'
              · exact fun he' => hv (he' ▸ hcvis)
              · exact fun he' => hntr (he' ▸ hx')
            refine ⟨p :: ch, m + 1, hdn, PrevChain.cons p current ch hpn hchain',
              ?_, ?_⟩
            · rw [List.length_cons, hlen]
            · intro x hx
              rcases List.mem_cons.mp hx with rfl | hx'
              · exact Or.inl rfl
              · rcases hmem' x hx' with rfl | hx''
                · exact Or.inr hctr
                · exact Or.inr hx''
          · obtain ⟨ch, m, hm, hchain, hlen, hmem'⟩ := hI.chains p hp'
            refine ⟨ch, m, hm, hchain.congr (fun x hx => hprev x ?_), hlen, hmem'⟩
            rcases hmem' x hx with rfl | hx'
            · exact fun he' => hv (he' ▸ hp')
            · exact fun he' => hntr (he' ▸ hx')
      obtain ⟨ih1, ⟨qn, hqn, hqnlv⟩, ih3, ih4, ih5, ih6⟩ :=
        ihs g0 g' s e current (queue ++ [n]) (n :: visited) tr1 lv hI'
          (fun m hm => hmem m (by simp [hm])) hcur hctr
      refine ⟨ih1, ⟨[n] ++ qn, by rw [hqn, List.append_assoc], ?_⟩, ?_, ?_, ?_, ?_⟩
      · intro p hp
        rcases List.mem_append.mp hp with hp' | hp'
        · rw [List.mem_singleton] at hp'
          exact hp' ▸ hdn
        · exact hqnlv p hp'
      · intro p hp
        exact ih3 p (List.mem_cons_of_mem n hp)
      · intro q hq
        rcases List.mem_cons.mp hq with rfl | hq'
        · exact ih3 q (List.mem_cons_self q visited)
        · exact ih4 q hq'
      · have h2 : (queue ++ [n]).length = queue.length + 1 := by simp
        have h3 : (n :: visited).length = visited.length + 1 := by simp
        rw [h2, h3] at ih5
        omega
      · have h3 : (n :: visited).length = visited.length + 1 := by simp
        rw [h3] at ih6
        omega

/-- Shortest-path correctness of the BFS loop: with the invariant established
and enough fuel, the loop returns with the reported path length equal to the
true shortest distance to the end. -/
theorem bfsLoop_exact :
    ∀ (fuel rfuel : Nat) (g0 g : Grid) (s e : Pos)
      (q1 q2 visited tr : List Pos) (lv : Nat) (cnt pl k : Nat),
      BfsMid g0 g s e (q1 ++ q2) visited tr lv →
      (∀ p ∈ tr, ∀ q ∈ g0.get_neighbors p, q ∈ visited) →
      (∀ p ∈ q1, IsDistN g0 s p lv) →
      (∀ p ∈ q2, IsDistN g0 s p (lv + 1)) →
      IsDistN g0 s e k →
      k + 1 ≤ rfuel →
      2 * (insert s (boundsFinset g0)).card + (q1 ++ q2).length + 1 ≤
        2 * visited.length + fuel →
      ∃ g' c', bfsLoop rfuel e fuel g (q1 ++ q2) visited cnt pl =
        some (g', c', k) := by
  intro fuel
  induction fuel with
  | zero =>
    intro rfuel g0 g s e q1 q2 visited tr lv cnt pl k hI _ _ _ _ _ hfuel
    exfalso
    have hle := nodup_subset_card hI.vnodup (fun x hx => by
      rw [Finset.mem_insert]
      exact (hI.vok x hx).2.1)
    omega
  | succ fuel ih =>
    intro rfuel g0 g s e q1 q2 visited tr lv cnt pl k hI hclosed hlv1 hlv2 hk
      hrf hfuel
    have hstep : ∀ (c1 : Pos) (q1t q2t : List Pos) (lvt : Nat),
        q1 ++ q2 = c1 :: (q1t ++ q2t) →
        BfsMid g0 g s e (c1 :: (q1t ++ q2t)) visited tr lvt →
        (∀ p ∈ c1 :: q1t, IsDistN g0 s p lvt) →
        (∀ p ∈ q2t, IsDistN g0 s p (lvt + 1)) →
        ∃ g' c', bfsLoop rfuel e (fuel + 1) g (q1 ++ q2) visited cnt pl =
          some (g', c', k) := by
      intro c1 q1t q2t lvt hqe hIm hl1 hl2
      rw [hqe]
      rw [hqe] at hfuel
      have hc1d : IsDistN g0 s c1 lvt := hl1 c1 (by simp)
      have hc1vis : c1 ∈ visited := (hIm.vset c1).mpr (Or.inr (by simp))
      have hc1tr : c1 ∉ tr := hIm.qdisj c1 (by simp)
      by_cases hce : c1 = e
      · subst hce
        have hlvk : lvt = k := isDistN_unique hc1d hk
        obtain ⟨ch, m, hm, hchain, hchlen, hchmem⟩ := hIm.chains c1 hc1vis
        have hmk : m = k := isDistN_unique hm hk
        rw [hmk] at hchlen
        obtain ⟨t, rfl⟩ : ∃ t, ch = c1 :: t := by
          cases hchain with
          | last _ _ => exact ⟨[], rfl⟩
          | cons _ q r _ _ => exact ⟨r, rfl⟩
        have htlen : t.length = k := by
          rw [List.length_cons] at hchlen
          omega
        have hcnotint : c1 ∉ t := (List.nodup_cons.mp hchain.nodup).1
        obtain ⟨g'', hrec⟩ := reconstruct_path_chain (c1 :: t) g c1 hchain
          rfuel 0 (by rw [List.length_cons, htlen]; omega)
        have hcount : ((c1 :: t).countP fun x =>
            decide ((g.grid x).state ≠ START ∧ (g.grid x).state ≠ END)) = k := by
          rw [List.countP_cons]
          have he0 : (decide ((g.grid c1).state ≠ START ∧
              (g.grid c1).state ≠ END)) = false := by
            rw [hIm.ste]
            decide
          rw [he0]
          have hall : ∀ x ∈ t, (decide ((g.grid x).state ≠ START ∧
              (g.grid x).state ≠ END)) = true := by
            intro x hx
            have hxtr : x ∈ tr := by
              rcases hchmem x (by simp [hx]) with h | h
              · exact absurd (h ▸ hx) hcnotint
              · exact h
            rw [hIm.sttr x hxtr]
            decide
          rw [countP_eq_length_of_all hall, htlen]
          simp
        rw [hcount, Nat.zero_add] at hrec
        rw [bfsLoop_cons rfuel fuel cnt pl c1 g c1 (q1t ++ q2t) visited,
          if_pos rfl, hrec]
        exact ⟨g'', cnt, rfl⟩
      · rw [bfsLoop_cons rfuel fuel cnt pl e g c1 (q1t ++ q2t) visited,
          if_neg hce]
        set g1 := g.setNode c1
          { state := PROCESSING, distance := (g.grid c1).distance,
            heuristic := (g.grid c1).heuristic,
            prev := (g.grid c1).prev } with hg1
        set ns := g1.get_neighbors c1 with hns
        have hnw : (g0.grid c1).state ≠ WALL := (hIm.vok c1 hc1vis).2.2
        have hw1 : WallEq g0 g1 :=
          wallEq_mark hIm.weq hnw (by show PROCESSING ≠ WALL; decide)
        have hnseq : ns = g0.get_neighbors c1 := by
          rw [hns]
          exact get_neighbors_wallEq hw1 c1
        have hst1 : ∀ p, p ≠ c1 → (g1.grid p).state = (g.grid p).state := by
          intro p hp
          simp [hg1, Grid.setNode, hp]
        have hstc : (g1.grid c1).state = PROCESSING := by
          simp [hg1, Grid.setNode]
        have hprev1 : ∀ p, (g1.grid p).prev = (g.grid p).prev := by
          intro p
          by_cases hp : p = c1
          · subst hp
            simp [hg1, Grid.setNode]
          · simp [hg1, Grid.setNode, hp]
        have hc1rest : c1 ∉ q1t ++ q2t :=
          (List.nodup_cons.mp hIm.qnodup).1
        have hmid : BfsMid g0 g1 s e (q1t ++ q2t) visited (tr ++ [c1]) lvt := by
          refine ⟨hw1, ?_, hIm.vnodup, (List.nodup_cons.mp hIm.qnodup).2,
            ?_, ?_, hIm.compl, hIm.vok, ?_, ?_, ?_, ?_, ?_⟩
          · intro p
            rw [hIm.vset p]
            constructor
            · intro h
              rcases h with h | h
              · exact Or.inl (List.mem_append.mpr (Or.inl h))
              · rcases List.mem_cons.mp h with rfl | h'
                · exact Or.inl (List.mem_append.mpr (Or.inr (by simp)))
                · exact Or.inr h'
            · intro h
              rcases h with h | h
              · rcases List.mem_append.mp h with h' | h'
                · exact Or.inl h'
                · rw [List.mem_singleton] at h'
                  exact Or.inr (by simp [h'])
              · exact Or.inr (List.mem_cons_of_mem c1 h)
          · intro p hp
            intro hmem
            rcases List.mem_append.mp hmem with h | h
            · exact hIm.qdisj p (List.mem_cons_of_mem c1 hp) h
            · rw [List.mem_singleton] at h
              exact hc1rest (h ▸ hp)
          · intro p hp
            rcases List.mem_append.mp hp with h | h
            · obtain ⟨m', hm', hd'⟩ := hIm.trlv p h
              exact ⟨m', hm', hd'⟩
            · rw [List.mem_singleton] at h
              exact ⟨lvt, le_refl _, h ▸ hc1d⟩
          · intro he'
            rcases List.mem_append.mp he' with h | h
            · exact hIm.endnot h
            · rw [List.mem_singleton] at h
              exact hce h.symm
          · rw [hst1 e (fun h => hce h.symm)]
            exact hIm.ste
          · intro p hp
            rcases List.mem_append.mp hp with h | h
            · rw [hst1 p (fun h' => hc1tr (h' ▸ h))]
              exact hIm.sttr p h
            · rw [List.mem_singleton] at h
              exact h ▸ hstc
          · intro p hp
            rw [hprev1 p]
            exact hIm.prevfresh p hp
          · intro p hp
            obtain ⟨ch, m, hm, hchain, hlen, hmemch⟩ := hIm.chains p hp
            refine ⟨ch, m, hm, hchain.congr (fun x _ => hprev1 x), hlen, ?_⟩
            intro x hx
            rcases hmemch x hx with h | h
            · exact Or.inl h
            · exact Or.inr (List.mem_append.mpr (Or.inl h))
        obtain ⟨m1, ⟨qn, hqn, hqnlv⟩, m3, m4, m5, m6⟩ :=
          bfsEnqueue_exact ns g0 g1 s e c1 (q1t ++ q2t) visited (tr ++ [c1])
            lvt hmid (fun n hn => by rw [← hnseq]; exact hn) hc1d (by simp)
        have hqn2 : (bfsEnqueue g1 c1 ns (q1t ++ q2t) visited).2.1 =
            q1t ++ (q2t ++ qn) := by
          rw [hqn, List.append_assoc]
        rw [hqn2] at m1
        rw [hqn2]
        have hclosed' : ∀ p ∈ tr ++ [c1], ∀ q ∈ g0.get_neighbors p,
            q ∈ (bfsEnqueue g1 c1 ns (q1t ++ q2t) visited).2.2 := by
          intro p hp q hq
          rcases List.mem_append.mp hp with h | h
          · exact m3 q (hclosed p h q hq)
          · rw [List.mem_singleton] at h
            subst h
            exact m4 q (by rw [hnseq]; exact hq)
        apply ih rfuel g0 _ s e q1t (q2t ++ qn) _ (tr ++ [c1]) lvt (cnt + 1)
          pl k m1 hclosed' (fun p hp => hl1 p (by simp [hp])) ?_ hk hrf ?_
        · intro p hp
          rcases List.mem_append.mp hp with h | h
          · exact hl2 p h
          · exact hqnlv p h
        · rw [hqn] at m5
          simp only [List.length_append, List.length_cons] at m5 hfuel ⊢
          omega
    rcases q1 with _ | ⟨c1, q1'⟩
    · rcases q2 with _ | ⟨c2, q2'⟩
      · exfalso
        have hallvis : ∀ (p : Pos) (m : Nat), WalkN g0 s p m → p ∈ visited := by
          intro p m hw
          induction hw with
          | refl => exact hI.compl s 0 (WalkN.refl s) (by omega)
          | tail w hmem ihw =>
            have hqtr := (hI.vset _).mp ihw
            rcases hqtr with h | h
            · exact hclosed _ h _ hmem
            · simp at h
        have hev := hallvis e k hk.1
        rcases (hI.vset e).mp hev with h | h
        · exact hI.endnot h
        · simp at h
      · have hbump : BfsMid g0 g s e (c2 :: (q2' ++ [])) visited tr (lv + 1) := by
          have hIq : BfsMid g0 g s e ([] ++ (c2 :: q2')) visited tr lv := hI
          refine ⟨hIq.weq, ?_, hIq.vnodup, ?_, ?_, ?_, ?_, hIq.vok,
            hIq.endnot, hIq.ste, hIq.sttr, hIq.prevfresh, ?_⟩
          · intro p
            rw [hIq.vset p]
            simp
          · have := hIq.qnodup
            simpa using this
          · intro p hp
            apply hIq.qdisj
            simpa using hp
          · intro p hp
            obtain ⟨m', hm', hd'⟩ := hIq.trlv p hp
            exact ⟨m', by omega, hd'⟩
          · intro p m hw hm
            rcases Nat.lt_or_ge m (lv + 1) with h | h
            · exact hIq.compl p m hw (by omega)
            · have hmeq : m = lv + 1 := by omega
              subst hmeq
              obtain ⟨q, hwq, hstepq⟩ := walkN_succ hw
              have hqvis : q ∈ visited := hIq.compl q lv hwq (le_refl _)
              rcases (hIq.vset q).mp hqvis with h' | h'
              · exact hclosed q h' p hstepq
              · simp only [List.nil_append] at h'
                have hq2 : IsDistN g0 s q (lv + 1) := hlv2 q h'
                have := hq2.2 lv hwq
                omega
          · intro p hp
            obtain ⟨ch, m, hm, hchain, hlen, hmemch⟩ := hIq.chains p hp
            exact ⟨ch, m, hm, hchain, hlen, hmemch⟩
        apply hstep c2 q2' [] (lv + 1) (by simp) hbump ?_ ?_
        · intro p hp
          rcases List.mem_cons.mp hp with rfl | hp'
          · exact hlv2 p (by simp)
          · exact hlv2 p (by simp [hp'])
        · intro p hp
          cases hp
    · exact hstep c1 q1' q2 lv (by simp) (by simpa using hI) hlv1 hlv2

/-- Each search step moves one grid cell, so walks are at least as long as
the Manhattan distance they cover. -/
theorem walkN_manhattan_le {g : Grid} {s p : Pos} {n : Nat}
    (h : WalkN g s p n) : (s.1 - p.1).natAbs + (s.2 - p.2).natAbs ≤ n := by
  induction h with
  | refl => simp
  | tail w hmem ih =>
    rename_i q' r' n'
    have h1 : r' ∈ rdlu q' := by
      rw [get_neighbors_eq_filter] at hmem
      exact (List.mem_filter.mp hmem).1
    have h2 : adjacent q' r' := (mem_rdlu_iff_adjacent q' r').mp h1
    rcases s with ⟨a, b⟩
    rcases q' with ⟨c, d⟩
    rcases r' with ⟨u, v⟩
    simp only [adjacent] at h2
    simp only [] at ih ⊢
    rcases h2 with ⟨h3, h4⟩ | ⟨h3, h4⟩ <;> omega

/-- C1: on a freshly configured grid whose end is reachable, BFS, Dijkstra,
and A* all terminate and report a path length equal to the true shortest
edge-count distance `k` between start and end, given fuel for the embedding's
loop bounds. -/
theorem c1_shortest_path_lengths (fuel rfuel : Nat) (g : Grid) (pl : Nat)
    (s e : Pos) (k : Nat)
    (hs : g.startPos = some s) (he : g.endPos = some e)
    (hfr : ∀ p, (g.grid p).distance = none ∧ (g.grid p).prev = none)
    (hsnw : (g.grid s).state ≠ WALL)
    (hee : (g.grid e).state = END)
    (hk : IsDistN g s e k)
    (hfuel : 5 * (insert s (boundsFinset g)).card + 5 ≤ fuel)
    (hrfuel : k + 1 ≤ rfuel) :
    (∃ g1 c1, dijkstra fuel rfuel g pl = some (g1, c1, k))
    ∧ (∃ g2 c2, a_star fuel rfuel g pl = some (g2, c2, k))
    ∧ (∃ g3 c3, bfs fuel rfuel g pl = some (g3, c3, k)) := by
  have hdss : IsDistN g s s 0 := ⟨WalkN.refl s, fun m _ => Nat.zero_le m⟩
  have hD : ∃ g1 c1, dijkstra fuel rfuel g pl = some (g1, c1, k) := by
    have hstates : ∀ p,
        (((g.setNode s { g.grid s with distance := some 0 }).grid p)).state =
          (g.grid p).state := by
      intro p
      by_cases hp : p = s
      · subst hp
        simp [Grid.setNode]
      · simp [Grid.setNode, hp]
    have hprevs : ∀ p,
        (((g.setNode s { g.grid s with distance := some 0 }).grid p)).prev =
          (g.grid p).prev := by
      intro p
      by_cases hp : p = s
      · subst hp
        simp [Grid.setNode]
      · simp [Grid.setNode, hp]
    have hds0 : (((g.setNode s { g.grid s with distance := some 0 }).grid s)).distance
        = some 0 := by
      simp [Grid.setNode]
    have hdpres : ∀ p, p ≠ s →
        (((g.setNode s { g.grid s with distance := some 0 }).grid p)).distance
          = (g.grid p).distance := by
      intro p hp
      simp [Grid.setNode, hp]
    have hmem1 : ∀ p : Pos, p ∈ [s] ∨ p ∈ ([] : List Pos) → p = s := by
      intro p hp
      rcases hp with hp | hp
      · exact List.mem_singleton.mp hp
      · cases hp
    have hinv : ExInv g (g.setNode s { g.grid s with distance := some 0 })
        s e [s] [] := by
      refine ⟨⟨dijkstra_entry_inv g s,
        wallEq_of_states (wallEq_refl g) hstates rfl rfl,
        ?_, ?_, ?_, Or.inl (by simp), ?_, ?_, ?_, ?_, ?_, ?_⟩, ?_⟩
      · intro p hp
        rw [hmem1 p hp]
        exact ⟨0, WalkN.refl s⟩
      · intro p hp
        exact Or.inl (hmem1 p hp)
      · intro p hp
        rw [hmem1 p hp]
        exact hsnw
      · intro h
        cases h
      · rw [hstates e]
        exact hee
      · intro p hp
        cases hp
      · intro p hp
        rw [hmem1 p hp]
        have : dval (g.setNode s { g.grid s with distance := some 0 }) s = 0 := by
          rw [dval, hds0]
          rfl
        rw [this]
        exact hdss
      · intro p hp1 hp2
        have hps : p ≠ s := fun h => hp1 (h ▸ (by simp : s ∈ [s]))
        rw [hdpres p hps]
        exact (hfr p).1
      · intro p hp
        rw [hmem1 p hp]
        refine ⟨[s], PrevChain.last s (by rw [hprevs s]; exact (hfr s).2),
          ?_, ?_⟩
        · have : dval (g.setNode s { g.grid s with distance := some 0 }) s = 0 := by
            rw [dval, hds0]
            rfl
          rw [this]
          rfl
        · intro x hx
          exact Or.inl (List.mem_singleton.mp hx)
      · intro p hp q hq
        cases hp
    obtain ⟨g1, c1, h1⟩ := dijkstraLoop_exact fuel rfuel g _ s e [s] [] 0 pl k
      hinv hk hrfuel
      (by simp only [List.length_nil, List.length_singleton]; omega)
    refine ⟨g1, c1, ?_⟩
    rw [dijkstra, hs, he]
    exact h1
  refine ⟨hD, ?_, ?_⟩
  · obtain ⟨g1, c1, h1⟩ := hD
    have key : (a_star fuel rfuel g pl).map (fun r => (eraseH r.1, r.2)) =
        (dijkstra fuel rfuel g pl).map (fun r => (eraseH r.1, r.2)) := by
      rw [a_star, dijkstra]
      cases hs2 : g.startPos with
      | none => rfl
      | some s2 =>
        cases he2 : g.endPos with
        | none => rfl
        | some e2 => exact loop_eraseH fuel rfuel e2 rfl _ 0 pl
    rw [h1] at key
    obtain ⟨r, hr, hproj⟩ := Option.map_eq_some'.mp key
    rw [Prod.mk.injEq] at hproj
    have hrr : r = (r.1, (c1, k)) := Prod.ext_iff.mpr ⟨rfl, hproj.2⟩
    exact ⟨r.1, c1, by rw [hr, hrr]⟩
  · have hmid : BfsMid g g s e ([s] ++ []) [s] [] 0 := by
      refine ⟨wallEq_refl g, ?_, List.nodup_singleton s, ?_, ?_, ?_, ?_, ?_,
        ?_, hee, ?_, ?_, ?_⟩
      · intro p
        simp
      · simpa using List.nodup_singleton s
      · intro p _ hp
        cases hp
      · intro p hp
        cases hp
      · intro p m hw hm
        have hm0 : m = 0 := by omega
        subst hm0
        rw [walkN_zero hw]
        simp
      · intro p hp
        rw [List.mem_singleton] at hp
        subst hp
        exact ⟨⟨0, WalkN.refl p⟩, Or.inl rfl, hsnw⟩
      · intro h
        cases h
      · intro p hp
        cases hp
      · intro p _
        exact (hfr p).2
      · intro p hp
        rw [List.mem_singleton] at hp
        subst hp
        refine ⟨[p], 0, ⟨WalkN.refl p, fun m _ => Nat.zero_le m⟩,
          PrevChain.last p (hfr p).2, rfl, ?_⟩
        intro x hx
        exact Or.inl (List.mem_singleton.mp hx)
    obtain ⟨g3, c3, h3⟩ := bfsLoop_exact fuel rfuel g g s e [s] [] [s] [] 0 0
      pl k hmid (fun p hp => by cases hp)
      (fun p hp => by rw [List.mem_singleton.mp hp]; exact hdss)
      (fun p hp => by cases hp) hk hrfuel
      (by simp only [List.length_nil, List.length_singleton,
        List.length_append]; omega)
    refine ⟨g3, c3, ?_⟩
    rw [bfs, hs, he]
    exact h3

theorem mkGrid_fresh (rows cols : Int) (walls : List Pos) (s e p : Pos) :
    ((mkGrid rows cols walls s e).grid p).distance = none ∧
      ((mkGrid rows cols walls s e).grid p).prev = none := by
  have hgrid : (mkGrid rows cols walls s e).grid p =
      (if p = s then { state := START }
       else if p = e then { state := END }
       else if p ∈ walls then { state := WALL } else {}) := rfl
  rw [hgrid]
  by_cases h1 : p = s
  · rw [if_pos h1]
    exact ⟨rfl, rfl⟩
  · rw [if_neg h1]
    by_cases h2 : p = e
    · rw [if_pos h2]
      exact ⟨rfl, rfl⟩
    · rw [if_neg h2]
      by_cases h3 : p ∈ walls
      · rw [if_pos h3]
        exact ⟨rfl, rfl⟩
      · rw [if_neg h3]
        exact ⟨rfl, rfl⟩

theorem cgOpen5_dist8 : IsDistN cgOpen5 (0, 0) (4, 4) 8 := by
  constructor
  · have w1 : WalkN cgOpen5 (0, 0) (0, 1) 1 :=
      WalkN.tail (WalkN.refl (0, 0)) (by decide)
    have w2 : WalkN cgOpen5 (0, 0) (0, 2) 2 := WalkN.tail w1 (by decide)
    have w3 : WalkN cgOpen5 (0, 0) (0, 3) 3 := WalkN.tail w2 (by decide)
    have w4 : WalkN cgOpen5 (0, 0) (0, 4) 4 := WalkN.tail w3 (by decide)
    have w5 : WalkN cgOpen5 (0, 0) (1, 4) 5 := WalkN.tail w4 (by decide)
    have w6 : WalkN cgOpen5 (0, 0) (2, 4) 6 := WalkN.tail w5 (by decide)
    have w7 : WalkN cgOpen5 (0, 0) (3, 4) 7 := WalkN.tail w6 (by decide)
    exact WalkN.tail w7 (by decide)
  · intro m hw
    have h := walkN_manhattan_le hw
    simp only [] at h
    omega

theorem c1_witness :
    (∃ g1 c1, dijkstra 200 200 cgOpen5 0 = some (g1, c1, 8))
    ∧ (∃ g2 c2, a_star 200 200 cgOpen5 0 = some (g2, c2, 8))
    ∧ (∃ g3 c3, bfs 200 200 cgOpen5 0 = some (g3, c3, 8)) :=
  c1_shortest_path_lengths 200 200 cgOpen5 0 (0, 0) (4, 4) 8 rfl rfl
    (fun p => mkGrid_fresh 5 5 [] (0, 0) (4, 4) p) (by decide) (by decide)
    cgOpen5_dist8 (by decide) (by decide)
